import Mathlib

/-!
Verification of the schema validation compiler (the `suckless` schema
package).  The source compiles a schema descriptor into a JavaScript
validator function via code generation (`emit`), with a per-descriptor
cache (`compile`) and a trampoline mechanism for recursive schemas
(`build`).  We embed:

* JavaScript runtime values as the inductive `Value` (object graphs are
  modelled as finite trees; numbers are rationals plus NaN and the two
  infinities, which is exact for every integrality and finiteness test
  the code performs);
* schema descriptors as the inductive `Schema`, with `lazy` thunks
  resolved to indices into a heap of descriptors (descriptor identity,
  which the cache and the building-set are keyed by, is heap index);
* the emitted validator code as the inductive `CS`, one constructor per
  code shape `emit` can produce, and `emitC` as the emission function,
  including the union strategy selection done at emission time;
* the runtime behaviour of the generated code as the fuel-indexed
  interpreter `runCS`.  Failure results carry the value as left behind
  by the in-place mutations the generated code performed before
  throwing, so that the snapshot discipline of the fallback union is
  observable.  Deep-cloning an immutable value tree is the identity, so
  `structuredClone` needs no separate model: cloning is expressed by
  which value (the pristine snapshot or a mutated attempt) is fed to
  each computation.
-/

set_option maxHeartbeats 1000000

namespace Suckless

/-- A JavaScript runtime value, as far as the generated validators can
observe one.  `vNum` is a finite number; NaN and the infinities are
separate constructors so that `Number.isFinite` and `Number.isInteger`
are exact.  Objects are association lists in property insertion order. -/
inductive Value where
  | vUndef : Value
  | vNull : Value
  | vBool (b : Bool) : Value
  | vNum (q : ℚ) : Value
  | vNaN : Value
  | vInf (neg : Bool) : Value
  | vStr (s : String) : Value
  | vBig (n : ℤ) : Value
  | vArr (xs : List Value) : Value
  | vObj (fs : List (String × Value)) : Value
  deriving Repr

mutual

def beqV : Value → Value → Bool
  | .vUndef, .vUndef => true
  | .vNull, .vNull => true
  | .vBool a, .vBool b => a == b
  | .vNum a, .vNum b => a == b
  | .vNaN, .vNaN => true
  | .vInf a, .vInf b => a == b
  | .vStr a, .vStr b => a == b
  | .vBig a, .vBig b => a == b
  | .vArr xs, .vArr ys => beqL xs ys
  | .vObj fs, .vObj gs => beqF fs gs
  | _, _ => false

def beqL : List Value → List Value → Bool
  | [], [] => true
  | x :: xs, y :: ys => beqV x y && beqL xs ys
  | _, _ => false

def beqF : List (String × Value) → List (String × Value) → Bool
  | [], [] => true
  | e :: es, g :: gs => e.1 == g.1 && beqV e.2 g.2 && beqF es gs
  | _, _ => false

end

mutual

theorem beqV_iff : ∀ (a b : Value), beqV a b = true ↔ a = b
  | .vUndef, b => by cases b <;> simp [beqV]
  | .vNull, b => by cases b <;> simp [beqV]
  | .vBool a, b => by cases b <;> simp [beqV]
  | .vNum a, b => by cases b <;> simp [beqV]
  | .vNaN, b => by cases b <;> simp [beqV]
  | .vInf a, b => by cases b <;> simp [beqV]
  | .vStr a, b => by cases b <;> simp [beqV]
  | .vBig a, b => by cases b <;> simp [beqV]
  | .vArr xs, b => by
    cases b <;> simp [beqV]
    exact beqL_iff xs _
  | .vObj fs, b => by
    cases b <;> simp [beqV]
    exact beqF_iff fs _

theorem beqL_iff : ∀ (xs ys : List Value), beqL xs ys = true ↔ xs = ys
  | [], ys => by cases ys <;> simp [beqL]
  | x :: xs, ys => by
    cases ys with
    | nil => simp [beqL]
    | cons y ys => simp [beqL, beqV_iff x y, beqL_iff xs ys]

theorem beqF_iff : ∀ (fs gs : List (String × Value)), beqF fs gs = true ↔ fs = gs
  | [], gs => by cases gs <;> simp [beqF]
  | e :: es, gs => by
    cases gs with
    | nil => simp [beqF]
    | cons g gs =>
      simp [beqF, beqV_iff e.2 g.2, beqF_iff es gs, Prod.ext_iff, and_assoc]

end

instance : DecidableEq Value := fun a b => decidable_of_iff _ (beqV_iff a b)

namespace Value

/-- The JavaScript `typeof` operator. -/
def typeofV : Value → String
  | vUndef => "undefined"
  | vNull => "object"
  | vBool _ => "boolean"
  | vNum _ => "number"
  | vNaN => "number"
  | vInf _ => "number"
  | vStr _ => "string"
  | vBig _ => "bigint"
  | vArr _ => "object"
  | vObj _ => "object"

/-- `Number.isFinite`. -/
def isFiniteNum : Value → Bool
  | vNum _ => true
  | _ => false

/-- `Number.isInteger`. -/
def isIntNum : Value → Bool
  | vNum q => q.den == 1
  | _ => false

/-- `Array.isArray`. -/
def isArrayV : Value → Bool
  | vArr _ => true
  | _ => false

/-- The check `typeof e === "object" && e !== null && !Array.isArray(e)`
used by the `object` and `record` cases. -/
def isPlainObj : Value → Bool
  | vObj _ => true
  | _ => false

/-- JavaScript strict equality on the values a validator can compare
(NaN is not equal to itself). -/
def strictEq (a b : Value) : Bool :=
  match a with
  | vNaN => false
  | _ => a == b

/-- The loose check `e != null`, true unless the value is null or
undefined. -/
def notNullish : Value → Bool
  | vNull => false
  | vUndef => false
  | _ => true

end Value

open Value

/-- Property lookup on an association-list object: `some` iff the key is
an own property (this is what the `in` guard tests). -/
def lookupKey (fs : List (String × Value)) (k : String) : Option Value :=
  match fs.find? (fun e => e.1 == k) with
  | some e => some e.2
  | none => none

/-- Property write.  An existing key is updated in place (first
occurrence); a new key is appended, matching JavaScript insertion
order. -/
def setKey (fs : List (String × Value)) (k : String) (u : Value) :
    List (String × Value) :=
  match fs with
  | [] => [(k, u)]
  | e :: rest => if e.1 == k then (k, u) :: rest else e :: setKey rest k u

/-- Property read, `undefined` for a missing key. -/
def getKey (fs : List (String × Value)) (k : String) : Value :=
  ((lookupKey fs k).getD .vUndef)

/-- Rendering of a number in an error message (`String(n)` in the
source).  Exact for integers; the decimal rendering of non-integral
numbers is not modelled digit-for-digit. -/
def jsNumStr (q : ℚ) : String :=
  if q.den = 1 then toString q.num else toString q

/-- `String(v)` for the values a `literal` or `oneOf` message can
mention. -/
def renderV : Value → String
  | .vNull => "null"
  | .vBool true => "true"
  | .vBool false => "false"
  | .vNum q => jsNumStr q
  | .vNaN => "NaN"
  | .vInf true => "-Infinity"
  | .vInf false => "Infinity"
  | .vStr s => s
  | .vBig n => toString n
  | .vUndef => "undefined"
  | .vArr _ => ""
  | .vObj _ => ""

/-- The message rendered by `throwCode`: path-qualified when a path
exists, bare at the root. -/
def mkMsg (p m : String) : String :=
  if p = "" then m else p ++ ": " ++ m

/-- `appendKey`: extend the error path by a static object key. -/
def pathKey (p k : String) : String :=
  if p = "" then k else p ++ "." ++ k

/-- `appendIndex` / `appendTupleIndex`: extend the error path by an
index (rendered identically for the static and dynamic cases). -/
def pathIdx (p s : String) : String :=
  p ++ "[" ++ s ++ "]"

/-- A schema descriptor.  Mirrors the descriptor records built by the
combinators; `lazy` stores the heap index its thunk resolves to
(descriptor identity, which `_building` and `_cache` are keyed by, is
the heap index).  `transform`, `refine` and `preprocess` store the
user function directly. -/
inductive Schema where
  | string : Schema
  | boolean : Schema
  | number : Schema
  | integer : Schema
  | bigint : Schema
  | literal (v : Value) : Schema
  | oneOf (vs : List Value) : Schema
  | maybe (inner : Schema) : Schema
  | array (item : Schema) : Schema
  | object (shape : List (String × Schema)) : Schema
  | tuple (items : List Schema) : Schema
  | record (value : Schema) : Schema
  | union (variants : List Schema) : Schema
  | transform (inner : Schema) (fn : Value → Value) : Schema
  | refine (inner : Schema) (fn : Value → Bool) (message : Option String) : Schema
  | preprocess (inner : Schema) (fn : Value → Value) : Schema
  | lazy (target : ℕ) : Schema

/-- The descriptor heap: the descriptors that have an identity (they can
be the result of a `lazy` thunk or the argument of `compile`). -/
abbrev Heap := List Schema

/-- The extra check a typeof-discriminated union case runs after the
typeof dispatch matched. -/
inductive UBody where
  | unone : UBody
  | ufinite : UBody
  | uint : UBody
  deriving Repr, DecidableEq

/-- The shape of the code `emit` produces, one constructor per emitted
code fragment.  `ccalltramp` is a call through a trampoline installed
for a descriptor that was still being built; `ccallfn` is a direct call
to a sub-validator built during emission (its body validates from a
fresh root error path).  In `cobject` and `cudisc` fields, the `Bool`
records whether the field code is wrapped in the `in`-presence guard
(which `emit` adds exactly when the field descriptor is a `maybe`). -/
inductive CS where
  | cstring : CS
  | cboolean : CS
  | cnumber : CS
  | cinteger : CS
  | cbigint : CS
  | cliteral (v : Value) : CS
  | coneOf (vs : List Value) : CS
  | cmaybe (inner : CS) : CS
  | carray (item : CS) : CS
  | cobject (fields : List (String × Bool × CS)) : CS
  | ctuple (items : List CS) : CS
  | crecord (value : CS) : CS
  | ctypeofU (cases : List (String × UBody)) : CS
  | cudisc (key : String) (cases : List (Value × List (String × Bool × CS))) : CS
  | cufb (variants : List CS) : CS
  | ctransform (fn : Value → Value) (inner : CS) : CS
  | crefine (fn : Value → Bool) (msg : String) (inner : CS) : CS
  | cpre (fn : Value → Value) (inner : CS) : CS
  | ccalltramp (d : ℕ) : CS
  | ccallfn (body : CS) : CS

/-- `TYPEOF_TAGS`: the typeof kind of a primitive variant, `none` for
every other tag. -/
def typeofTagOf : Schema → Option String
  | .string => some "string"
  | .boolean => some "boolean"
  | .number => some "number"
  | .integer => some "number"
  | .bigint => some "bigint"
  | _ => none

/-- The residual check of a primitive variant in a typeof union case. -/
def ubodyOf : Schema → UBody
  | .number => .ufinite
  | .integer => .uint
  | _ => .unone

/-- The `canDiscriminate` scan: every variant maps to a typeof tag and
no two variants share one.  Returns the switch cases in declaration
order. -/
def typeofPlanGo : List Schema → List (String × UBody) →
    Option (List (String × UBody))
  | [], acc => some acc.reverse
  | v :: vs, acc =>
    match typeofTagOf v with
    | none => none
    | some t =>
      if acc.any (fun c => c.1 == t) then none
      else typeofPlanGo vs ((t, ubodyOf v) :: acc)

def typeofPlan (variants : List Schema) : Option (List (String × UBody)) :=
  typeofPlanGo variants []

def shapeOf : Schema → Option (List (String × Schema))
  | .object s => some s
  | _ => none

def litOf : Schema → Option Value
  | .literal v => some v
  | _ => none

def isMaybeTag : Schema → Bool
  | .maybe _ => true
  | _ => false

/-- Association-list lookup in a schema shape (`shape[key]`). -/
def shapeLookup (s : List (String × Schema)) (k : String) : Option Schema :=
  match s.find? (fun e => e.1 == k) with
  | some e => some e.2
  | none => none

/-- For one candidate discriminant key: check that every variant pins
the key to a distinct literal, and collect `(value, remaining shape)`
per variant in declaration order. -/
def discTryKey (k : String) : List Schema → List Value →
    Option (List (Value × List (String × Schema)))
  | [], _ => some []
  | v :: vs, seen =>
    match shapeOf v with
    | none => none
    | some shape =>
      match shapeLookup shape k with
      | none => none
      | some field =>
        match litOf field with
        | none => none
        | some val =>
          if seen.contains val then none
          else
            match discTryKey k vs (val :: seen) with
            | none => none
            | some rest => some ((val, shape.filter (fun e => ¬ e.1 == k)) :: rest)

/-- Scan the first shape keys in order; the first key every variant
pins to a distinct literal wins. -/
def discFindKey (variants : List Schema) : List String →
    Option (String × List (Value × List (String × Schema)))
  | [] => none
  | k :: ks =>
    match discTryKey k variants [] with
    | some cases => some (k, cases)
    | none => discFindKey variants ks

/-- The discriminated-object union plan: all variants are objects and
some key of the first shape discriminates. -/
def discPlan (variants : List Schema) :
    Option (String × List (Value × List (String × Schema))) :=
  if variants.all (fun v => (shapeOf v).isSome) then
    match variants with
    | [] => none
    | v0 :: _ =>
      match shapeOf v0 with
      | none => none
      | some s0 => discFindKey variants (s0.map (fun e => e.1))
  else none

/-- Field-by-field emission of an object shape, in declaration order;
each field remembers whether `emit` wrapped it in the presence guard
(exactly when the field descriptor is a `maybe`). -/
def emitShape (em : Schema → Option CS) :
    List (String × Schema) → Option (List (String × Bool × CS))
  | [] => some []
  | e :: rest =>
    match em e.2, emitShape em rest with
    | some c, some cs => some ((e.1, isMaybeTag e.2, c) :: cs)
    | _, _ => none

/-- Emission of a list of descriptors in order. -/
def emitList (em : Schema → Option CS) : List Schema → Option (List CS)
  | [] => some []
  | s :: rest =>
    match em s, emitList em rest with
    | some c, some cs => some (c :: cs)
    | _, _ => none

/-- Emission of the per-case remaining shapes of a discriminated-object
union. -/
def emitCases (em : Schema → Option CS) :
    List (Value × List (String × Schema)) →
    Option (List (Value × List (String × Bool × CS)))
  | [] => some []
  | c :: rest =>
    match emitShape em c.2, emitCases em rest with
    | some fl, some cs => some ((c.1, fl) :: cs)
    | _, _ => none

/-- The code emitter, mirroring `emit` (and the inline sub-builds of
`build` at `lazy` nodes and fallback-union variants).  `S` is the
`_building` set of descriptor identities; re-entering a member installs
a trampoline instead of expanding the descriptor again.  Fuel bounds the
recursion; emission of a well-formed descriptor succeeds for a large
enough fuel. -/
def emitC (h : Heap) : ℕ → List ℕ → Schema → Option CS
  | 0, _, _ => none
  | f + 1, S, sch =>
    match sch with
    | .string => some .cstring
    | .boolean => some .cboolean
    | .number => some .cnumber
    | .integer => some .cinteger
    | .bigint => some .cbigint
    | .literal v => some (.cliteral v)
    | .oneOf vs => some (.coneOf vs)
    | .maybe inner => (emitC h f S inner).map .cmaybe
    | .array item => (emitC h f S item).map .carray
    | .object shape => (emitShape (fun s => emitC h f S s) shape).map .cobject
    | .tuple items => (emitList (fun s => emitC h f S s) items).map .ctuple
    | .record value => (emitC h f S value).map .crecord
    | .union variants =>
      match typeofPlan variants with
      | some cases => some (.ctypeofU cases)
      | none =>
        match discPlan variants with
        | some (key, cases) =>
          (emitCases (fun s => emitC h f S s) cases).map (.cudisc key)
        | none => (emitList (fun s => emitC h f S s) variants).map .cufb
    | .transform inner fn => (emitC h f S inner).map (.ctransform fn)
    | .refine inner fn message =>
      (emitC h f S inner).map (.crefine fn (message.getD "refinement failed"))
    | .preprocess inner fn => (emitC h f S inner).map (.cpre fn)
    | .lazy t =>
      if t ∈ S then some (.ccalltramp t)
      else
        match h.get? t with
        | none => none
        | some sch2 => (emitC h f (t :: S) sch2).map .ccallfn

/-- A compiled validator function.  `id` models function identity: a
fresh build gets a fresh id, so two results of `compile` are the same
function object exactly when their ids agree. -/
structure CompiledFn where
  id : ℕ
  code : CS

/-- The `_cache` WeakMap plus the id supply. -/
structure CacheSt where
  entries : List (ℕ × CompiledFn)
  nextId : ℕ

def emptyCache : CacheSt := ⟨[], 0⟩

def cacheFind (entries : List (ℕ × CompiledFn)) (d : ℕ) : Option CompiledFn :=
  match entries.find? (fun e => e.1 == d) with
  | some e => some e.2
  | none => none

/-- `build` applied to a heap descriptor at the top level: mark it as
building and emit its body. -/
def buildTop (h : Heap) (f : ℕ) (d : ℕ) : Option CS :=
  match h.get? d with
  | none => none
  | some sch => emitC h f [d] sch

/-- `compile`: return the cached validator if the descriptor identity
was compiled before, otherwise build, cache and return it. -/
def compile (h : Heap) (f : ℕ) (st : CacheSt) (d : ℕ) :
    Option (CompiledFn × CacheSt) :=
  match cacheFind st.entries d with
  | some fn => some (fn, st)
  | none =>
    match buildTop h f d with
    | none => none
    | some cs =>
      some (⟨st.nextId, cs⟩, ⟨(d, ⟨st.nextId, cs⟩) :: st.entries, st.nextId + 1⟩)

/-- Result of running generated validator code on a value: `none` when
the fuel ran out, otherwise either the validated (possibly rewritten)
value of the slot, or the thrown message together with the value the
slot holds after the in-place mutations performed before the throw. -/
abbrev RRes := Option (Except (String × Value) Value)

def vOk (v : Value) : RRes := some (.ok v)

def vErr (p m : String) (v : Value) : RRes := some (.error (mkMsg p m, v))

/-- Write a property slot back only when the generated code actually
changed it; a write of an identical value is unobservable on a value
tree, and check-only fragments perform no write at all. -/
def setKeyIfChanged (fs : List (String × Value)) (k : String)
    (old new : Value) : List (String × Value) :=
  if new = old then fs else setKey fs k new

/-- Sequential validation of the declared fields of an object, as the
code emitted by the `object` case performs it: each field validates the
property slot in place, and a `maybe` field (marked `guarded`) is
skipped entirely when the key is absent. -/
def runFields (run : CS → String → Value → RRes) (p : String) :
    List (String × Bool × CS) → List (String × Value) → RRes
  | [], fs => vOk (.vObj fs)
  | (k, guarded, c) :: rest, fs =>
    if guarded ∧ (lookupKey fs k).isNone then runFields run p rest fs
    else
      let acc := getKey fs k
      match run c (pathKey p k) acc with
      | none => none
      | some (.error (m, mv)) => some (.error (m, .vObj (setKeyIfChanged fs k acc mv)))
      | some (.ok u) => runFields run p rest (setKeyIfChanged fs k acc u)

/-- The element loop emitted by the `array` case. -/
def runElems (run : String → Value → RRes) (p : String) :
    ℕ → List Value → List Value → RRes
  | _, done, [] => vOk (.vArr done.reverse)
  | i, done, x :: rest =>
    match run (pathIdx p (toString i)) x with
    | none => none
    | some (.error (m, mv)) => some (.error (m, .vArr (done.reverse ++ mv :: rest)))
    | some (.ok u) => runElems run p (i + 1) (u :: done) rest

/-- The statically unrolled positional checks emitted by the `tuple`
case (the length equality has already been checked). -/
def runTuple (run : CS → String → Value → RRes) (p : String) :
    ℕ → List CS → List Value → List Value → RRes
  | _, [], done, rest => vOk (.vArr (done.reverse ++ rest))
  | _, _ :: _, done, [] => vOk (.vArr done.reverse)
  | i, c :: cs, done, x :: rest =>
    match run c (pathIdx p (toString i)) x with
    | none => none
    | some (.error (m, mv)) => some (.error (m, .vArr (done.reverse ++ mv :: rest)))
    | some (.ok u) => runTuple run p (i + 1) cs (u :: done) rest

/-- The `for..in` loop emitted by the `record` case, over the own keys
of the object. -/
def runRecFields (run : String → Value → RRes) (p : String) :
    List (String × Value) → List (String × Value) → RRes
  | done, [] => vOk (.vObj done.reverse)
  | done, (k, x) :: rest =>
    match run (pathIdx p k) x with
    | none => none
    | some (.error (m, mv)) => some (.error (m, .vObj (done.reverse ++ (k, mv) :: rest)))
    | some (.ok u) => runRecFields run p ((k, u) :: done) rest

/-- The ordered-try loop of the fallback union: every attempt receives
the pristine snapshot (each try reassigns the slot to a fresh clone of
the snapshot), the first success wins, a failure only records the
error, and exhaustion throws the last recorded error, or a bare
`union failed` when no attempt ran. -/
def fbGo (run : CS → Value → RRes) (snap : Value) :
    List CS → Option (String × Value) → RRes
  | [], none => some (.error ("union failed", snap))
  | [], some e => some (.error e)
  | c :: rest, _ =>
    match run c snap with
    | none => none
    | some (.ok r) => vOk r
    | some (.error e) => fbGo run snap rest (some e)

/-- The residual check in a matched typeof-union case. -/
def runTypeofCase (p : String) (body : UBody) (v : Value) : RRes :=
  match body with
  | .unone => vOk v
  | .ufinite => if v.isFiniteNum then vOk v else vErr p "expected finite number" v
  | .uint => if v.isIntNum then vOk v else vErr p "expected integer" v

/-- The runtime behaviour of generated validator code, by code shape.
`cache` is the compiled-function cache a trampoline consults at call
time.  Fuel decreases on every step; a run that completes does so for
every larger fuel as well. -/
def runCS (cache : List (ℕ × CompiledFn)) : ℕ → String → CS → Value → RRes
  | 0, _, _, _ => none
  | f + 1, p, code, v =>
    match code with
    | .cstring => if v.typeofV = "string" then vOk v else vErr p "expected string" v
    | .cboolean => if v.typeofV = "boolean" then vOk v else vErr p "expected boolean" v
    | .cnumber =>
      if v.typeofV = "number" ∧ v.isFiniteNum then vOk v
      else vErr p "expected finite number" v
    | .cinteger =>
      if v.typeofV = "number" ∧ v.isIntNum then vOk v
      else vErr p "expected integer" v
    | .cbigint => if v.typeofV = "bigint" then vOk v else vErr p "expected bigint" v
    | .cliteral lv =>
      if strictEq v lv then vOk v else vErr p ("expected " ++ renderV lv) v
    | .coneOf vs =>
      if vs.any (fun x => strictEq v x) then vOk v
      else vErr p ("expected one of: " ++ String.intercalate ", " (vs.map renderV)) v
    | .cmaybe inner =>
      if v.notNullish then runCS cache f p inner v else vOk .vUndef
    | .carray item =>
      match v with
      | .vArr xs => runElems (fun pp x => runCS cache f pp item x) p 0 [] xs
      | _ => vErr p "expected array" v
    | .cobject fields =>
      match v with
      | .vObj fs => runFields (fun c pp x => runCS cache f pp c x) p fields fs
      | _ => vErr p "expected object" v
    | .ctuple items =>
      match v with
      | .vArr xs =>
        if xs.length = items.length then
          runTuple (fun c pp x => runCS cache f pp c x) p 0 items [] xs
        else vErr p ("expected tuple of length " ++ toString items.length) v
      | _ => vErr p ("expected tuple of length " ++ toString items.length) v
    | .crecord value =>
      match v with
      | .vObj fs => runRecFields (fun pp x => runCS cache f pp value x) p [] fs
      | _ => vErr p "expected object" v
    | .ctypeofU cases =>
      match cases.find? (fun c => c.1 == v.typeofV) with
      | some c => runTypeofCase p c.2 v
      | none => vErr p "union failed" v
    | .cudisc key cases =>
      match v with
      | .vObj fs =>
        match cases.find? (fun c => strictEq (getKey fs key) c.1) with
        | some c => runFields (fun cc pp x => runCS cache f pp cc x) p c.2 fs
        | none => vErr p "union failed" v
      | _ => vErr p "expected object" v
    | .cufb variants => fbGo (fun c x => runCS cache f "" c x) v variants none
    | .ctransform fn inner =>
      match runCS cache f p inner v with
      | none => none
      | some (.error e) => some (.error e)
      | some (.ok u) => vOk (fn u)
    | .crefine fn m inner =>
      match runCS cache f p inner v with
      | none => none
      | some (.error e) => some (.error e)
      | some (.ok u) => if fn u then vOk u else some (.error (mkMsg p m, u))
    | .cpre fn inner => runCS cache f p inner (fn v)
    | .ccalltramp d =>
      match cacheFind cache d with
      | none => some (.error ("recursive schema not yet compiled", v))
      | some fn => runCS cache f "" fn.code v
    | .ccallfn body => runCS cache f "" body v

/-! ### Generic facts about the fallback-union loop -/

theorem fbGo_skip (run : CS → Value → RRes) (v : Value) (c : CS) (rest : List CS)
    (le : Option (String × Value)) (e : String × Value)
    (hc : run c v = some (.error e)) :
    fbGo run v (c :: rest) le = fbGo run v rest (some e) := by
  simp [fbGo, hc]

theorem fbGo_break (run : CS → Value → RRes) (v : Value) (c : CS) (rest : List CS)
    (le : Option (String × Value)) (r : Value) (hc : run c v = vOk r) :
    fbGo run v (c :: rest) le = vOk r := by
  simp [fbGo, hc, vOk]

/-- Each attempt receives the pristine snapshot, so the first variant
that does not fail supplies the overall result, whatever the failed
attempts did to their clones. -/
theorem fbGo_first_success (run : CS → Value → RRes) (v : Value) :
    ∀ (pre : List CS) (c : CS) (post : List CS) (le : Option (String × Value))
      (r : Value),
      (∀ x ∈ pre, ∃ e, run x v = some (.error e)) → run c v = vOk r →
      fbGo run v (pre ++ c :: post) le = vOk r := by
  intro pre
  induction pre with
  | nil =>
    intro c post le r _ hc
    simpa using fbGo_break run v c post le r hc
  | cons x xs ih =>
    intro c post le r hpre hc
    obtain ⟨e, he⟩ := hpre x (List.mem_cons_self x xs)
    rw [List.cons_append, fbGo_skip run v x (xs ++ c :: post) le e he]
    exact ih c post (some e) r (fun y hy => hpre y (List.mem_cons_of_mem x hy)) hc

/-- When every attempt fails, the error thrown is the one of the last
attempt. -/
theorem fbGo_all_fail (run : CS → Value → RRes) (v : Value) :
    ∀ (pre : List CS) (c : CS) (le : Option (String × Value)) (e : String × Value),
      (∀ x ∈ pre, ∃ e2, run x v = some (.error e2)) → run c v = some (.error e) →
      fbGo run v (pre ++ [c]) le = some (.error e) := by
  intro pre
  induction pre with
  | nil =>
    intro c le e _ hc
    rw [List.nil_append, fbGo_skip run v c [] le e hc]
    rfl
  | cons x xs ih =>
    intro c le e hpre hc
    obtain ⟨e2, he2⟩ := hpre x (List.mem_cons_self x xs)
    rw [List.cons_append, fbGo_skip run v x (xs ++ [c]) le e2 he2]
    exact ih c (some e2) e (fun y hy => hpre y (List.mem_cons_of_mem x hy)) hc

/-- Any overall success of the loop is the result of some variant run
directly on the pristine snapshot. -/
theorem fbGo_ok_mem (run : CS → Value → RRes) (v : Value) :
    ∀ (vs : List CS) (le : Option (String × Value)) (r : Value),
      fbGo run v vs le = vOk r → ∃ c ∈ vs, run c v = vOk r := by
  intro vs
  induction vs with
  | nil =>
    intro le r h
    cases le <;> simp [fbGo, vOk] at h
  | cons c rest ih =>
    intro le r h
    rw [show fbGo run v (c :: rest) le
        = (match run c v with
           | none => none
           | some (.ok u) => vOk u
           | some (.error e) => fbGo run v rest (some e)) from rfl] at h
    cases hr : run c v with
    | none => rw [hr] at h; exact absurd h (by simp [vOk])
    | some res =>
      cases res with
      | ok u =>
        rw [hr] at h
        simp only [vOk, Option.some.injEq, Except.ok.injEq] at h
        exact ⟨c, List.mem_cons_self c rest, by rw [hr, h]; rfl⟩
      | error e =>
        rw [hr] at h
        obtain ⟨c2, hc2, hrun⟩ := ih (some e) r h
        exact ⟨c2, List.mem_cons_of_mem c hc2, hrun⟩

/-! ### Concrete schemas used by the claims -/

/-- The recursive tree schema from the `lazy` documentation example:
`object({value: number, children: array(lazy(() => tree))})`, the thunk
resolving to heap index 0, i.e. the schema itself. -/
def treeSch : Schema := .object [("value", .number), ("children", .array (.lazy 0))]

def treeHeap : Heap := [treeSch]

/-- The code built for the tree schema: the recursive occurrence became
a trampoline call, not an inline expansion. -/
def treeCS : CS := .cobject [("value", false, .cnumber), ("children", false, .carray (.ccalltramp 0))]

def treeFn : CompiledFn := ⟨0, treeCS⟩

def treeSt : CacheSt := ⟨[(0, treeFn)], 1⟩

/-- A nested tree instance of the given depth. -/
def mkTree : ℕ → Value
  | 0 => .vObj [("value", .vNum 1), ("children", .vArr [])]
  | n + 1 => .vObj [("value", .vNum 1), ("children", .vArr [mkTree n])]

theorem treeStep (m : ℕ) (x : Value)
    (hx : runCS treeSt.entries m "" treeCS x = vOk x) :
    runCS treeSt.entries (m + 3) "" treeCS (.vObj [("value", .vNum 1), ("children", .vArr [x])])
      = vOk (.vObj [("value", .vNum 1), ("children", .vArr [x])]) := by
  have h0 : runCS treeSt.entries (m + 3) "" treeCS (.vObj [("value", .vNum 1), ("children", .vArr [x])])
      = runFields (fun c pp y => runCS treeSt.entries (m + 2) pp c y) ""
          [("value", false, .cnumber), ("children", false, .carray (.ccalltramp 0))]
          [("value", .vNum 1), ("children", .vArr [x])] := rfl
  have hg1 : getKey [("value", Value.vNum 1), ("children", Value.vArr [x])] "value"
      = Value.vNum 1 := rfl
  have hg2 : getKey [("value", Value.vNum 1), ("children", Value.vArr [x])] "children"
      = Value.vArr [x] := rfl
  have hval : runCS treeSt.entries (m + 2) (pathKey "" "value") .cnumber (.vNum 1)
      = vOk (.vNum 1) := rfl
  have hchild : runCS treeSt.entries (m + 2) (pathKey "" "children")
        (.carray (.ccalltramp 0)) (.vArr [x])
      = runElems (fun pp z => runCS treeSt.entries (m + 1) pp (.ccalltramp 0) z)
          (pathKey "" "children") 0 [] [x] := rfl
  have helem : runCS treeSt.entries (m + 1) (pathIdx (pathKey "" "children") (toString 0))
        (.ccalltramp 0) x = vOk x := by
    have e1 : runCS treeSt.entries (m + 1) (pathIdx (pathKey "" "children") (toString 0))
        (.ccalltramp 0) x = runCS treeSt.entries m "" treeCS x := rfl
    rw [e1, hx]
  rw [h0]
  simp [runFields, runElems, hg1, hg2, hval, hchild, helem, setKeyIfChanged, vOk]

theorem treeDepth :
    ∀ n, runCS treeSt.entries (3 * n + 3) "" treeFn.code (mkTree n) = vOk (mkTree n) := by
  intro n
  induction n with
  | zero => rfl
  | succ n ih =>
    have h3 : 3 * (n + 1) + 3 = (3 * n + 3) + 3 := by ring
    rw [h3, mkTree]
    exact treeStep (3 * n + 3) (mkTree n) ih

/-- C1: building a self-referential tree schema terminates (the second
entry into the descriptor yields a trampoline, and emission succeeds
with finite fuel); compiling is cache-stable (the second `compile`
returns the identical cached function and leaves the cache unchanged);
and the compiled validator accepts nested instances of every finite
depth. -/
theorem c1_recursive_schema_terminates :
    compile treeHeap 4 emptyCache 0 = some (treeFn, treeSt)
    ∧ compile treeHeap 4 treeSt 0 = some (treeFn, treeSt)
    ∧ ∀ n, runCS treeSt.entries (3 * n + 3) "" treeFn.code (mkTree n) = vOk (mkTree n) :=
  ⟨rfl, rfl, treeDepth⟩

/-- C7: `compile` is keyed by descriptor identity: once a call returned
a function, every later call on the same descriptor returns the
identical cached function (same function identity, same cache). -/
theorem c7_compile_identity (h : Heap) (f : ℕ) (st : CacheSt) (d : ℕ)
    (fn : CompiledFn) (st2 : CacheSt)
    (hc : compile h f st d = some (fn, st2)) :
    compile h f st2 d = some (fn, st2) := by
  unfold compile at hc ⊢
  cases hfind : cacheFind st.entries d with
  | some g =>
    rw [hfind] at hc
    simp only [Option.some.injEq, Prod.mk.injEq] at hc
    obtain ⟨h1, h2⟩ := hc
    subst h1
    subst h2
    rw [hfind]
  | none =>
    rw [hfind] at hc
    cases hb : buildTop h f d with
    | none => rw [hb] at hc; exact absurd hc (by simp)
    | some cs =>
      rw [hb] at hc
      simp only [Option.some.injEq, Prod.mk.injEq] at hc
      obtain ⟨h1, h2⟩ := hc
      subst h1
      subst h2
      simp [cacheFind]

theorem c7_witness : compile treeHeap 4 treeSt 0 = some (treeFn, treeSt) :=
  c7_compile_identity treeHeap 4 emptyCache 0 treeFn treeSt rfl

/-- The C9 scenario: descriptor 1 is an enclosing schema whose `lazy`
resolves to descriptor 0, itself the head of a cycle through another
`lazy`; only descriptor 1 is ever passed to `compile`. -/
def c9H : Schema := .object [("b", .lazy 0)]

def c9E : Schema := .object [("a", .lazy 0)]

def c9Heap : Heap := [c9H, c9E]

def c9Inner : CS := .cobject [("b", false, .ccalltramp 0)]

def c9CS : CS := .cobject [("a", false, .ccallfn c9Inner)]

def c9Fn : CompiledFn := ⟨0, c9CS⟩

def c9St : CacheSt := ⟨[(1, c9Fn)], 1⟩

/-- C9: only `compile` populates the cache, so when a cycle head is
entered only through `lazy` during an enclosing compilation, its
trampoline finds no cache entry and validation throws
`recursive schema not yet compiled` whenever it reaches the recursive
occurrence. -/
theorem c9_trampoline_uncompiled :
    compile c9Heap 10 emptyCache 1 = some (c9Fn, c9St)
    ∧ ∀ w, runCS c9St.entries 10 "" c9Fn.code (.vObj [("a", .vObj [("b", w)])])
        = some (.error ("recursive schema not yet compiled",
            .vObj [("a", .vObj [("b", w)])])) := by
  refine ⟨rfl, ?_⟩
  intro w
  have h0 : runCS c9St.entries 10 "" c9Fn.code (.vObj [("a", .vObj [("b", w)])])
      = runFields (fun c pp y => runCS c9St.entries 9 pp c y) ""
          [("a", false, .ccallfn c9Inner)] [("a", .vObj [("b", w)])] := rfl
  have hga : getKey [("a", Value.vObj [("b", w)])] "a" = Value.vObj [("b", w)] := rfl
  have ha : runCS c9St.entries 9 (pathKey "" "a") (.ccallfn c9Inner) (.vObj [("b", w)])
      = runFields (fun c pp y => runCS c9St.entries 7 pp c y) ""
          [("b", false, .ccalltramp 0)] [("b", w)] := rfl
  have hgb : getKey [("b", w)] "b" = w := rfl
  have htr : runCS c9St.entries 7 (pathKey "" "b") (.ccalltramp 0) w
      = some (.error ("recursive schema not yet compiled", w)) := rfl
  rw [h0]
  simp [runFields, hga, ha, hgb, htr, setKeyIfChanged]

/-- The C4 schema `object({items: array(object({id: integer}))})` and
the input `{items:[{id:1},{id:"bad"}]}`. -/
def c4Schema : Schema := .object [("items", .array (.object [("id", .integer)]))]

def c4Heap : Heap := [c4Schema]

def c4Input : Value :=
  .vObj [("items", .vArr [.vObj [("id", .vNum 1)], .vObj [("id", .vStr "bad")]])]

/-- C4: the compiled validator rejects the input with exactly the
message `items[1].id: expected integer` (static keys joined with a dot,
the dynamic array index rendered in brackets), leaving the input
untouched. -/
theorem c4_nested_path_message :
    (compile c4Heap 20 emptyCache 0).map
      (fun r => runCS r.2.entries 20 "" r.1.code c4Input)
    = some (some (.error ("items[1].id: expected integer", c4Input))) := rfl

def c5Schema : Schema := .union [.integer, .string]

def c5Heap : Heap := [c5Schema]

/-- The number 1.5, written as the reduced fraction 3/2 so that its
denominator is a literal. -/
def threeHalves : ℚ := ⟨3, 2, by norm_num, by norm_num⟩

/-- C5: `union(integer, string)` is emitted as a single typeof dispatch
whose number case runs the integer refinement; it accepts 42 and
`hello` unchanged and rejects 1.5 with `expected integer`, not
`union failed`. -/
theorem c5_typeof_union :
    (compile c5Heap 10 emptyCache 0).map (fun r =>
      (r.1.code,
       runCS [] 10 "" r.1.code (.vNum 42),
       runCS [] 10 "" r.1.code (.vStr "hello"),
       runCS [] 10 "" r.1.code (.vNum threeHalves)))
    = some (.ctypeofU [("number", .uint), ("string", .unone)],
       vOk (.vNum 42), vOk (.vStr "hello"),
       some (.error ("expected integer", .vNum threeHalves))) := rfl

/-- The C2 counterexample schema `transform(integer, () => null)`. -/
def toNull : Value → Value := fun _ => Value.vNull

def c2tSchema : Schema := .transform .integer toNull

/-- C2 counterexample: the validator compiled from
`transform(integer, () => null)` accepts 1 with output null, but
applying it again to that output is rejected with
`expected integer` — compiled validators are not idempotent on their
own output in general. -/
theorem c2_counterexample :
    (compile [c2tSchema] 10 emptyCache 0).map (fun r =>
      (runCS [] 10 "" r.1.code (.vNum 1), runCS [] 10 "" r.1.code .vNull))
    = some (vOk .vNull, some (.error ("expected integer", .vNull))) := rfl

/-- C6: a fallback union tries its variants strictly in declaration
order on the pristine snapshot: the first attempt that does not fail
supplies the result; if every attempt fails, the error of the last
attempt is thrown; and with no attempts a bare `union failed` error is
thrown. -/
theorem c6_fallback_order_and_error (cache : List (ℕ × CompiledFn)) (f : ℕ)
    (p : String) (v : Value) :
    (∀ (pre : List CS) (c : CS) (post : List CS) (r : Value),
      (∀ x ∈ pre, ∃ e, runCS cache f "" x v = some (.error e)) →
      runCS cache f "" c v = vOk r →
      runCS cache (f + 1) p (.cufb (pre ++ c :: post)) v = vOk r)
    ∧ (∀ (pre : List CS) (c : CS) (e : String × Value),
      (∀ x ∈ pre, ∃ e2, runCS cache f "" x v = some (.error e2)) →
      runCS cache f "" c v = some (.error e) →
      runCS cache (f + 1) p (.cufb (pre ++ [c])) v = some (.error e))
    ∧ runCS cache (f + 1) p (.cufb []) v = some (.error ("union failed", v)) := by
  refine ⟨?_, ?_, rfl⟩
  · intro pre c post r hpre hc
    have h0 : runCS cache (f + 1) p (.cufb (pre ++ c :: post)) v
        = fbGo (fun cc x => runCS cache f "" cc x) v (pre ++ c :: post) none := rfl
    rw [h0]
    exact fbGo_first_success _ v pre c post none r hpre hc
  · intro pre c e hpre hc
    have h0 : runCS cache (f + 1) p (.cufb (pre ++ [c])) v
        = fbGo (fun cc x => runCS cache f "" cc x) v (pre ++ [c]) none := rfl
    rw [h0]
    exact fbGo_all_fail _ v pre c none e hpre hc

theorem c6_witness :
    runCS [] 6 "" (.cufb [.cstring, .cinteger]) (.vNum 7) = vOk (.vNum 7)
    ∧ runCS [] 6 "" (.cufb [.cstring, .cboolean]) (.vNum 7)
      = some (.error ("expected boolean", .vNum 7)) := by
  constructor
  · refine (c6_fallback_order_and_error [] 5 "" (.vNum 7)).1 [.cstring] .cinteger [] (.vNum 7) ?_ rfl
    intro x hx
    obtain rfl : x = CS.cstring := by simpa using hx
    exact ⟨("expected string", .vNum 7), rfl⟩
  · refine (c6_fallback_order_and_error [] 5 "" (.vNum 7)).2.1 [.cstring] .cboolean
      ("expected boolean", .vNum 7) ?_ rfl
    intro x hx
    obtain rfl : x = CS.cstring := by simpa using hx
    exact ⟨("expected string", .vNum 7), rfl⟩

/-- The C3 scenario: a fallback union whose first variant has a `maybe`
field that normalizes null to undefined and a required field that then
fails, and whose second variant requires the field to be exactly
null. -/
def c3VariantA : Schema := .object [("a", .maybe .integer), ("b", .string)]

def c3VariantB : Schema := .object [("a", .literal .vNull)]

def c3Union : Schema := .union [c3VariantA, c3VariantB]

def c3Heap : Heap := [c3Union]

def c3AC : CS := .cobject [("a", true, .cmaybe .cinteger), ("b", false, .cstring)]

def c3BC : CS := .cobject [("a", false, .cliteral .vNull)]

def c3Input : Value := .vObj [("a", .vNull)]

/-- C3: in a fallback union, a failed earlier attempt leaves no trace:
every overall success is some variant run directly on the pristine
snapshot.  Concretely, the first variant normalizes the null field to
undefined and then fails, yet the second variant still sees null and
succeeds, and the field in the result visible to the caller is still
null. -/
theorem c3_no_mutation_leak :
    (∀ (cache : List (ℕ × CompiledFn)) (f : ℕ) (p : String) (vs : List CS)
       (v r : Value),
       runCS cache (f + 1) p (.cufb vs) v = vOk r →
       ∃ c ∈ vs, runCS cache f "" c v = vOk r)
    ∧ buildTop c3Heap 10 0 = some (.cufb [c3AC, c3BC])
    ∧ runCS [] 9 "" c3AC c3Input
      = some (.error ("b: expected string", .vObj [("a", .vUndef)]))
    ∧ runCS [] 10 "" (.cufb [c3AC, c3BC]) c3Input = vOk (.vObj [("a", .vNull)]) := by
  refine ⟨?_, rfl, rfl, rfl⟩
  intro cache f p vs v r hrun
  have h0 : runCS cache (f + 1) p (.cufb vs) v
      = fbGo (fun c x => runCS cache f "" c x) v vs none := rfl
  rw [h0] at hrun
  exact fbGo_ok_mem _ v vs none r hrun

theorem c3_witness :
    ∃ c ∈ [c3AC, c3BC], runCS [] 9 "" c c3Input = vOk (.vObj [("a", .vNull)]) :=
  c3_no_mutation_leak.1 [] 9 "" [c3AC, c3BC] c3Input (.vObj [("a", .vNull)]) rfl

/-! ### Property lookup and update -/

theorem lookupKey_setKey_self (fs : List (String × Value)) (k : String) (u : Value) :
    lookupKey (setKey fs k u) k = some u := by
  induction fs with
  | nil => simp [setKey, lookupKey]
  | cons e rest ih =>
    by_cases h : e.1 = k
    · simp [setKey, lookupKey, h]
    · simp only [setKey]
      rw [if_neg (by simpa using h)]
      simpa [lookupKey, List.find?, (by simpa using h : (e.1 == k) = false)] using ih

theorem lookupKey_setKey_ne (fs : List (String × Value)) (k : String) (u : Value)
    (k2 : String) (h : k2 ≠ k) :
    lookupKey (setKey fs k u) k2 = lookupKey fs k2 := by
  induction fs with
  | nil => simp [setKey, lookupKey, List.find?, (by simpa using (Ne.symm h) : (k == k2) = false)]
  | cons e rest ih =>
    by_cases he : e.1 = k
    · subst he
      rw [show setKey (e :: rest) e.1 u = (e.1, u) :: rest from by simp [setKey]]
      simp [lookupKey, List.find?, (by simpa using (Ne.symm h) : (e.1 == k2) = false)]
    · simp only [setKey]
      rw [if_neg (by simpa using he)]
      by_cases he2 : e.1 = k2
      · simp [lookupKey, List.find?, he2]
      · simpa [lookupKey, List.find?, (by simpa using he2 : (e.1 == k2) = false)] using ih

theorem lookupKey_setKeyIfChanged_ne (fs : List (String × Value)) (k : String)
    (old u : Value) (k2 : String) (h : k2 ≠ k) :
    lookupKey (setKeyIfChanged fs k old u) k2 = lookupKey fs k2 := by
  unfold setKeyIfChanged
  by_cases hc : u = old
  · rw [if_pos hc]
  · rw [if_neg hc]
    exact lookupKey_setKey_ne fs k u k2 h

theorem getKey_eq_of_lookup {fs gs : List (String × Value)} {k : String}
    (h : lookupKey fs k = lookupKey gs k) : getKey fs k = getKey gs k := by
  unfold getKey
  rw [h]

/-! ### Facts about the object-field loop -/

/-- A successful object validation returns an object and never touches
a key that is not declared in the shape. -/
theorem runFields_preserves_others (run : CS → String → Value → RRes) (p : String) :
    ∀ (fields : List (String × Bool × CS)) (fs : List (String × Value))
      (w : Value),
      runFields run p fields fs = some (.ok w) →
      ∃ gs, w = .vObj gs
        ∧ ∀ k, k ∉ fields.map (fun e => e.1) → lookupKey gs k = lookupKey fs k := by
  intro fields
  induction fields with
  | nil =>
    intro fs w hw
    simp only [runFields, vOk, Option.some.injEq, Except.ok.injEq] at hw
    exact ⟨fs, hw.symm, fun k _ => rfl⟩
  | cons e rest ih =>
    intro fs w hw
    obtain ⟨k0, gd, c⟩ := e
    rw [show runFields run p ((k0, gd, c) :: rest) fs
        = (if gd ∧ (lookupKey fs k0).isNone then runFields run p rest fs
           else
             match run c (pathKey p k0) (getKey fs k0) with
             | none => none
             | some (.error (m, mv)) =>
               some (.error (m, .vObj (setKeyIfChanged fs k0 (getKey fs k0) mv)))
             | some (.ok u) =>
               runFields run p rest (setKeyIfChanged fs k0 (getKey fs k0) u)) from rfl] at hw
    by_cases hg : gd ∧ (lookupKey fs k0).isNone
    · rw [if_pos hg] at hw
      obtain ⟨gs, hgs, hpres⟩ := ih fs w hw
      exact ⟨gs, hgs, fun k hk => hpres k (fun hmem => hk (by simpa using Or.inr hmem))⟩
    · rw [if_neg hg] at hw
      cases hr : run c (pathKey p k0) (getKey fs k0) with
      | none => rw [hr] at hw; exact absurd hw (by simp)
      | some res =>
        rw [hr] at hw
        cases res with
        | error e2 => obtain ⟨m, mv⟩ := e2; exact absurd hw (by simp)
        | ok u =>
          obtain ⟨gs, hgs, hpres⟩ := ih _ w hw
          refine ⟨gs, hgs, fun k hk => ?_⟩
          have hk0 : k ≠ k0 := fun he => hk (by simp [he])
          have hkrest : k ∉ rest.map (fun e => e.1) := fun hmem => hk (by simpa using Or.inr hmem)
          rw [hpres k hkrest, lookupKey_setKeyIfChanged_ne fs k0 _ u k hk0]

/-- Keys outside the declared shape are never inspected: runs on two
objects that agree on the shape keys fail with the same message or both
succeed. -/
theorem runFields_agree (run : CS → String → Value → RRes) (p : String) :
    ∀ (fields : List (String × Bool × CS)) (fs gs : List (String × Value)),
      (∀ k, k ∈ fields.map (fun e => e.1) → lookupKey fs k = lookupKey gs k) →
      ((runFields run p fields fs = none → runFields run p fields gs = none)
        ∧ (∀ m a, runFields run p fields fs = some (.error (m, a)) →
             ∃ b, runFields run p fields gs = some (.error (m, b)))
        ∧ (∀ a, runFields run p fields fs = some (.ok a) →
             ∃ b, runFields run p fields gs = some (.ok b))) := by
  intro fields
  induction fields with
  | nil =>
    intro fs gs _
    refine ⟨fun h => by simp [runFields, vOk] at h, fun m a h => ?_, fun a _ => ?_⟩
    · exact absurd h (by simp [runFields, vOk])
    · exact ⟨.vObj gs, rfl⟩
  | cons e rest ih =>
    intro fs gs hagree
    obtain ⟨k0, gd, c⟩ := e
    have hL : lookupKey fs k0 = lookupKey gs k0 := hagree k0 (by simp)
    have hacc : getKey fs k0 = getKey gs k0 := getKey_eq_of_lookup hL
    have hrest : ∀ k, k ∈ rest.map (fun e => e.1) → lookupKey fs k = lookupKey gs k :=
      fun k hk => hagree k (by simpa using Or.inr hk)
    have hunf : ∀ (xs : List (String × Value)),
        runFields run p ((k0, gd, c) :: rest) xs
        = (if gd ∧ (lookupKey xs k0).isNone then runFields run p rest xs
           else
             match run c (pathKey p k0) (getKey xs k0) with
             | none => none
             | some (.error (m, mv)) =>
               some (.error (m, .vObj (setKeyIfChanged xs k0 (getKey xs k0) mv)))
             | some (.ok u) =>
               runFields run p rest (setKeyIfChanged xs k0 (getKey xs k0) u)) :=
      fun xs => rfl
    rw [hunf fs, hunf gs]
    by_cases hg : gd ∧ (lookupKey fs k0).isNone
    · rw [if_pos hg, if_pos (by rwa [← hL])]
      exact ih fs gs hrest
    · rw [if_neg hg, if_neg (by rwa [← hL])]
      rw [← hacc]
      cases hr : run c (pathKey p k0) (getKey fs k0) with
      | none => exact ⟨fun _ => rfl, by simp, by simp⟩
      | some res =>
        cases res with
        | error e2 =>
          obtain ⟨m0, mv⟩ := e2
          refine ⟨by simp, fun m a ha => ?_, by simp⟩
          simp only [Option.some.injEq, Except.error.injEq, Prod.mk.injEq] at ha
          exact ⟨.vObj (setKeyIfChanged gs k0 (getKey gs k0) mv), by
            rw [← hacc]
            simp [ha.1]⟩
        | ok u =>
          have hsetagree : ∀ k, k ∈ rest.map (fun e => e.1) →
              lookupKey (setKeyIfChanged fs k0 (getKey fs k0) u) k
              = lookupKey (setKeyIfChanged gs k0 (getKey gs k0) u) k := by
            intro k _
            by_cases hk0 : k = k0
            · rw [hk0]
              unfold setKeyIfChanged
              rw [← hacc]
              by_cases hc : u = getKey fs k0
              · rw [if_pos hc, if_pos hc]; exact hL
              · rw [if_neg hc, if_neg hc,
                  lookupKey_setKey_self, lookupKey_setKey_self]
            · rw [lookupKey_setKeyIfChanged_ne fs k0 _ u k hk0,
                lookupKey_setKeyIfChanged_ne gs k0 _ u k hk0]
              exact hrest k (by assumption)
          have := ih (setKeyIfChanged fs k0 (getKey fs k0) u)
            (setKeyIfChanged gs k0 (getKey gs k0) u)
            (fun k hk => hsetagree k hk)
          rw [← hacc] at this
          exact this

/-- C8: the structural check of `object({})` accepts any plain object,
extra keys included, and returns it unexamined; in general a compiled
object validator never inspects, rejects or modifies keys outside the
declared shape: success preserves them exactly, and the outcome
(including the failure message) only depends on the declared keys. -/
theorem c8_extra_keys_untouched :
    (∀ (cache : List (ℕ × CompiledFn)) (f : ℕ) (p : String)
       (fs : List (String × Value)),
       runCS cache (f + 1) p (.cobject []) (.vObj fs) = vOk (.vObj fs))
    ∧ (∀ (cache : List (ℕ × CompiledFn)) (f : ℕ) (p : String)
         (fields : List (String × Bool × CS)) (fs : List (String × Value))
         (w : Value),
         runCS cache (f + 1) p (.cobject fields) (.vObj fs) = some (.ok w) →
         ∃ gs, w = .vObj gs
           ∧ ∀ k, k ∉ fields.map (fun e => e.1) → lookupKey gs k = lookupKey fs k)
    ∧ (∀ (cache : List (ℕ × CompiledFn)) (f : ℕ) (p : String)
         (fields : List (String × Bool × CS)) (fs gs : List (String × Value)),
         (∀ k, k ∈ fields.map (fun e => e.1) → lookupKey fs k = lookupKey gs k) →
         (∀ m a, runCS cache (f + 1) p (.cobject fields) (.vObj fs) = some (.error (m, a)) →
            ∃ b, runCS cache (f + 1) p (.cobject fields) (.vObj gs) = some (.error (m, b)))
         ∧ (∀ a, runCS cache (f + 1) p (.cobject fields) (.vObj fs) = some (.ok a) →
            ∃ b, runCS cache (f + 1) p (.cobject fields) (.vObj gs) = some (.ok b))) := by
  refine ⟨fun cache f p fs => rfl, ?_, ?_⟩
  · intro cache f p fields fs w hw
    exact runFields_preserves_others _ p fields fs w hw
  · intro cache f p fields fs gs hagree
    have h := runFields_agree (fun c pp x => runCS cache f pp c x) p fields fs gs hagree
    exact ⟨h.2.1, h.2.2⟩

/-! ### Check-only schemas and write freedom -/

mutual

/-- The descriptor tags C10 allows: string, boolean, number, integer,
bigint, literal, oneOf, array, object, tuple, record and refine — no
maybe, transform, preprocess, lazy and no union of any kind. -/
def checkOnly : Schema → Bool
  | .string => true
  | .boolean => true
  | .number => true
  | .integer => true
  | .bigint => true
  | .literal _ => true
  | .oneOf _ => true
  | .array item => checkOnly item
  | .object shape => checkOnlyShape shape
  | .tuple items => checkOnlyList items
  | .record value => checkOnly value
  | .refine inner _ _ => checkOnly inner
  | _ => false

def checkOnlyShape : List (String × Schema) → Bool
  | [] => true
  | e :: rest => checkOnly e.2 && checkOnlyShape rest

def checkOnlyList : List Schema → Bool
  | [] => true
  | s :: rest => checkOnly s && checkOnlyList rest

end

mutual

/-- The corresponding code shapes. -/
def checkOnlyCS : CS → Bool
  | .cstring => true
  | .cboolean => true
  | .cnumber => true
  | .cinteger => true
  | .cbigint => true
  | .cliteral _ => true
  | .coneOf _ => true
  | .carray item => checkOnlyCS item
  | .cobject fields => checkOnlyFields fields
  | .ctuple items => checkOnlyCSList items
  | .crecord value => checkOnlyCS value
  | .crefine _ _ inner => checkOnlyCS inner
  | _ => false

def checkOnlyFields : List (String × Bool × CS) → Bool
  | [] => true
  | e :: rest => checkOnlyCS e.2.2 && checkOnlyFields rest

def checkOnlyCSList : List CS → Bool
  | [] => true
  | c :: rest => checkOnlyCS c && checkOnlyCSList rest

end

mutual

/-- Whether a code shape contains a reassignment of a value slot.  The
`maybe` normalization, `transform`, `preprocess`, the call emitted for
`lazy` (both the trampoline and the direct sub-validator call) and the
clone-and-retry loop of a fallback union are exactly the emitted forms
containing a `slot = ...` assignment. -/
def writesCS : CS → Bool
  | .cmaybe _ => true
  | .ctransform _ _ => true
  | .cpre _ _ => true
  | .ccalltramp _ => true
  | .ccallfn _ => true
  | .cufb _ => true
  | .carray item => writesCS item
  | .cobject fields => writesFields fields
  | .ctuple items => writesList items
  | .crecord value => writesCS value
  | .crefine _ _ inner => writesCS inner
  | .cudisc _ cases => writesCases cases
  | _ => false

def writesFields : List (String × Bool × CS) → Bool
  | [] => false
  | e :: rest => writesCS e.2.2 || writesFields rest

def writesList : List CS → Bool
  | [] => false
  | c :: rest => writesCS c || writesList rest

def writesCases : List (Value × List (String × Bool × CS)) → Bool
  | [] => false
  | c :: rest => writesFields c.2 || writesCases rest

end

mutual

theorem writesCS_of_checkOnly : ∀ (c : CS), checkOnlyCS c = true → writesCS c = false
  | .cstring, _ => rfl
  | .cboolean, _ => rfl
  | .cnumber, _ => rfl
  | .cinteger, _ => rfl
  | .cbigint, _ => rfl
  | .cliteral _, _ => rfl
  | .coneOf _, _ => rfl
  | .carray item, h => by
    simpa [writesCS] using writesCS_of_checkOnly item (by simpa [checkOnlyCS] using h)
  | .cobject fields, h => by
    simpa [writesCS] using writesFields_of_checkOnly fields (by simpa [checkOnlyCS] using h)
  | .ctuple items, h => by
    simpa [writesCS] using writesList_of_checkOnly items (by simpa [checkOnlyCS] using h)
  | .crecord value, h => by
    simpa [writesCS] using writesCS_of_checkOnly value (by simpa [checkOnlyCS] using h)
  | .crefine _ _ inner, h => by
    simpa [writesCS] using writesCS_of_checkOnly inner (by simpa [checkOnlyCS] using h)

theorem writesFields_of_checkOnly :
    ∀ (fields : List (String × Bool × CS)), checkOnlyFields fields = true →
      writesFields fields = false
  | [], _ => rfl
  | e :: rest, h => by
    have h2 := by simpa [checkOnlyFields, Bool.and_eq_true] using h
    simp [writesFields, writesCS_of_checkOnly e.2.2 h2.1,
      writesFields_of_checkOnly rest h2.2]

theorem writesList_of_checkOnly :
    ∀ (items : List CS), checkOnlyCSList items = true → writesList items = false
  | [], _ => rfl
  | c :: rest, h => by
    have h2 := by simpa [checkOnlyCSList, Bool.and_eq_true] using h
    simp [writesList, writesCS_of_checkOnly c h2.1, writesList_of_checkOnly rest h2.2]

end

theorem emitShape_checkOnly (em : Schema → Option CS)
    (hem : ∀ sch c, checkOnly sch = true → em sch = some c → checkOnlyCS c = true) :
    ∀ (shape : List (String × Schema)) (fl : List (String × Bool × CS)),
      checkOnlyShape shape = true → emitShape em shape = some fl →
      checkOnlyFields fl = true := by
  intro shape
  induction shape with
  | nil =>
    intro fl _ he
    simp only [emitShape, Option.some.injEq] at he
    rw [← he]
    rfl
  | cons e rest ih =>
    intro fl hco he
    rw [checkOnlyShape, Bool.and_eq_true] at hco
    rw [emitShape] at he
    cases h1 : em e.2 with
    | none => rw [h1] at he; exact absurd he (by simp)
    | some c =>
      cases h2 : emitShape em rest with
      | none => rw [h1, h2] at he; exact absurd he (by simp)
      | some cs =>
        rw [h1, h2] at he
        simp only [Option.some.injEq] at he
        rw [← he, checkOnlyFields, Bool.and_eq_true]
        exact ⟨hem e.2 c hco.1 h1, ih cs hco.2 h2⟩

theorem emitList_checkOnly (em : Schema → Option CS)
    (hem : ∀ sch c, checkOnly sch = true → em sch = some c → checkOnlyCS c = true) :
    ∀ (items : List Schema) (cl : List CS),
      checkOnlyList items = true → emitList em items = some cl →
      checkOnlyCSList cl = true := by
  intro items
  induction items with
  | nil =>
    intro cl _ he
    simp only [emitList, Option.some.injEq] at he
    rw [← he]
    rfl
  | cons s rest ih =>
    intro cl hco he
    rw [checkOnlyList, Bool.and_eq_true] at hco
    rw [emitList] at he
    cases h1 : em s with
    | none => rw [h1] at he; exact absurd he (by simp)
    | some c =>
      cases h2 : emitList em rest with
      | none => rw [h1, h2] at he; exact absurd he (by simp)
      | some cs =>
        rw [h1, h2] at he
        simp only [Option.some.injEq] at he
        rw [← he, checkOnlyCSList, Bool.and_eq_true]
        exact ⟨hem s c hco.1 h1, ih cs hco.2 h2⟩

/-- Emission maps check-only descriptors to check-only code. -/
theorem emitC_checkOnly :
    ∀ (f : ℕ) (h : Heap) (S : List ℕ) (sch : Schema) (cs : CS),
      checkOnly sch = true → emitC h f S sch = some cs → checkOnlyCS cs = true := by
  intro f
  induction f with
  | zero => intro h S sch cs _ he; exact absurd he (by simp [emitC])
  | succ f ih =>
    intro h S sch cs hco he
    cases sch with
    | string => rw [← Option.some.inj he]; rfl
    | boolean => rw [← Option.some.inj he]; rfl
    | number => rw [← Option.some.inj he]; rfl
    | integer => rw [← Option.some.inj he]; rfl
    | bigint => rw [← Option.some.inj he]; rfl
    | literal v => rw [← Option.some.inj he]; rfl
    | oneOf vs => rw [← Option.some.inj he]; rfl
    | array item =>
      rw [show emitC h (f + 1) S (.array item) = (emitC h f S item).map .carray from rfl] at he
      cases h1 : emitC h f S item with
      | none => rw [h1] at he; exact absurd he (by simp)
      | some c =>
        rw [h1] at he
        simp only [Option.map_some', Option.some.injEq] at he
        rw [← he]
        simpa [checkOnlyCS] using ih h S item c (by simpa [checkOnly] using hco) h1
    | object shape =>
      rw [show emitC h (f + 1) S (.object shape)
          = (emitShape (fun s => emitC h f S s) shape).map .cobject from rfl] at he
      cases h1 : emitShape (fun s => emitC h f S s) shape with
      | none => rw [h1] at he; exact absurd he (by simp)
      | some fl =>
        rw [h1] at he
        simp only [Option.map_some', Option.some.injEq] at he
        rw [← he]
        simpa [checkOnlyCS] using
          emitShape_checkOnly _ (fun s c hs hc => ih h S s c hs hc) shape fl
            (by simpa [checkOnly] using hco) h1
    | tuple items =>
      rw [show emitC h (f + 1) S (.tuple items)
          = (emitList (fun s => emitC h f S s) items).map .ctuple from rfl] at he
      cases h1 : emitList (fun s => emitC h f S s) items with
      | none => rw [h1] at he; exact absurd he (by simp)
      | some cl =>
        rw [h1] at he
        simp only [Option.map_some', Option.some.injEq] at he
        rw [← he]
        simpa [checkOnlyCS] using
          emitList_checkOnly _ (fun s c hs hc => ih h S s c hs hc) items cl
            (by simpa [checkOnly] using hco) h1
    | record value =>
      rw [show emitC h (f + 1) S (.record value)
          = (emitC h f S value).map .crecord from rfl] at he
      cases h1 : emitC h f S value with
      | none => rw [h1] at he; exact absurd he (by simp)
      | some c =>
        rw [h1] at he
        simp only [Option.map_some', Option.some.injEq] at he
        rw [← he]
        simpa [checkOnlyCS] using ih h S value c (by simpa [checkOnly] using hco) h1
    | refine inner fn msg =>
      rw [show emitC h (f + 1) S (.refine inner fn msg)
          = (emitC h f S inner).map (.crefine fn (msg.getD "refinement failed")) from rfl] at he
      cases h1 : emitC h f S inner with
      | none => rw [h1] at he; exact absurd he (by simp)
      | some c =>
        rw [h1] at he
        simp only [Option.map_some', Option.some.injEq] at he
        rw [← he]
        simpa [checkOnlyCS] using ih h S inner c (by simpa [checkOnly] using hco) h1
    | maybe inner => exact absurd hco (by simp [checkOnly])
    | union variants => exact absurd hco (by simp [checkOnly])
    | transform inner fn => exact absurd hco (by simp [checkOnly])
    | preprocess inner fn => exact absurd hco (by simp [checkOnly])
    | lazy t => exact absurd hco (by simp [checkOnly])

theorem ok_or_err_of_ite (p m : String) (v : Value) (c : Prop) [Decidable c]
    (r : Except (String × Value) Value)
    (h : (if c then vOk v else vErr p m v) = some r) :
    r = .ok v ∨ ∃ mm, r = .error (mm, v) := by
  by_cases hc : c
  · rw [if_pos hc] at h; exact Or.inl (Option.some.inj h).symm
  · rw [if_neg hc] at h; exact Or.inr ⟨mkMsg p m, (Option.some.inj h).symm⟩

theorem runElems_unchanged (run : String → Value → RRes)
    (hrun : ∀ pp x r, run pp x = some r → r = .ok x ∨ ∃ m, r = .error (m, x))
    (p : String) :
    ∀ (xs : List Value) (i : ℕ) (done : List Value)
      (r : Except (String × Value) Value),
      runElems run p i done xs = some r →
      r = .ok (.vArr (done.reverse ++ xs)) ∨ ∃ m, r = .error (m, .vArr (done.reverse ++ xs)) := by
  intro xs
  induction xs with
  | nil =>
    intro i done r hr
    rw [show runElems run p i done [] = vOk (.vArr done.reverse) from rfl] at hr
    exact Or.inl (by rw [← Option.some.inj hr]; simp [vOk])
  | cons x rest ih =>
    intro i done r hr
    rw [show runElems run p i done (x :: rest)
        = (match run (pathIdx p (toString i)) x with
           | none => none
           | some (.error (m, mv)) => some (.error (m, .vArr (done.reverse ++ mv :: rest)))
           | some (.ok u) => runElems run p (i + 1) (u :: done) rest) from rfl] at hr
    cases h1 : run (pathIdx p (toString i)) x with
    | none => rw [h1] at hr; exact absurd hr (by simp)
    | some res =>
      rw [h1] at hr
      rcases hrun _ _ _ h1 with hok | ⟨m, herr⟩
      · subst hok
        have := ih (i + 1) (x :: done) r hr
        simpa [List.reverse_cons, List.append_assoc] using this
      · subst herr
        exact Or.inr ⟨m, (Option.some.inj hr).symm⟩

theorem runFields_unchanged (run : CS → String → Value → RRes)
    (hrun : ∀ c pp x r, checkOnlyCS c = true → run c pp x = some r →
      r = .ok x ∨ ∃ m, r = .error (m, x)) (p : String) :
    ∀ (fields : List (String × Bool × CS)) (fs : List (String × Value))
      (r : Except (String × Value) Value),
      checkOnlyFields fields = true →
      runFields run p fields fs = some r →
      r = .ok (.vObj fs) ∨ ∃ m, r = .error (m, .vObj fs) := by
  intro fields
  induction fields with
  | nil =>
    intro fs r _ hr
    exact Or.inl (Option.some.inj hr).symm
  | cons e rest ih =>
    intro fs r hco hr
    obtain ⟨k0, gd, c⟩ := e
    rw [checkOnlyFields, Bool.and_eq_true] at hco
    rw [show runFields run p ((k0, gd, c) :: rest) fs
        = (if gd ∧ (lookupKey fs k0).isNone then runFields run p rest fs
           else
             match run c (pathKey p k0) (getKey fs k0) with
             | none => none
             | some (.error (m, mv)) =>
               some (.error (m, .vObj (setKeyIfChanged fs k0 (getKey fs k0) mv)))
             | some (.ok u) =>
               runFields run p rest (setKeyIfChanged fs k0 (getKey fs k0) u)) from rfl] at hr
    by_cases hg : gd ∧ (lookupKey fs k0).isNone
    · rw [if_pos hg] at hr
      exact ih fs r hco.2 hr
    · rw [if_neg hg] at hr
      cases h1 : run c (pathKey p k0) (getKey fs k0) with
      | none => rw [h1] at hr; exact absurd hr (by simp)
      | some res =>
        rw [h1] at hr
        rcases hrun _ _ _ _ hco.1 h1 with hok | ⟨m, herr⟩
        · subst hok
          have hr2 : runFields run p rest
              (setKeyIfChanged fs k0 (getKey fs k0) (getKey fs k0)) = some r := hr
          rw [show setKeyIfChanged fs k0 (getKey fs k0) (getKey fs k0) = fs from
            by simp [setKeyIfChanged]] at hr2
          exact ih fs r hco.2 hr2
        · subst herr
          have hr2 : some (Except.error (m, Value.vObj
              (setKeyIfChanged fs k0 (getKey fs k0) (getKey fs k0)))) = some r := hr
          rw [show setKeyIfChanged fs k0 (getKey fs k0) (getKey fs k0) = fs from
            by simp [setKeyIfChanged]] at hr2
          exact Or.inr ⟨m, (Option.some.inj hr2).symm⟩

theorem runTuple_unchanged (run : CS → String → Value → RRes)
    (hrun : ∀ c pp x r, checkOnlyCS c = true → run c pp x = some r →
      r = .ok x ∨ ∃ m, r = .error (m, x)) (p : String) :
    ∀ (items : List CS) (xs done : List Value) (i : ℕ)
      (r : Except (String × Value) Value),
      checkOnlyCSList items = true →
      runTuple run p i items done xs = some r →
      r = .ok (.vArr (done.reverse ++ xs)) ∨ ∃ m, r = .error (m, .vArr (done.reverse ++ xs)) := by
  intro items
  induction items with
  | nil =>
    intro xs done i r _ hr
    exact Or.inl (Option.some.inj hr).symm
  | cons c rest ih =>
    intro xs done i r hco hr
    rw [checkOnlyCSList, Bool.and_eq_true] at hco
    cases xs with
    | nil =>
      refine Or.inl ?_
      have hr2 : some (Except.ok (Value.vArr done.reverse)) = some r := hr
      rw [← Option.some.inj hr2]
      simp
    | cons x xrest =>
      rw [show runTuple run p i (c :: rest) done (x :: xrest)
          = (match run c (pathIdx p (toString i)) x with
             | none => none
             | some (.error (m, mv)) => some (.error (m, .vArr (done.reverse ++ mv :: xrest)))
             | some (.ok u) => runTuple run p (i + 1) rest (u :: done) xrest) from rfl] at hr
      cases h1 : run c (pathIdx p (toString i)) x with
      | none => rw [h1] at hr; exact absurd hr (by simp)
      | some res =>
        rw [h1] at hr
        rcases hrun _ _ _ _ hco.1 h1 with hok | ⟨m, herr⟩
        · subst hok
          have := ih xrest (x :: done) (i + 1) r hco.2 hr
          simpa [List.reverse_cons, List.append_assoc] using this
        · subst herr
          exact Or.inr ⟨m, (Option.some.inj hr).symm⟩

theorem runRecFields_unchanged (run : String → Value → RRes)
    (hrun : ∀ pp x r, run pp x = some r → r = .ok x ∨ ∃ m, r = .error (m, x))
    (p : String) :
    ∀ (todo done : List (String × Value)) (r : Except (String × Value) Value),
      runRecFields run p done todo = some r →
      r = .ok (.vObj (done.reverse ++ todo)) ∨ ∃ m, r = .error (m, .vObj (done.reverse ++ todo)) := by
  intro todo
  induction todo with
  | nil =>
    intro done r hr
    exact Or.inl (by rw [← Option.some.inj hr]; simp [runRecFields, vOk])
  | cons e rest ih =>
    intro done r hr
    obtain ⟨k, x⟩ := e
    rw [show runRecFields run p done ((k, x) :: rest)
        = (match run (pathIdx p k) x with
           | none => none
           | some (.error (m, mv)) => some (.error (m, .vObj (done.reverse ++ (k, mv) :: rest)))
           | some (.ok u) => runRecFields run p ((k, u) :: done) rest) from rfl] at hr
    cases h1 : run (pathIdx p k) x with
    | none => rw [h1] at hr; exact absurd hr (by simp)
    | some res =>
      rw [h1] at hr
      rcases hrun _ _ _ h1 with hok | ⟨m, herr⟩
      · subst hok
        have := ih ((k, x) :: done) r hr
        simpa [List.reverse_cons, List.append_assoc] using this
      · subst herr
        exact Or.inr ⟨m, (Option.some.inj hr).symm⟩

/-- Check-only code returns exactly its input on success and leaves the
input untouched on failure. -/
theorem runCS_checkOnly :
    ∀ (f : ℕ) (cache : List (ℕ × CompiledFn)) (p : String) (cs : CS) (v : Value)
      (r : Except (String × Value) Value),
      checkOnlyCS cs = true → runCS cache f p cs v = some r →
      r = .ok v ∨ ∃ m, r = .error (m, v) := by
  intro f
  induction f with
  | zero => intro cache p cs v r _ hr; exact absurd hr (by simp [runCS])
  | succ f ih =>
    intro cache p cs v r hco hr
    cases cs with
    | cstring => exact ok_or_err_of_ite p "expected string" v _ r hr
    | cboolean => exact ok_or_err_of_ite p "expected boolean" v _ r hr
    | cnumber => exact ok_or_err_of_ite p "expected finite number" v _ r hr
    | cinteger => exact ok_or_err_of_ite p "expected integer" v _ r hr
    | cbigint => exact ok_or_err_of_ite p "expected bigint" v _ r hr
    | cliteral lv =>
      exact ok_or_err_of_ite p ("expected " ++ renderV lv) v _ r hr
    | coneOf vs =>
      exact ok_or_err_of_ite p
        ("expected one of: " ++ String.intercalate ", " (vs.map renderV)) v _ r hr
    | carray item =>
      cases v
      case vArr xs =>
        have h0 : runCS cache (f + 1) p (.carray item) (.vArr xs)
            = runElems (fun pp x => runCS cache f pp item x) p 0 [] xs := rfl
        rw [h0] at hr
        have := runElems_unchanged _
          (fun pp x rr hx => ih cache pp item x rr (by simpa [checkOnlyCS] using hco) hx)
          p xs 0 [] r hr
        simpa using this
      all_goals exact Or.inr ⟨_, (Option.some.inj hr).symm⟩
    | cobject fields =>
      cases v
      case vObj fs =>
        have h0 : runCS cache (f + 1) p (.cobject fields) (.vObj fs)
            = runFields (fun c pp x => runCS cache f pp c x) p fields fs := rfl
        rw [h0] at hr
        exact runFields_unchanged _
          (fun c pp x rr hc hx => ih cache pp c x rr hc hx) p fields fs r
          (by simpa [checkOnlyCS] using hco) hr
      all_goals exact Or.inr ⟨_, (Option.some.inj hr).symm⟩
    | ctuple items =>
      cases v
      case vArr xs =>
        by_cases hx : xs.length = items.length
        · rw [show runCS cache (f + 1) p (.ctuple items) (.vArr xs)
              = (if xs.length = items.length then
                   runTuple (fun c pp x => runCS cache f pp c x) p 0 items [] xs
                 else vErr p ("expected tuple of length " ++ toString items.length) (.vArr xs)) from rfl,
              if_pos hx] at hr
          have := runTuple_unchanged _
            (fun c pp x rr hc hx2 => ih cache pp c x rr hc hx2) p items xs [] 0 r
            (by simpa [checkOnlyCS] using hco) hr
          simpa using this
        · rw [show runCS cache (f + 1) p (.ctuple items) (.vArr xs)
              = (if xs.length = items.length then
                   runTuple (fun c pp x => runCS cache f pp c x) p 0 items [] xs
                 else vErr p ("expected tuple of length " ++ toString items.length) (.vArr xs)) from rfl,
              if_neg hx] at hr
          exact Or.inr ⟨_, (Option.some.inj hr).symm⟩
      all_goals exact Or.inr ⟨_, (Option.some.inj hr).symm⟩
    | crecord value =>
      cases v
      case vObj fs =>
        have h0 : runCS cache (f + 1) p (.crecord value) (.vObj fs)
            = runRecFields (fun pp x => runCS cache f pp value x) p [] fs := rfl
        rw [h0] at hr
        have := runRecFields_unchanged _
          (fun pp x rr hx => ih cache pp value x rr (by simpa [checkOnlyCS] using hco) hx)
          p fs [] r hr
        simpa using this
      all_goals exact Or.inr ⟨_, (Option.some.inj hr).symm⟩
    | crefine fn m inner =>
      rw [show runCS cache (f + 1) p (.crefine fn m inner) v
          = (match runCS cache f p inner v with
             | none => none
             | some (.error e) => some (.error e)
             | some (.ok u) => if fn u then vOk u else some (.error (mkMsg p m, u))) from rfl] at hr
      cases h1 : runCS cache f p inner v with
      | none => rw [h1] at hr; exact absurd hr (by simp)
      | some res =>
        rw [h1] at hr
        rcases ih cache p inner v res (by simpa [checkOnlyCS] using hco) h1 with hok | ⟨m2, herr⟩
        · subst hok
          have hr2 : (if fn v = true then vOk v else some (.error (mkMsg p m, v))) = some r := hr
          by_cases hf : fn v = true
          · rw [if_pos hf] at hr2; exact Or.inl (Option.some.inj hr2).symm
          · rw [if_neg hf] at hr2; exact Or.inr ⟨mkMsg p m, (Option.some.inj hr2).symm⟩
        · subst herr
          exact Or.inr ⟨m2, (Option.some.inj hr).symm⟩
    | cmaybe inner => exact absurd hco (by simp [checkOnlyCS])
    | ctypeofU cases2 => exact absurd hco (by simp [checkOnlyCS])
    | cudisc key cases2 => exact absurd hco (by simp [checkOnlyCS])
    | cufb variants => exact absurd hco (by simp [checkOnlyCS])
    | ctransform fn inner => exact absurd hco (by simp [checkOnlyCS])
    | cpre fn inner => exact absurd hco (by simp [checkOnlyCS])
    | ccalltramp d => exact absurd hco (by simp [checkOnlyCS])
    | ccallfn body => exact absurd hco (by simp [checkOnlyCS])

/-- C10: a descriptor built only from the check-only tags (string,
boolean, number, integer, bigint, literal, oneOf, array, object, tuple,
record, refine) compiles to code containing no reassignment of any
value slot, and the compiled validator returns exactly its input on
success and leaves it untouched on failure. -/
theorem c10_check_only_is_pure (h : Heap) (f : ℕ) (S : List ℕ) (sch : Schema)
    (cs : CS) (hco : checkOnly sch = true) (he : emitC h f S sch = some cs) :
    writesCS cs = false
    ∧ ∀ (cache : List (ℕ × CompiledFn)) (g : ℕ) (p : String) (v : Value)
        (r : Except (String × Value) Value),
        runCS cache g p cs v = some r → r = .ok v ∨ ∃ m, r = .error (m, v) := by
  have hcs : checkOnlyCS cs = true := emitC_checkOnly f h S sch cs hco he
  exact ⟨writesCS_of_checkOnly cs hcs,
    fun cache g p v r hr => runCS_checkOnly g cache p cs v r hcs hr⟩

theorem c10_witness :
    (writesCS (.cobject [("id", false, .cinteger)]) = false)
    ∧ ((.ok (Value.vObj [("id", Value.vNum 2)]) : Except (String × Value) Value)
        = .ok (Value.vObj [("id", Value.vNum 2)])
       ∨ ∃ m, (.ok (Value.vObj [("id", Value.vNum 2)]) : Except (String × Value) Value)
        = .error (m, Value.vObj [("id", Value.vNum 2)])) :=
  ⟨(c10_check_only_is_pure [] 5 [] (.object [("id", .integer)])
      (.cobject [("id", false, .cinteger)]) rfl rfl).1,
   (c10_check_only_is_pure [] 5 [] (.object [("id", .integer)])
      (.cobject [("id", false, .cinteger)]) rfl rfl).2 [] 3 ""
      (.vObj [("id", .vNum 2)]) (.ok (.vObj [("id", .vNum 2)])) rfl⟩

theorem c8_witness :
    ∃ gs, Value.vObj [("x", Value.vStr "a"), ("extra", Value.vNum 5)] = Value.vObj gs
      ∧ ∀ k, k ∉ [("x", false, CS.cstring)].map
          (fun e : String × Bool × CS => e.1) →
          lookupKey gs k = lookupKey [("x", Value.vStr "a"), ("extra", Value.vNum 5)] k :=
  c8_extra_keys_untouched.2.1 [] 2 "" [("x", false, .cstring)]
    [("x", .vStr "a"), ("extra", .vNum 5)]
    (.vObj [("x", .vStr "a"), ("extra", .vNum 5)]) rfl

/-! ### The normalization relation

`nrelV v w` holds when `w` is `v` with `null` replaced by `undefined`
at some of its slots — exactly the rewrites the `maybe` normalization
can perform.  Validator outputs relate to their inputs by `nrelV`. -/

mutual

def nrelV : Value → Value → Bool
  | .vUndef, .vUndef => true
  | .vNull, .vNull => true
  | .vNull, .vUndef => true
  | .vBool a, .vBool b => a == b
  | .vNum a, .vNum b => a == b
  | .vNaN, .vNaN => true
  | .vInf a, .vInf b => a == b
  | .vStr a, .vStr b => a == b
  | .vBig a, .vBig b => a == b
  | .vArr xs, .vArr ys => nrelL xs ys
  | .vObj fs, .vObj gs => nrelF fs gs
  | _, _ => false

def nrelL : List Value → List Value → Bool
  | [], [] => true
  | x :: xs, y :: ys => nrelV x y && nrelL xs ys
  | _, _ => false

def nrelF : List (String × Value) → List (String × Value) → Bool
  | [], [] => true
  | e :: es, g :: gs => e.1 == g.1 && nrelV e.2 g.2 && nrelF es gs
  | _, _ => false

end

mutual

theorem nrelV_refl : ∀ (v : Value), nrelV v v = true
  | .vUndef => rfl
  | .vNull => rfl
  | .vBool a => by simp [nrelV]
  | .vNum a => by simp [nrelV]
  | .vNaN => rfl
  | .vInf a => by simp [nrelV]
  | .vStr a => by simp [nrelV]
  | .vBig a => by simp [nrelV]
  | .vArr xs => by simpa [nrelV] using nrelL_refl xs
  | .vObj fs => by simpa [nrelV] using nrelF_refl fs

theorem nrelL_refl : ∀ (xs : List Value), nrelL xs xs = true
  | [] => rfl
  | x :: xs => by simp [nrelL, nrelV_refl x, nrelL_refl xs]

theorem nrelF_refl : ∀ (fs : List (String × Value)), nrelF fs fs = true
  | [] => rfl
  | e :: es => by simp [nrelF, nrelV_refl e.2, nrelF_refl es]

end

theorem nrelV_undef_left : ∀ (w : Value), nrelV .vUndef w = true → w = .vUndef := by
  intro w
  cases w <;> simp [nrelV]

theorem nrelV_null_left : ∀ (w : Value), nrelV .vNull w = true →
    w = .vNull ∨ w = .vUndef := by
  intro w
  cases w <;> simp [nrelV]

theorem nrelV_bool_left (a : Bool) (w : Value) (h : nrelV (.vBool a) w = true) :
    w = .vBool a := by
  cases w <;> simp [nrelV] at h ⊢
  exact h.symm

theorem nrelV_num_left (a : ℚ) (w : Value) (h : nrelV (.vNum a) w = true) :
    w = .vNum a := by
  cases w <;> simp [nrelV] at h ⊢
  exact h.symm

theorem nrelV_nan_left (w : Value) (h : nrelV .vNaN w = true) : w = .vNaN := by
  cases w <;> simp [nrelV] at h ⊢

theorem nrelV_inf_left (a : Bool) (w : Value) (h : nrelV (.vInf a) w = true) :
    w = .vInf a := by
  cases w <;> simp [nrelV] at h ⊢
  exact h.symm

theorem nrelV_str_left (a : String) (w : Value) (h : nrelV (.vStr a) w = true) :
    w = .vStr a := by
  cases w <;> simp [nrelV] at h ⊢
  exact h.symm

theorem nrelV_big_left (a : ℤ) (w : Value) (h : nrelV (.vBig a) w = true) :
    w = .vBig a := by
  cases w <;> simp [nrelV] at h ⊢
  exact h.symm

theorem nrelV_arr_left (xs : List Value) (w : Value)
    (h : nrelV (.vArr xs) w = true) :
    ∃ ys, w = .vArr ys ∧ nrelL xs ys = true := by
  cases w <;> simp [nrelV] at h ⊢
  exact h

theorem nrelV_obj_left (fs : List (String × Value)) (w : Value)
    (h : nrelV (.vObj fs) w = true) :
    ∃ gs, w = .vObj gs ∧ nrelF fs gs = true := by
  cases w <;> simp [nrelV] at h ⊢
  exact h

mutual

theorem nrelV_trans : ∀ (a b c : Value),
    nrelV a b = true → nrelV b c = true → nrelV a c = true
  | .vUndef, b, c => by
    intro h1 h2
    rw [nrelV_undef_left b h1] at h2
    rw [nrelV_undef_left c h2]
    rfl
  | .vNull, b, c => by
    intro h1 h2
    rcases nrelV_null_left b h1 with hb | hb
    · subst hb
      rcases nrelV_null_left c h2 with hc | hc <;> (subst hc; rfl)
    · subst hb
      rw [nrelV_undef_left c h2]
      rfl
  | .vBool a, b, c => by
    intro h1 h2
    rw [nrelV_bool_left a b h1] at h2
    exact h2
  | .vNum a, b, c => by
    intro h1 h2
    rw [nrelV_num_left a b h1] at h2
    exact h2
  | .vNaN, b, c => by
    intro h1 h2
    rw [nrelV_nan_left b h1] at h2
    exact h2
  | .vInf a, b, c => by
    intro h1 h2
    rw [nrelV_inf_left a b h1] at h2
    exact h2
  | .vStr a, b, c => by
    intro h1 h2
    rw [nrelV_str_left a b h1] at h2
    exact h2
  | .vBig a, b, c => by
    intro h1 h2
    rw [nrelV_big_left a b h1] at h2
    exact h2
  | .vArr xs, b, c => by
    intro h1 h2
    obtain ⟨ys, rfl, hxy⟩ := nrelV_arr_left xs b h1
    obtain ⟨zs, rfl, hyz⟩ := nrelV_arr_left ys c h2
    simpa [nrelV] using nrelL_trans xs ys zs hxy hyz
  | .vObj fs, b, c => by
    intro h1 h2
    obtain ⟨gs, rfl, hfg⟩ := nrelV_obj_left fs b h1
    obtain ⟨hs, rfl, hgh⟩ := nrelV_obj_left gs c h2
    simpa [nrelV] using nrelF_trans fs gs hs hfg hgh
termination_by a _ _ => sizeOf a

theorem nrelL_trans : ∀ (xs ys zs : List Value),
    nrelL xs ys = true → nrelL ys zs = true → nrelL xs zs = true
  | [], ys, zs => by
    intro h1 h2
    cases ys with
    | nil => exact h2
    | cons y ys => simp [nrelL] at h1
  | x :: xs, ys, zs => by
    cases ys with
    | nil => simp [nrelL]
    | cons y ys =>
      cases zs with
      | nil => simp [nrelL]
      | cons z zs =>
        simp only [nrelL, Bool.and_eq_true, and_imp]
        intro h1 h2 h3 h4
        exact ⟨nrelV_trans x y z h1 h3, nrelL_trans xs ys zs h2 h4⟩
termination_by xs _ _ => sizeOf xs

theorem nrelF_trans : ∀ (fs gs hs : List (String × Value)),
    nrelF fs gs = true → nrelF gs hs = true → nrelF fs hs = true
  | [], gs, hs => by
    intro h1 h2
    cases gs with
    | nil => exact h2
    | cons g gs => simp [nrelF] at h1
  | (k, x) :: fs, gs, hs => by
    cases gs with
    | nil => simp [nrelF]
    | cons g gs =>
      cases hs with
      | nil => simp [nrelF]
      | cons hh hs =>
        simp only [nrelF, Bool.and_eq_true, and_imp]
        intro h1 h2 h3 h4 h5 h6
        refine ⟨⟨?_, nrelV_trans x g.2 hh.2 h2 h5⟩, nrelF_trans fs gs hs h3 h6⟩
        rw [show k = hh.1 from (eq_of_beq h1).trans (eq_of_beq h4)]
        exact beq_self_eq_true hh.1
termination_by fs _ _ => sizeOf fs

end

theorem nrelV_null_right (v : Value) (h : nrelV v .vNull = true) : v = .vNull := by
  cases v <;> simp [nrelV] at h ⊢

theorem nrelV_undef_right (v : Value) (h : nrelV v .vUndef = true) :
    v = .vUndef ∨ v = .vNull := by
  cases v <;> simp [nrelV] at h ⊢

theorem nrelV_bool_right (a : Bool) (v : Value) (h : nrelV v (.vBool a) = true) :
    v = .vBool a := by
  cases v <;> simp [nrelV] at h ⊢
  exact h

theorem nrelV_num_right (a : ℚ) (v : Value) (h : nrelV v (.vNum a) = true) :
    v = .vNum a := by
  cases v <;> simp [nrelV] at h ⊢
  exact h

theorem nrelV_str_right (a : String) (v : Value) (h : nrelV v (.vStr a) = true) :
    v = .vStr a := by
  cases v <;> simp [nrelV] at h ⊢
  exact h

theorem nrel_notNullish (v w : Value) (h : nrelV v w = true) :
    w.notNullish = v.notNullish := by
  cases v <;> cases w <;> simp [nrelV, Value.notNullish] at h ⊢

theorem nrel_typeof (v w : Value) (h : nrelV v w = true) (hv : v ≠ .vNull) :
    typeofV w = typeofV v := by
  cases v <;> cases w <;> simp [nrelV, typeofV] at h hv ⊢

theorem nrel_isFinite (v w : Value) (h : nrelV v w = true) :
    w.isFiniteNum = v.isFiniteNum := by
  cases v <;> cases w <;> simp [nrelV, Value.isFiniteNum] at h ⊢

theorem nrel_isInt (v w : Value) (h : nrelV v w = true) :
    w.isIntNum = v.isIntNum := by
  cases v <;> cases w <;> simp [nrelV, Value.isIntNum] at h ⊢
  rw [h]

theorem nrel_isArray (v w : Value) (h : nrelV v w = true) :
    w.isArrayV = v.isArrayV := by
  cases v <;> cases w <;> simp [nrelV, Value.isArrayV] at h ⊢

theorem nrel_isPlainObj (v w : Value) (h : nrelV v w = true) :
    w.isPlainObj = v.isPlainObj := by
  cases v <;> cases w <;> simp [nrelV, Value.isPlainObj] at h ⊢

/-- Strict equality against anything is equality of values (NaN is
never strictly equal to anything, itself included). -/
theorem strictEq_eq_of_true (a b : Value) (h : strictEq a b = true) : a = b := by
  cases a <;> simp [strictEq] at h ⊢ <;> exact h

/-- The values a `literal` descriptor can carry: string, number,
boolean or null (the combinator type constraint). -/
def litOK : Value → Bool
  | .vStr _ => true
  | .vNum _ => true
  | .vBool _ => true
  | .vNull => true
  | _ => false

/-- The values `oneOf` can carry: strings and numbers. -/
def oneOfOK (vs : List Value) : Bool := vs.all (fun x =>
  match x with
  | .vStr _ => true
  | .vNum _ => true
  | _ => false)

theorem nrel_strictEq_lit (lv v w : Value) (hok : litOK lv = true)
    (h : nrelV v w = true) (hne : strictEq v lv = false) :
    strictEq w lv = false := by
  by_contra hw
  have hw2 : strictEq w lv = true := by
    cases hsw : strictEq w lv
    · exact absurd hsw hw
    · rfl
  have hweq : w = lv := strictEq_eq_of_true w lv hw2
  subst hweq
  cases w with
  | vNull =>
    rw [nrelV_null_right v h] at hne
    simp [strictEq, beqV] at hne
  | vStr s =>
    rw [nrelV_str_right s v h] at hne
    simp [strictEq] at hne
  | vNum q =>
    rw [nrelV_num_right q v h] at hne
    simp [strictEq] at hne
  | vBool b =>
    rw [nrelV_bool_right b v h] at hne
    simp [strictEq] at hne
  | vUndef => simp [litOK] at hok
  | vBig n => simp [litOK] at hok
  | vNaN => simp [litOK] at hok
  | vInf b => simp [litOK] at hok
  | vArr xs => simp [litOK] at hok
  | vObj fs => simp [litOK] at hok

theorem nrel_strictEq_oneOfElem (x v w : Value)
    (hok : (match x with | .vStr _ => true | .vNum _ => true | _ => false) = true)
    (h : nrelV v w = true) : strictEq w x = strictEq v x := by
  cases hvw : strictEq v x with
  | true =>
    have hv : v = x := strictEq_eq_of_true v x hvw
    subst hv
    cases v with
    | vStr s => rw [nrelV_str_left s w h]; exact hvw
    | vNum q => rw [nrelV_num_left q w h]; exact hvw
    | vUndef => simp at hok
    | vNull => simp at hok
    | vBool b => simp at hok
    | vNaN => simp at hok
    | vInf b => simp at hok
    | vBig n => simp at hok
    | vArr xs => simp at hok
    | vObj fs => simp at hok
  | false =>
    by_contra hw
    have hw2 : strictEq w x = true := by
      cases hsw : strictEq w x
      · exact absurd hsw hw
      · rfl
    have : w = x := strictEq_eq_of_true w x hw2
    subst this
    cases w with
    | vStr s => rw [nrelV_str_right s v h] at hvw; simp [strictEq, beqV] at hvw
    | vNum q => rw [nrelV_num_right q v h] at hvw; simp [strictEq, beqV] at hvw
    | vUndef => simp at hok
    | vNull => simp at hok
    | vBool b => simp at hok
    | vNaN => simp at hok
    | vInf b => simp at hok
    | vBig n => simp at hok
    | vArr xs => simp at hok
    | vObj fs => simp at hok

theorem nrel_oneOf_any (vs : List Value) (v w : Value) (hok : oneOfOK vs = true)
    (h : nrelV v w = true) :
    (vs.any (fun x => strictEq w x)) = (vs.any (fun x => strictEq v x)) := by
  induction vs with
  | nil => rfl
  | cons x rest ih =>
    rw [oneOfOK, List.all_cons, Bool.and_eq_true] at hok
    rw [List.any_cons, List.any_cons,
      nrel_strictEq_oneOfElem x v w hok.1 h, ih (by simpa [oneOfOK] using hok.2)]

theorem nrelF_keys : ∀ (fs gs : List (String × Value)), nrelF fs gs = true →
    fs.map Prod.fst = gs.map Prod.fst := by
  intro fs
  induction fs with
  | nil => intro gs h; cases gs with
    | nil => rfl
    | cons g gs => simp [nrelF] at h
  | cons e es ih =>
    intro gs h
    cases gs with
    | nil => simp [nrelF] at h
    | cons g gs =>
      rw [nrelF, Bool.and_eq_true, Bool.and_eq_true] at h
      simp only [List.map_cons, List.cons.injEq]
      exact ⟨eq_of_beq h.1.1, ih gs h.2⟩

theorem nrelF_lookup : ∀ (fs gs : List (String × Value)), nrelF fs gs = true →
    ∀ k, (lookupKey fs k = none ∧ lookupKey gs k = none)
      ∨ ∃ a b, lookupKey fs k = some a ∧ lookupKey gs k = some b ∧ nrelV a b = true := by
  intro fs
  induction fs with
  | nil =>
    intro gs h k
    cases gs with
    | nil => exact Or.inl ⟨rfl, rfl⟩
    | cons g gs => simp [nrelF] at h
  | cons e es ih =>
    intro gs h k
    cases gs with
    | nil => simp [nrelF] at h
    | cons g gs =>
      rw [nrelF, Bool.and_eq_true, Bool.and_eq_true] at h
      have hkey : e.1 = g.1 := eq_of_beq h.1.1
      by_cases hk : e.1 = k
      · refine Or.inr ⟨e.2, g.2, ?_, ?_, h.1.2⟩
        · simp [lookupKey, List.find?, hk]
        · simp [lookupKey, List.find?, hkey ▸ hk]
      · have h1 : lookupKey (e :: es) k = lookupKey es k := by
          simp [lookupKey, List.find?, (by simpa using hk : (e.1 == k) = false)]
        have h2 : lookupKey (g :: gs) k = lookupKey gs k := by
          have : g.1 ≠ k := hkey ▸ hk
          simp [lookupKey, List.find?, (by simpa using this : (g.1 == k) = false)]
        rw [h1, h2]
        exact ih gs h.2 k

theorem nrelF_getKey (fs gs : List (String × Value)) (h : nrelF fs gs = true)
    (k : String) : nrelV (getKey fs k) (getKey gs k) = true := by
  rcases nrelF_lookup fs gs h k with ⟨h1, h2⟩ | ⟨a, b, h1, h2, h3⟩
  · simp [getKey, h1, h2, nrelV]
  · simpa [getKey, h1, h2] using h3

theorem nrelF_isNone (fs gs : List (String × Value)) (h : nrelF fs gs = true)
    (k : String) : (lookupKey fs k).isNone = (lookupKey gs k).isNone := by
  rcases nrelF_lookup fs gs h k with ⟨h1, h2⟩ | ⟨a, b, h1, h2, h3⟩
  · rw [h1, h2]
  · rw [h1, h2]; rfl

theorem nrelF_set_self : ∀ (fs : List (String × Value)) (k : String) (a u : Value),
    lookupKey fs k = some a → nrelV a u = true → nrelF fs (setKey fs k u) = true := by
  intro fs
  induction fs with
  | nil => intro k a u h1 _; simp [lookupKey] at h1
  | cons e es ih =>
    intro k a u h1 h2
    by_cases hk : e.1 = k
    · have ha : e.2 = a := by
        simp [lookupKey, List.find?, hk] at h1
        exact h1
      rw [show setKey (e :: es) k u = (k, u) :: es from by simp [setKey, hk]]
      rw [nrelF, Bool.and_eq_true, Bool.and_eq_true]
      exact ⟨⟨by simpa using hk, ha ▸ h2⟩, nrelF_refl es⟩
    · have h1b : lookupKey es k = some a := by
        simpa [lookupKey, List.find?, (by simpa using hk : (e.1 == k) = false)] using h1
      rw [show setKey (e :: es) k u = e :: setKey es k u from by
        simp [setKey, (by simpa using hk : (e.1 == k) = false)]]
      rw [nrelF, Bool.and_eq_true, Bool.and_eq_true]
      exact ⟨⟨beq_self_eq_true e.1, nrelV_refl e.2⟩, ih k a u h1b h2⟩

theorem nrelL_length : ∀ (xs ys : List Value), nrelL xs ys = true →
    xs.length = ys.length := by
  intro xs
  induction xs with
  | nil => intro ys h; cases ys with
    | nil => rfl
    | cons y ys => simp [nrelL] at h
  | cons x xs ih =>
    intro ys h
    cases ys with
    | nil => simp [nrelL] at h
    | cons y ys =>
      rw [nrelL, Bool.and_eq_true] at h
      simpa using ih ys h.2

/-! ### Code depth and the idempotence-eligible code shapes -/

mutual

/-- Nesting depth of a code shape; runs with fuel above the depth never
run out (lazy calls excluded). -/
def depthCS : CS → ℕ
  | .cstring => 0
  | .cboolean => 0
  | .cnumber => 0
  | .cinteger => 0
  | .cbigint => 0
  | .cliteral _ => 0
  | .coneOf _ => 0
  | .cmaybe inner => depthCS inner + 1
  | .carray item => depthCS item + 1
  | .cobject fields => depthFields fields + 1
  | .ctuple items => depthList items + 1
  | .crecord value => depthCS value + 1
  | .ctypeofU _ => 0
  | .cudisc _ cases => depthCases cases + 1
  | .cufb variants => depthList variants + 1
  | .ctransform _ inner => depthCS inner + 1
  | .crefine _ _ inner => depthCS inner + 1
  | .cpre _ inner => depthCS inner + 1
  | .ccalltramp _ => 0
  | .ccallfn body => depthCS body + 1

def depthFields : List (String × Bool × CS) → ℕ
  | [] => 0
  | e :: rest => max (depthCS e.2.2) (depthFields rest)

def depthList : List CS → ℕ
  | [] => 0
  | c :: rest => max (depthCS c) (depthList rest)

def depthCases : List (Value × List (String × Bool × CS)) → ℕ
  | [] => 0
  | c :: rest => max (depthFields c.2) (depthCases rest)

end

/-- No two fields with the same key (object shapes come from
`Object.keys`, which never repeats a key). -/
def nodupKeysB : List (String × Bool × CS) → Bool
  | [] => true
  | e :: rest => !(rest.any (fun g => g.1 == e.1)) && nodupKeysB rest

mutual

/-- The code shapes for which validation is idempotent: everything the
emitter produces except `transform`, `preprocess`, `refine` and the
calls emitted for `lazy`.  Literal and `oneOf` payloads are restricted
to the value kinds the combinator types admit, typeof cases to the four
emittable kind tags, and field lists are duplicate-free with the
discriminant key excluded from a discriminated case body — all
invariants of emitted code. -/
def idemCS : CS → Bool
  | .cstring => true
  | .cboolean => true
  | .cnumber => true
  | .cinteger => true
  | .cbigint => true
  | .cliteral lv => litOK lv
  | .coneOf vs => oneOfOK vs
  | .cmaybe inner => idemCS inner
  | .carray item => idemCS item
  | .cobject fields => nodupKeysB fields && idemFields fields
  | .ctuple items => idemList items
  | .crecord value => idemCS value
  | .ctypeofU cases => cases.all (fun c =>
      c.1 == "string" || c.1 == "boolean" || c.1 == "number" || c.1 == "bigint")
  | .cudisc key cases => idemCases key cases
  | .cufb variants => idemList variants
  | _ => false

def idemFields : List (String × Bool × CS) → Bool
  | [] => true
  | e :: rest => idemCS e.2.2 && idemFields rest

def idemList : List CS → Bool
  | [] => true
  | c :: rest => idemCS c && idemList rest

def idemCases : String → List (Value × List (String × Bool × CS)) → Bool
  | _, [] => true
  | key, c :: rest =>
    litOK c.1 && !(c.2.any (fun e => e.1 == key)) && nodupKeysB c.2
      && idemFields c.2 && idemCases key rest

end

theorem idemFields_mem {fields : List (String × Bool × CS)}
    (h : idemFields fields = true) {e : String × Bool × CS} (he : e ∈ fields) :
    idemCS e.2.2 = true := by
  induction fields with
  | nil => cases he
  | cons x rest ih =>
    rw [idemFields, Bool.and_eq_true] at h
    rcases List.mem_cons.mp he with rfl | hm
    · exact h.1
    · exact ih h.2 hm

theorem idemList_mem {items : List CS} (h : idemList items = true) {c : CS}
    (hc : c ∈ items) : idemCS c = true := by
  induction items with
  | nil => cases hc
  | cons x rest ih =>
    rw [idemList, Bool.and_eq_true] at h
    rcases List.mem_cons.mp hc with rfl | hm
    · exact h.1
    · exact ih h.2 hm

theorem idemCases_mem {key : String}
    {cases2 : List (Value × List (String × Bool × CS))}
    (h : idemCases key cases2 = true) {c : Value × List (String × Bool × CS)}
    (hc : c ∈ cases2) :
    litOK c.1 = true ∧ (c.2.any (fun e => e.1 == key)) = false
      ∧ nodupKeysB c.2 = true ∧ idemFields c.2 = true := by
  induction cases2 with
  | nil => cases hc
  | cons x rest ih =>
    rw [idemCases] at h
    simp only [Bool.and_eq_true] at h
    rcases List.mem_cons.mp hc with rfl | hm
    · exact ⟨h.1.1.1.1, by simpa using h.1.1.1.2, h.1.1.2, h.1.2⟩
    · exact ih h.2 hm

theorem depthFields_le {fields : List (String × Bool × CS)}
    {e : String × Bool × CS} (he : e ∈ fields) :
    depthCS e.2.2 ≤ depthFields fields := by
  induction fields with
  | nil => cases he
  | cons x rest ih =>
    rcases List.mem_cons.mp he with rfl | hm
    · exact le_max_left _ _
    · exact le_trans (ih hm) (le_max_right _ _)

theorem depthList_le {items : List CS} {c : CS} (hc : c ∈ items) :
    depthCS c ≤ depthList items := by
  induction items with
  | nil => cases hc
  | cons x rest ih =>
    rcases List.mem_cons.mp hc with rfl | hm
    · exact le_max_left _ _
    · exact le_trans (ih hm) (le_max_right _ _)

theorem depthCases_le {cases2 : List (Value × List (String × Bool × CS))}
    {c : Value × List (String × Bool × CS)} (hc : c ∈ cases2) :
    depthFields c.2 ≤ depthCases cases2 := by
  induction cases2 with
  | nil => cases hc
  | cons x rest ih =>
    rcases List.mem_cons.mp hc with rfl | hm
    · exact le_max_left _ _
    · exact le_trans (ih hm) (le_max_right _ _)

/-! ### Completeness: fuel above the code depth never runs out -/

theorem vOk_vErr_ite_ne (c : Prop) [Decidable c] (v : Value) (p m : String)
    (w : Value) : (if c then vOk v else vErr p m w) ≠ none := by
  by_cases hc : c <;> simp [hc, vOk, vErr]

theorem runElems_complete (run : String → Value → RRes)
    (hrun : ∀ pp x, run pp x ≠ none) (p : String) :
    ∀ (xs : List Value) (i : ℕ) (done : List Value),
      runElems run p i done xs ≠ none := by
  intro xs
  induction xs with
  | nil => intro i done; simp [runElems, vOk]
  | cons x rest ih =>
    intro i done
    rw [show runElems run p i done (x :: rest)
        = (match run (pathIdx p (toString i)) x with
           | none => none
           | some (.error (m, mv)) => some (.error (m, .vArr (done.reverse ++ mv :: rest)))
           | some (.ok u) => runElems run p (i + 1) (u :: done) rest) from rfl]
    cases h1 : run (pathIdx p (toString i)) x with
    | none => exact absurd h1 (hrun _ _)
    | some res => cases res with
      | error e => simp
      | ok u => exact ih (i + 1) (u :: done)

theorem runFields_complete (run : CS → String → Value → RRes) (p : String)
    (fields : List (String × Bool × CS))
    (hrun : ∀ e ∈ fields, ∀ pp x, run e.2.2 pp x ≠ none) :
    ∀ (fs : List (String × Value)), runFields run p fields fs ≠ none := by
  induction fields with
  | nil => intro fs; simp [runFields, vOk]
  | cons e rest ih =>
    intro fs
    obtain ⟨k0, gd, c⟩ := e
    rw [show runFields run p ((k0, gd, c) :: rest) fs
        = (if gd ∧ (lookupKey fs k0).isNone then runFields run p rest fs
           else
             match run c (pathKey p k0) (getKey fs k0) with
             | none => none
             | some (.error (m, mv)) =>
               some (.error (m, .vObj (setKeyIfChanged fs k0 (getKey fs k0) mv)))
             | some (.ok u) =>
               runFields run p rest (setKeyIfChanged fs k0 (getKey fs k0) u)) from rfl]
    by_cases hg : gd ∧ (lookupKey fs k0).isNone
    · rw [if_pos hg]
      exact ih (fun e2 he2 => hrun e2 (List.mem_cons_of_mem _ he2)) fs
    · rw [if_neg hg]
      cases h1 : run c (pathKey p k0) (getKey fs k0) with
      | none => exact absurd h1 (hrun (k0, gd, c) (List.mem_cons_self _ _) _ _)
      | some res => cases res with
        | error e2 => simp
        | ok u => exact ih (fun e2 he2 => hrun e2 (List.mem_cons_of_mem _ he2)) _

theorem runTuple_complete (run : CS → String → Value → RRes) (p : String) :
    ∀ (items : List CS),
      (∀ c ∈ items, ∀ pp x, run c pp x ≠ none) →
      ∀ (xs done : List Value) (i : ℕ), runTuple run p i items done xs ≠ none := by
  intro items
  induction items with
  | nil => intro _ xs done i; simp [runTuple, vOk]
  | cons c rest ih =>
    intro hrun xs done i
    cases xs with
    | nil => simp [runTuple, vOk]
    | cons x xrest =>
      rw [show runTuple run p i (c :: rest) done (x :: xrest)
          = (match run c (pathIdx p (toString i)) x with
             | none => none
             | some (.error (m, mv)) => some (.error (m, .vArr (done.reverse ++ mv :: xrest)))
             | some (.ok u) => runTuple run p (i + 1) rest (u :: done) xrest) from rfl]
      cases h1 : run c (pathIdx p (toString i)) x with
      | none => exact absurd h1 (hrun c (List.mem_cons_self _ _) _ _)
      | some res => cases res with
        | error e => simp
        | ok u => exact ih (fun c2 hc2 => hrun c2 (List.mem_cons_of_mem _ hc2)) xrest (u :: done) (i + 1)

theorem runRecFields_complete (run : String → Value → RRes)
    (hrun : ∀ pp x, run pp x ≠ none) (p : String) :
    ∀ (todo done : List (String × Value)), runRecFields run p done todo ≠ none := by
  intro todo
  induction todo with
  | nil => intro done; simp [runRecFields, vOk]
  | cons e rest ih =>
    intro done
    obtain ⟨k, x⟩ := e
    rw [show runRecFields run p done ((k, x) :: rest)
        = (match run (pathIdx p k) x with
           | none => none
           | some (.error (m, mv)) => some (.error (m, .vObj (done.reverse ++ (k, mv) :: rest)))
           | some (.ok u) => runRecFields run p ((k, u) :: done) rest) from rfl]
    cases h1 : run (pathIdx p k) x with
    | none => exact absurd h1 (hrun _ _)
    | some res => cases res with
      | error e2 => simp
      | ok u => exact ih ((k, u) :: done)

theorem fbGo_complete (run : CS → Value → RRes) (v : Value) :
    ∀ (vs : List CS), (∀ c ∈ vs, ∀ x, run c x ≠ none) →
      ∀ (le : Option (String × Value)), fbGo run v vs le ≠ none := by
  intro vs
  induction vs with
  | nil => intro _ le; cases le <;> simp [fbGo]
  | cons c rest ih =>
    intro hrun le
    rw [show fbGo run v (c :: rest) le
        = (match run c v with
           | none => none
           | some (.ok r) => vOk r
           | some (.error e) => fbGo run v rest (some e)) from rfl]
    cases h1 : run c v with
    | none => exact absurd h1 (hrun c (List.mem_cons_self _ _) _)
    | some res => cases res with
      | ok r => simp [vOk]
      | error e => exact ih (fun c2 hc2 x => hrun c2 (List.mem_cons_of_mem _ hc2) x) (some e)

theorem runTypeofCase_ne_none (p : String) (body : UBody) (v : Value) :
    runTypeofCase p body v ≠ none := by
  cases body with
  | unone => simp [runTypeofCase, vOk]
  | ufinite => exact vOk_vErr_ite_ne _ _ _ _ _
  | uint => exact vOk_vErr_ite_ne _ _ _ _ _

/-- With fuel above the code depth, lazy-free code always completes. -/
theorem runCS_complete :
    ∀ (f : ℕ) (cache : List (ℕ × CompiledFn)) (p : String) (cs : CS) (v : Value),
      idemCS cs = true → depthCS cs < f → runCS cache f p cs v ≠ none := by
  intro f
  induction f with
  | zero => intro cache p cs v _ hd; exact absurd hd (by simp)
  | succ f ih =>
    intro cache p cs v hidem hd
    cases cs with
    | cstring => exact vOk_vErr_ite_ne _ _ _ _ _
    | cboolean => exact vOk_vErr_ite_ne _ _ _ _ _
    | cnumber => exact vOk_vErr_ite_ne _ _ _ _ _
    | cinteger => exact vOk_vErr_ite_ne _ _ _ _ _
    | cbigint => exact vOk_vErr_ite_ne _ _ _ _ _
    | cliteral lv => exact vOk_vErr_ite_ne _ _ _ _ _
    | coneOf vs => exact vOk_vErr_ite_ne _ _ _ _ _
    | cmaybe inner =>
      rw [show runCS cache (f + 1) p (.cmaybe inner) v
          = (if v.notNullish then runCS cache f p inner v else vOk .vUndef) from rfl]
      by_cases hn : v.notNullish = true
      · rw [if_pos hn]
        exact ih cache p inner v (by simpa [idemCS] using hidem)
          (by have := hd; simp [depthCS] at this; omega)
      · rw [if_neg (by simpa using hn)]
        simp [vOk]
    | carray item =>
      cases v
      case vArr xs =>
        exact runElems_complete _
          (fun pp x => ih cache pp item x (by simpa [idemCS] using hidem)
            (by have := hd; simp [depthCS] at this; omega)) p xs 0 []
      all_goals simp [runCS, vErr]
    | cobject fields =>
      cases v
      case vObj fs =>
        refine runFields_complete _ p fields ?_ fs
        intro e he pp x
        exact ih cache pp e.2.2 x
          (idemFields_mem (by rw [idemCS, Bool.and_eq_true] at hidem; exact hidem.2) he)
          (by
            have h1 : depthCS e.2.2 ≤ depthFields fields := depthFields_le he
            have h2 := hd
            simp [depthCS] at h2
            omega)
      all_goals simp [runCS, vErr]
    | ctuple items =>
      cases v
      case vArr xs =>
        rw [show runCS cache (f + 1) p (.ctuple items) (.vArr xs)
            = (if xs.length = items.length then
                 runTuple (fun c pp x => runCS cache f pp c x) p 0 items [] xs
               else vErr p ("expected tuple of length " ++ toString items.length) (.vArr xs)) from rfl]
        by_cases hx : xs.length = items.length
        · rw [if_pos hx]
          refine runTuple_complete _ p items ?_ xs [] 0
          intro c hc pp x
          exact ih cache pp c x (idemList_mem (by simpa [idemCS] using hidem) hc)
            (by
              have h1 : depthCS c ≤ depthList items := depthList_le hc
              have h2 := hd
              simp [depthCS] at h2
              omega)
        · rw [if_neg hx]; simp [vErr]
      all_goals simp [runCS, vErr]
    | crecord value =>
      cases v
      case vObj fs =>
        exact runRecFields_complete _
          (fun pp x => ih cache pp value x (by simpa [idemCS] using hidem)
            (by have := hd; simp [depthCS] at this; omega)) p fs []
      all_goals simp [runCS, vErr]
    | ctypeofU cases2 =>
      rw [show runCS cache (f + 1) p (.ctypeofU cases2) v
          = (match cases2.find? (fun c => c.1 == v.typeofV) with
             | some c => runTypeofCase p c.2 v
             | none => vErr p "union failed" v) from rfl]
      cases h1 : cases2.find? (fun c => c.1 == v.typeofV) with
      | none => simp [vErr]
      | some c => exact runTypeofCase_ne_none p c.2 v
    | cudisc key cases2 =>
      cases v
      case vObj fs =>
        rw [show runCS cache (f + 1) p (.cudisc key cases2) (.vObj fs)
            = (match cases2.find? (fun c => strictEq (getKey fs key) c.1) with
               | some c => runFields (fun cc pp x => runCS cache f pp cc x) p c.2 fs
               | none => vErr p "union failed" (.vObj fs)) from rfl]
        cases h1 : cases2.find? (fun c => strictEq (getKey fs key) c.1) with
        | none => simp [vErr]
        | some c =>
          refine runFields_complete _ p c.2 ?_ fs
          intro e he pp x
          have hc : c ∈ cases2 := List.mem_of_find?_eq_some h1
          obtain ⟨_, _, _, hif⟩ := idemCases_mem (by simpa [idemCS] using hidem) hc
          exact ih cache pp e.2.2 x (idemFields_mem hif he)
            (by
              have h2 : depthCS e.2.2 ≤ depthFields c.2 := depthFields_le he
              have h3 : depthFields c.2 ≤ depthCases cases2 := depthCases_le hc
              have h4 := hd
              simp [depthCS] at h4
              omega)
      all_goals simp [runCS, vErr]
    | cufb variants =>
      refine fbGo_complete _ v variants ?_ none
      intro c hc x
      exact ih cache "" c x (idemList_mem (by simpa [idemCS] using hidem) hc)
        (by
          have h1 : depthCS c ≤ depthList variants := depthList_le hc
          have h2 := hd
          simp [depthCS] at h2
          omega)
    | ctransform fn inner => exact absurd hidem (by simp [idemCS])
    | crefine fn m inner => exact absurd hidem (by simp [idemCS])
    | cpre fn inner => exact absurd hidem (by simp [idemCS])
    | ccalltramp d => exact absurd hidem (by simp [idemCS])
    | ccallfn body => exact absurd hidem (by simp [idemCS])

/-! ### Small result-shape helpers -/

theorem ite_ok_inv {c : Prop} [Decidable c] {v : Value} {p m : String} {w : Value}
    {x : Value} (h : (if c then vOk v else vErr p m w) = some (.ok x)) :
    c ∧ x = v := by
  by_cases hc : c
  · rw [if_pos hc] at h
    simp only [vOk, Option.some.injEq, Except.ok.injEq] at h
    exact ⟨hc, h.symm⟩
  · rw [if_neg hc] at h
    simp [vErr] at h

theorem ite_error_inv {c : Prop} [Decidable c] {v : Value} {p m : String} {w : Value}
    {e : String × Value} (h : (if c then vOk v else vErr p m w) = some (.error e)) :
    ¬c ∧ e = (mkMsg p m, w) := by
  by_cases hc : c
  · rw [if_pos hc] at h
    simp [vOk] at h
  · rw [if_neg hc] at h
    simp only [vErr, Option.some.injEq, Except.error.injEq] at h
    exact ⟨hc, h.symm⟩

theorem runTypeofCase_ok {p : String} {b : UBody} {v x : Value}
    (h : runTypeofCase p b v = some (.ok x)) : x = v := by
  cases b with
  | unone =>
    simp only [runTypeofCase, vOk, Option.some.injEq, Except.ok.injEq] at h
    exact h.symm
  | ufinite => exact (ite_ok_inv h).2
  | uint => exact (ite_ok_inv h).2

theorem find?_congr {α : Type} (l : List α) (p q : α → Bool)
    (h : ∀ x ∈ l, p x = q x) : l.find? p = l.find? q := by
  induction l with
  | nil => rfl
  | cons a rest ih =>
    rw [List.find?, List.find?, h a (List.mem_cons_self a rest)]
    cases q a
    · exact ih (fun x hx => h x (List.mem_cons_of_mem a hx))
    · rfl

theorem fbGo_error_all (run : CS → Value → RRes) (v : Value) :
    ∀ (vs : List CS) (le : Option (String × Value)) (e : String × Value),
      fbGo run v vs le = some (.error e) →
      ∀ c ∈ vs, ∃ e2, run c v = some (.error e2) := by
  intro vs
  induction vs with
  | nil => intro le e _ c hc; cases hc
  | cons c rest ih =>
    intro le e h x hx
    rw [show fbGo run v (c :: rest) le
        = (match run c v with
           | none => none
           | some (.ok r) => vOk r
           | some (.error e2) => fbGo run v rest (some e2)) from rfl] at h
    cases h1 : run c v with
    | none => rw [h1] at h; exact absurd h (by simp)
    | some res =>
      rw [h1] at h
      cases res with
      | ok r => simp [vOk] at h
      | error e2 =>
        rcases List.mem_cons.mp hx with rfl | hm
        · exact ⟨e2, h1⟩
        · exact ih (some e2) e h x hm

theorem fbGo_ok_split (run : CS → Value → RRes) (v : Value) :
    ∀ (vs : List CS) (le : Option (String × Value)) (r : Value),
      fbGo run v vs le = some (.ok r) →
      ∃ pre c post, vs = pre ++ c :: post
        ∧ (∀ x ∈ pre, ∃ e, run x v = some (.error e))
        ∧ run c v = some (.ok r) := by
  intro vs
  induction vs with
  | nil => intro le r h; cases le <;> simp [fbGo, vOk] at h
  | cons c rest ih =>
    intro le r h
    rw [show fbGo run v (c :: rest) le
        = (match run c v with
           | none => none
           | some (.ok u) => vOk u
           | some (.error e2) => fbGo run v rest (some e2)) from rfl] at h
    cases h1 : run c v with
    | none => rw [h1] at h; exact absurd h (by simp)
    | some res =>
      rw [h1] at h
      cases res with
      | ok u =>
        simp only [vOk, Option.some.injEq, Except.ok.injEq] at h
        exact ⟨[], c, rest, rfl, by simp, by rw [h1, h]⟩
      | error e2 =>
        obtain ⟨pre, cc, post, hvs, hpre, hcc⟩ := ih (some e2) r h
        refine ⟨c :: pre, cc, post, by rw [hvs]; rfl, ?_, hcc⟩
        intro x hx
        rcases List.mem_cons.mp hx with rfl | hm
        · exact ⟨e2, h1⟩
        · exact hpre x hm

/-! ### The output of an idempotence-eligible validator is a
normalization of its input -/

theorem runFields_out (run : CS → String → Value → RRes) (p : String)
    (hout : ∀ c pp a x, idemCS c = true → run c pp a = some (.ok x) →
      nrelV a x = true) :
    ∀ (fields : List (String × Bool × CS)) (fs : List (String × Value)) (w : Value),
      idemFields fields = true →
      runFields run p fields fs = some (.ok w) → nrelV (.vObj fs) w = true := by
  intro fields
  induction fields with
  | nil =>
    intro fs w _ hr
    rw [show w = Value.vObj fs from (Except.ok.inj (Option.some.inj hr)).symm]
    exact nrelV_refl _
  | cons e rest ih =>
    intro fs w hidem hr
    obtain ⟨k0, gd, c⟩ := e
    rw [idemFields, Bool.and_eq_true] at hidem
    rw [show runFields run p ((k0, gd, c) :: rest) fs
        = (if gd ∧ (lookupKey fs k0).isNone then runFields run p rest fs
           else
             match run c (pathKey p k0) (getKey fs k0) with
             | none => none
             | some (.error (m, mv)) =>
               some (.error (m, .vObj (setKeyIfChanged fs k0 (getKey fs k0) mv)))
             | some (.ok u) =>
               runFields run p rest (setKeyIfChanged fs k0 (getKey fs k0) u)) from rfl] at hr
    by_cases hg : gd ∧ (lookupKey fs k0).isNone
    · rw [if_pos hg] at hr
      exact ih fs w hidem.2 hr
    · rw [if_neg hg] at hr
      cases h1 : run c (pathKey p k0) (getKey fs k0) with
      | none => rw [h1] at hr; exact absurd hr (by simp)
      | some res =>
        rw [h1] at hr
        cases res with
        | error e2 => obtain ⟨m, mv⟩ := e2; simp at hr
        | ok u =>
          have hnu : nrelV (getKey fs k0) u = true := hout c _ _ u hidem.1 h1
          have hstep : nrelF fs (setKeyIfChanged fs k0 (getKey fs k0) u) = true := by
            unfold setKeyIfChanged
            by_cases hc : u = getKey fs k0
            · rw [if_pos hc]; exact nrelF_refl fs
            · rw [if_neg hc]
              cases hlk : lookupKey fs k0 with
              | none =>
                exfalso
                have : getKey fs k0 = Value.vUndef := by simp [getKey, hlk]
                rw [this] at hnu
                exact hc (by rw [nrelV_undef_left u hnu, this])
              | some a =>
                have ha : a = getKey fs k0 := by simp [getKey, hlk]
                exact nrelF_set_self fs k0 a u hlk (ha ▸ hnu)
          have htail : nrelV (.vObj (setKeyIfChanged fs k0 (getKey fs k0) u)) w = true :=
            ih _ w hidem.2 hr
          exact nrelV_trans (.vObj fs) (.vObj (setKeyIfChanged fs k0 (getKey fs k0) u)) w
            (by simpa [nrelV] using hstep) htail

theorem runElems_out (run : String → Value → RRes) (p : String)
    (hout : ∀ pp a x, run pp a = some (.ok x) → nrelV a x = true) :
    ∀ (xs : List Value) (i : ℕ) (done : List Value) (w : Value),
      runElems run p i done xs = some (.ok w) →
      ∃ g, w = .vArr (done.reverse ++ g) ∧ nrelL xs g = true := by
  intro xs
  induction xs with
  | nil =>
    intro i done w hr
    refine ⟨[], ?_, rfl⟩
    rw [show w = Value.vArr done.reverse from (Except.ok.inj (Option.some.inj hr)).symm]
    simp
  | cons x rest ih =>
    intro i done w hr
    rw [show runElems run p i done (x :: rest)
        = (match run (pathIdx p (toString i)) x with
           | none => none
           | some (.error (m, mv)) => some (.error (m, .vArr (done.reverse ++ mv :: rest)))
           | some (.ok u) => runElems run p (i + 1) (u :: done) rest) from rfl] at hr
    cases h1 : run (pathIdx p (toString i)) x with
    | none => rw [h1] at hr; exact absurd hr (by simp)
    | some res =>
      rw [h1] at hr
      cases res with
      | error e2 => obtain ⟨m, mv⟩ := e2; simp at hr
      | ok u =>
        obtain ⟨g, hw, hg⟩ := ih (i + 1) (u :: done) w hr
        refine ⟨u :: g, ?_, ?_⟩
        · rw [hw]; simp
        · rw [nrelL, Bool.and_eq_true]
          exact ⟨hout _ _ _ h1, hg⟩

theorem runTuple_out (run : CS → String → Value → RRes) (p : String)
    (hout : ∀ c pp a x, idemCS c = true → run c pp a = some (.ok x) →
      nrelV a x = true) :
    ∀ (items : List CS) (xs done : List Value) (i : ℕ) (w : Value),
      idemList items = true →
      runTuple run p i items done xs = some (.ok w) →
      ∃ g, w = .vArr (done.reverse ++ g) ∧ nrelL xs g = true := by
  intro items
  induction items with
  | nil =>
    intro xs done i w _ hr
    refine ⟨xs, ?_, nrelL_refl xs⟩
    rw [show w = Value.vArr (done.reverse ++ xs) from (Except.ok.inj (Option.some.inj hr)).symm]
  | cons c rest ih =>
    intro xs done i w hidem hr
    rw [idemList, Bool.and_eq_true] at hidem
    cases xs with
    | nil =>
      refine ⟨[], ?_, rfl⟩
      rw [show w = Value.vArr done.reverse from (Except.ok.inj (Option.some.inj hr)).symm]
      simp
    | cons x xrest =>
      rw [show runTuple run p i (c :: rest) done (x :: xrest)
          = (match run c (pathIdx p (toString i)) x with
             | none => none
             | some (.error (m, mv)) => some (.error (m, .vArr (done.reverse ++ mv :: xrest)))
             | some (.ok u) => runTuple run p (i + 1) rest (u :: done) xrest) from rfl] at hr
      cases h1 : run c (pathIdx p (toString i)) x with
      | none => rw [h1] at hr; exact absurd hr (by simp)
      | some res =>
        rw [h1] at hr
        cases res with
        | error e2 => obtain ⟨m, mv⟩ := e2; simp at hr
        | ok u =>
          obtain ⟨g, hw, hg⟩ := ih xrest (u :: done) (i + 1) w hidem.2 hr
          refine ⟨u :: g, ?_, ?_⟩
          · rw [hw]; simp
          · rw [nrelL, Bool.and_eq_true]
            exact ⟨hout c _ _ _ hidem.1 h1, hg⟩

theorem runRecFields_out (run : String → Value → RRes) (p : String)
    (hout : ∀ pp a x, run pp a = some (.ok x) → nrelV a x = true) :
    ∀ (todo done : List (String × Value)) (w : Value),
      runRecFields run p done todo = some (.ok w) →
      ∃ g, w = .vObj (done.reverse ++ g) ∧ nrelF todo g = true := by
  intro todo
  induction todo with
  | nil =>
    intro done w hr
    refine ⟨[], ?_, rfl⟩
    rw [show w = Value.vObj done.reverse from (Except.ok.inj (Option.some.inj hr)).symm]
    simp
  | cons e rest ih =>
    intro done w hr
    obtain ⟨k, x⟩ := e
    rw [show runRecFields run p done ((k, x) :: rest)
        = (match run (pathIdx p k) x with
           | none => none
           | some (.error (m, mv)) => some (.error (m, .vObj (done.reverse ++ (k, mv) :: rest)))
           | some (.ok u) => runRecFields run p ((k, u) :: done) rest) from rfl] at hr
    cases h1 : run (pathIdx p k) x with
    | none => rw [h1] at hr; exact absurd hr (by simp)
    | some res =>
      rw [h1] at hr
      cases res with
      | error e2 => obtain ⟨m, mv⟩ := e2; simp at hr
      | ok u =>
        obtain ⟨g, hw, hg⟩ := ih ((k, u) :: done) w hr
        refine ⟨(k, u) :: g, ?_, ?_⟩
        · rw [hw]; simp
        · rw [nrelF, Bool.and_eq_true, Bool.and_eq_true]
          exact ⟨⟨beq_self_eq_true k, hout _ _ _ h1⟩, hg⟩

/-! ### Failure is stable under normalization of the input -/

theorem nodupKeysB_cons {e : String × Bool × CS} {rest : List (String × Bool × CS)}
    (h : nodupKeysB (e :: rest) = true) :
    (∀ g ∈ rest, (g.1 == e.1) = false) ∧ nodupKeysB rest := by
  rw [nodupKeysB, Bool.and_eq_true] at h
  refine ⟨fun g hg => ?_, h.2⟩
  have h1 := h.1
  rw [Bool.not_eq_true', List.any_eq_false] at h1
  simpa using h1 g hg

theorem runFields_nosuc (run : CS → String → Value → RRes) (p : String) :
    ∀ (fields : List (String × Bool × CS)) (fs gs : List (String × Value))
      (e : String × Value) (w : Value),
      (∀ ec ∈ fields, ∀ (pp : String) (a b : Value) (e2 : String × Value) (y : Value),
        idemCS ec.2.2 = true → nrelV a b = true →
        run ec.2.2 pp a = some (.error e2) → run ec.2.2 pp b = some (.ok y) → False) →
      idemFields fields = true → nodupKeysB fields = true →
      (∀ k, k ∈ fields.map (fun x => x.1) →
        (lookupKey fs k = none ∧ lookupKey gs k = none)
        ∨ ∃ a b, lookupKey fs k = some a ∧ lookupKey gs k = some b ∧ nrelV a b = true) →
      runFields run p fields fs = some (.error e) →
      runFields run p fields gs = some (.ok w) → False := by
  intro fields
  induction fields with
  | nil => intro fs gs e w _ _ _ _ hv _; simp [runFields, vOk] at hv
  | cons ec rest ih =>
    intro fs gs e w hnosuc hidem hnodup hrel hv hw
    obtain ⟨k0, gd, c⟩ := ec
    rw [idemFields, Bool.and_eq_true] at hidem
    obtain ⟨hnd1, hnd2⟩ := nodupKeysB_cons hnodup
    have hunf : ∀ (xs : List (String × Value)),
        runFields run p ((k0, gd, c) :: rest) xs
        = (if gd ∧ (lookupKey xs k0).isNone then runFields run p rest xs
           else
             match run c (pathKey p k0) (getKey xs k0) with
             | none => none
             | some (.error (m, mv)) =>
               some (.error (m, .vObj (setKeyIfChanged xs k0 (getKey xs k0) mv)))
             | some (.ok u) =>
               runFields run p rest (setKeyIfChanged xs k0 (getKey xs k0) u)) :=
      fun xs => rfl
    rw [hunf fs] at hv
    rw [hunf gs] at hw
    have hk0 := hrel k0 (by simp)
    have hiso : (lookupKey fs k0).isNone = (lookupKey gs k0).isNone := by
      rcases hk0 with ⟨h1, h2⟩ | ⟨a, b, h1, h2, _⟩ <;> simp [h1, h2]
    have hacc : nrelV (getKey fs k0) (getKey gs k0) = true := by
      rcases hk0 with ⟨h1, h2⟩ | ⟨a, b, h1, h2, h3⟩
      · simp [getKey, h1, h2, nrelV]
      · simpa [getKey, h1, h2] using h3
    have hrest : ∀ k, k ∈ rest.map (fun x => x.1) →
        (lookupKey fs k = none ∧ lookupKey gs k = none)
        ∨ ∃ a b, lookupKey fs k = some a ∧ lookupKey gs k = some b ∧ nrelV a b = true :=
      fun k hk => hrel k (by simpa using Or.inr hk)
    have hnosucR : ∀ ec ∈ rest, ∀ (pp : String) (a b : Value) (e2 : String × Value)
        (y : Value), idemCS ec.2.2 = true → nrelV a b = true →
        run ec.2.2 pp a = some (.error e2) → run ec.2.2 pp b = some (.ok y) → False :=
      fun ec2 he2 => hnosuc ec2 (List.mem_cons_of_mem _ he2)
    by_cases hg : gd ∧ (lookupKey fs k0).isNone
    · rw [if_pos hg] at hv
      rw [if_pos (by rwa [← hiso])] at hw
      exact ih fs gs e w hnosucR hidem.2 hnd2 hrest hv hw
    · rw [if_neg hg] at hv
      rw [if_neg (by rwa [← hiso])] at hw
      cases h1 : run c (pathKey p k0) (getKey fs k0) with
      | none => rw [h1] at hv; exact absurd hv (by simp)
      | some resf =>
        rw [h1] at hv
        cases h2 : run c (pathKey p k0) (getKey gs k0) with
        | none => rw [h2] at hw; exact absurd hw (by simp)
        | some resg =>
          rw [h2] at hw
          cases resg with
          | error eg => obtain ⟨m, mv⟩ := eg; simp at hw
          | ok ug =>
            cases resf with
            | error ef =>
              obtain ⟨m, mv⟩ := ef
              exact hnosuc (k0, gd, c) (List.mem_cons_self _ _) (pathKey p k0)
                (getKey fs k0) (getKey gs k0) (m, mv) ug hidem.1 hacc h1 h2
            | ok uf =>
              refine ih (setKeyIfChanged fs k0 (getKey fs k0) uf)
                (setKeyIfChanged gs k0 (getKey gs k0) ug) e w hnosucR hidem.2 hnd2
                ?_ hv hw
              intro k hk
              have hkne : k ≠ k0 := by
                intro hke
                subst hke
                obtain ⟨g2, hg2, hg2k⟩ := List.mem_map.mp hk
                have := hnd1 g2 hg2
                rw [hg2k] at this
                simp at this
              rw [lookupKey_setKeyIfChanged_ne fs k0 _ uf k hkne,
                lookupKey_setKeyIfChanged_ne gs k0 _ ug k hkne]
              exact hrest k hk

theorem runElems_nosuc (run : String → Value → RRes) (p : String)
    (hnosuc : ∀ (pp : String) (a b : Value) (e : String × Value) (y : Value),
      nrelV a b = true → run pp a = some (.error e) → run pp b = some (.ok y) → False) :
    ∀ (xs ys : List Value) (i : ℕ) (d1 d2 : List Value) (e : String × Value)
      (w : Value),
      nrelL xs ys = true →
      runElems run p i d1 xs = some (.error e) →
      runElems run p i d2 ys = some (.ok w) → False := by
  intro xs
  induction xs with
  | nil => intro ys i d1 d2 e w _ hv _; simp [runElems, vOk] at hv
  | cons x xrest ih =>
    intro ys i d1 d2 e w hrel hv hw
    cases ys with
    | nil => simp [nrelL] at hrel
    | cons y yrest =>
      rw [nrelL, Bool.and_eq_true] at hrel
      rw [show runElems run p i d1 (x :: xrest)
          = (match run (pathIdx p (toString i)) x with
             | none => none
             | some (.error (m, mv)) => some (.error (m, .vArr (d1.reverse ++ mv :: xrest)))
             | some (.ok u) => runElems run p (i + 1) (u :: d1) xrest) from rfl] at hv
      rw [show runElems run p i d2 (y :: yrest)
          = (match run (pathIdx p (toString i)) y with
             | none => none
             | some (.error (m, mv)) => some (.error (m, .vArr (d2.reverse ++ mv :: yrest)))
             | some (.ok u) => runElems run p (i + 1) (u :: d2) yrest) from rfl] at hw
      cases h1 : run (pathIdx p (toString i)) x with
      | none => rw [h1] at hv; exact absurd hv (by simp)
      | some resf =>
        rw [h1] at hv
        cases h2 : run (pathIdx p (toString i)) y with
        | none => rw [h2] at hw; exact absurd hw (by simp)
        | some resg =>
          rw [h2] at hw
          cases resg with
          | error eg => obtain ⟨m, mv⟩ := eg; simp at hw
          | ok ug =>
            cases resf with
            | error ef =>
              obtain ⟨m, mv⟩ := ef
              exact hnosuc _ x y (m, mv) ug hrel.1 h1 h2
            | ok uf => exact ih yrest (i + 1) (uf :: d1) (ug :: d2) e w hrel.2 hv hw

theorem runTuple_nosuc (run : CS → String → Value → RRes) (p : String) :
    ∀ (items : List CS),
      (∀ c ∈ items, ∀ (pp : String) (a b : Value) (e : String × Value) (y : Value),
        idemCS c = true → nrelV a b = true →
        run c pp a = some (.error e) → run c pp b = some (.ok y) → False) →
      idemList items = true →
      ∀ (xs ys : List Value) (i : ℕ) (d1 d2 : List Value) (e : String × Value)
        (w : Value),
        nrelL xs ys = true →
        runTuple run p i items d1 xs = some (.error e) →
        runTuple run p i items d2 ys = some (.ok w) → False := by
  intro items
  induction items with
  | nil => intro _ _ xs ys i d1 d2 e w _ hv _; simp [runTuple, vOk] at hv
  | cons c rest ih =>
    intro hnosuc hidem xs ys i d1 d2 e w hrel hv hw
    rw [idemList, Bool.and_eq_true] at hidem
    cases xs with
    | nil => simp [runTuple, vOk] at hv
    | cons x xrest =>
      cases ys with
      | nil => simp [nrelL] at hrel
      | cons y yrest =>
        rw [nrelL, Bool.and_eq_true] at hrel
        rw [show runTuple run p i (c :: rest) d1 (x :: xrest)
            = (match run c (pathIdx p (toString i)) x with
               | none => none
               | some (.error (m, mv)) => some (.error (m, .vArr (d1.reverse ++ mv :: xrest)))
               | some (.ok u) => runTuple run p (i + 1) rest (u :: d1) xrest) from rfl] at hv
        rw [show runTuple run p i (c :: rest) d2 (y :: yrest)
            = (match run c (pathIdx p (toString i)) y with
               | none => none
               | some (.error (m, mv)) => some (.error (m, .vArr (d2.reverse ++ mv :: yrest)))
               | some (.ok u) => runTuple run p (i + 1) rest (u :: d2) yrest) from rfl] at hw
        cases h1 : run c (pathIdx p (toString i)) x with
        | none => rw [h1] at hv; exact absurd hv (by simp)
        | some resf =>
          rw [h1] at hv
          cases h2 : run c (pathIdx p (toString i)) y with
          | none => rw [h2] at hw; exact absurd hw (by simp)
          | some resg =>
            rw [h2] at hw
            cases resg with
            | error eg => obtain ⟨m, mv⟩ := eg; simp at hw
            | ok ug =>
              cases resf with
              | error ef =>
                obtain ⟨m, mv⟩ := ef
                exact hnosuc c (List.mem_cons_self _ _) _ x y (m, mv) ug hidem.1
                  hrel.1 h1 h2
              | ok uf =>
                exact ih (fun c2 hc2 => hnosuc c2 (List.mem_cons_of_mem _ hc2)) hidem.2
                  xrest yrest (i + 1) (uf :: d1) (ug :: d2) e w hrel.2 hv hw

theorem runRecFields_nosuc (run : String → Value → RRes) (p : String)
    (hnosuc : ∀ (pp : String) (a b : Value) (e : String × Value) (y : Value),
      nrelV a b = true → run pp a = some (.error e) → run pp b = some (.ok y) → False) :
    ∀ (fsT gsT : List (String × Value)) (d1 d2 : List (String × Value))
      (e : String × Value) (w : Value),
      nrelF fsT gsT = true →
      runRecFields run p d1 fsT = some (.error e) →
      runRecFields run p d2 gsT = some (.ok w) → False := by
  intro fsT
  induction fsT with
  | nil => intro gsT d1 d2 e w _ hv _; simp [runRecFields, vOk] at hv
  | cons ef rest ih =>
    intro gsT d1 d2 e w hrel hv hw
    obtain ⟨k, x⟩ := ef
    cases gsT with
    | nil => simp [nrelF] at hrel
    | cons eg grest =>
      obtain ⟨k2, y⟩ := eg
      rw [nrelF, Bool.and_eq_true, Bool.and_eq_true] at hrel
      have hkk : k = k2 := eq_of_beq hrel.1.1
      subst hkk
      rw [show runRecFields run p d1 ((k, x) :: rest)
          = (match run (pathIdx p k) x with
             | none => none
             | some (.error (m, mv)) => some (.error (m, .vObj (d1.reverse ++ (k, mv) :: rest)))
             | some (.ok u) => runRecFields run p ((k, u) :: d1) rest) from rfl] at hv
      rw [show runRecFields run p d2 ((k, y) :: grest)
          = (match run (pathIdx p k) y with
             | none => none
             | some (.error (m, mv)) => some (.error (m, .vObj (d2.reverse ++ (k, mv) :: grest)))
             | some (.ok u) => runRecFields run p ((k, u) :: d2) grest) from rfl] at hw
      cases h1 : run (pathIdx p k) x with
      | none => rw [h1] at hv; exact absurd hv (by simp)
      | some resf =>
        rw [h1] at hv
        cases h2 : run (pathIdx p k) y with
        | none => rw [h2] at hw; exact absurd hw (by simp)
        | some resg =>
          rw [h2] at hw
          cases resg with
          | error eg2 => obtain ⟨m, mv⟩ := eg2; simp at hw
          | ok ug =>
            cases resf with
            | error ef2 =>
              obtain ⟨m, mv⟩ := ef2
              exact hnosuc _ x y (m, mv) ug hrel.1.2 h1 h2
            | ok uf => exact ih grest ((k, uf) :: d1) ((k, ug) :: d2) e w hrel.2 hv hw

/-! ### Re-running a validator on its own output -/

theorem runFields_idem (run : CS → String → Value → RRes) (p p2 : String) :
    ∀ (fields : List (String × Bool × CS)) (fs gs : List (String × Value)),
      (∀ ec ∈ fields, ∀ (pp pp2 : String) (a r : Value),
        idemCS ec.2.2 = true → run ec.2.2 pp a = some (.ok r) →
        run ec.2.2 pp2 r = some (.ok r)) →
      idemFields fields = true → nodupKeysB fields = true →
      runFields run p fields fs = some (.ok (.vObj gs)) →
      runFields run p2 fields gs = some (.ok (.vObj gs)) := by
  intro fields
  induction fields with
  | nil =>
    intro fs gs _ _ _ hr
    have hfs : fs = gs := by simpa [runFields, vOk] using hr
    subst hfs
    rfl
  | cons ec rest ih =>
    intro fs gs hidemE hidem hnodup hr
    obtain ⟨k0, gd, c⟩ := ec
    rw [idemFields, Bool.and_eq_true] at hidem
    obtain ⟨hnd1, hnd2⟩ := nodupKeysB_cons hnodup
    have hk0rest : k0 ∉ rest.map (fun e => e.1) := by
      intro hmem
      obtain ⟨g2, hg2, hg2k⟩ := List.mem_map.mp hmem
      have := hnd1 g2 hg2
      rw [hg2k] at this
      simp at this
    have hidemER : ∀ ec ∈ rest, ∀ (pp pp2 : String) (a r : Value),
        idemCS ec.2.2 = true → run ec.2.2 pp a = some (.ok r) →
        run ec.2.2 pp2 r = some (.ok r) :=
      fun ec2 he2 => hidemE ec2 (List.mem_cons_of_mem _ he2)
    have hunf : ∀ (pp : String) (xs : List (String × Value)),
        runFields run pp ((k0, gd, c) :: rest) xs
        = (if gd ∧ (lookupKey xs k0).isNone then runFields run pp rest xs
           else
             match run c (pathKey pp k0) (getKey xs k0) with
             | none => none
             | some (.error (m, mv)) =>
               some (.error (m, .vObj (setKeyIfChanged xs k0 (getKey xs k0) mv)))
             | some (.ok u) =>
               runFields run pp rest (setKeyIfChanged xs k0 (getKey xs k0) u)) :=
      fun _ _ => rfl
    rw [hunf p fs] at hr
    by_cases hg : gd ∧ (lookupKey fs k0).isNone
    · rw [if_pos hg] at hr
      obtain ⟨gs', hgs', hpres⟩ := runFields_preserves_others run p rest fs (.vObj gs) hr
      have hgseq : gs = gs' := Value.vObj.inj hgs'
      subst hgseq
      have hlk : lookupKey gs k0 = lookupKey fs k0 := hpres k0 hk0rest
      rw [hunf p2 gs, if_pos (by
        refine ⟨hg.1, ?_⟩
        rw [hlk]
        exact hg.2)]
      exact ih fs gs hidemER hidem.2 hnd2 hr
    · rw [if_neg hg] at hr
      cases h1 : run c (pathKey p k0) (getKey fs k0) with
      | none => rw [h1] at hr; exact absurd hr (by simp)
      | some res =>
        rw [h1] at hr
        cases res with
        | error e2 => obtain ⟨m, mv⟩ := e2; simp at hr
        | ok u =>
          obtain ⟨gs', hgs', hpres⟩ :=
            runFields_preserves_others run p rest _ (.vObj gs) hr
          have hgseq : gs = gs' := Value.vObj.inj hgs'
          subst hgseq
          have hlk : lookupKey gs k0
              = lookupKey (setKeyIfChanged fs k0 (getKey fs k0) u) k0 :=
            hpres k0 hk0rest
          have hgk : getKey gs k0 = u := by
            unfold setKeyIfChanged at hlk
            by_cases hc : u = getKey fs k0
            · rw [if_pos hc] at hlk
              rw [getKey, hlk, ← getKey, hc]
            · rw [if_neg hc, lookupKey_setKey_self] at hlk
              rw [getKey, hlk]
              rfl
          have hguard2 : ¬(gd ∧ (lookupKey gs k0).isNone) := by
            intro hg2
            apply hg
            refine ⟨hg2.1, ?_⟩
            unfold setKeyIfChanged at hlk
            by_cases hc : u = getKey fs k0
            · rw [if_pos hc] at hlk
              rw [← hlk]
              exact hg2.2
            · rw [if_neg hc, lookupKey_setKey_self] at hlk
              have := hg2.2
              rw [hlk] at this
              simp at this
          have hrun2 : run c (pathKey p2 k0) u = some (.ok u) :=
            hidemE (k0, gd, c) (List.mem_cons_self _ _) (pathKey p k0)
              (pathKey p2 k0) (getKey fs k0) u hidem.1 h1
          rw [hunf p2 gs, if_neg hguard2, hgk, hrun2]
          show runFields run p2 rest (setKeyIfChanged gs k0 u u) = some (.ok (.vObj gs))
          rw [show setKeyIfChanged gs k0 u u = gs from by simp [setKeyIfChanged]]
          exact ih _ gs hidemER hidem.2 hnd2 hr

theorem runElems_fix (run : String → Value → RRes) (p : String)
    (hfix : ∀ (pp : String) (a r : Value), run pp a = some (.ok r) →
      ∀ (pp2 : String), run pp2 r = some (.ok r)) :
    ∀ (xs : List Value) (i : ℕ) (done : List Value) (w : Value),
      runElems run p i done xs = some (.ok w) →
      ∃ g, w = .vArr (done.reverse ++ g)
        ∧ ∀ x ∈ g, ∀ (pp : String), run pp x = some (.ok x) := by
  intro xs
  induction xs with
  | nil =>
    intro i done w hr
    refine ⟨[], ?_, by simp⟩
    rw [show w = Value.vArr done.reverse from (Except.ok.inj (Option.some.inj hr)).symm]
    simp
  | cons x rest ih =>
    intro i done w hr
    rw [show runElems run p i done (x :: rest)
        = (match run (pathIdx p (toString i)) x with
           | none => none
           | some (.error (m, mv)) => some (.error (m, .vArr (done.reverse ++ mv :: rest)))
           | some (.ok u) => runElems run p (i + 1) (u :: done) rest) from rfl] at hr
    cases h1 : run (pathIdx p (toString i)) x with
    | none => rw [h1] at hr; exact absurd hr (by simp)
    | some res =>
      rw [h1] at hr
      cases res with
      | error e2 => obtain ⟨m, mv⟩ := e2; simp at hr
      | ok u =>
        obtain ⟨g, hw, hg⟩ := ih (i + 1) (u :: done) w hr
        refine ⟨u :: g, by rw [hw]; simp, ?_⟩
        intro y hy pp
        rcases List.mem_cons.mp hy with rfl | hm
        · exact hfix _ x y h1 pp
        · exact hg y hm pp

theorem runElems_fixed_ok (run : String → Value → RRes) (p : String) :
    ∀ (g : List Value) (i : ℕ) (done : List Value),
      (∀ x ∈ g, ∀ (pp : String), run pp x = some (.ok x)) →
      runElems run p i done g = some (.ok (.vArr (done.reverse ++ g))) := by
  intro g
  induction g with
  | nil => intro i done _; simp [runElems, vOk]
  | cons x rest ih =>
    intro i done hfix
    rw [show runElems run p i done (x :: rest)
        = (match run (pathIdx p (toString i)) x with
           | none => none
           | some (.error (m, mv)) => some (.error (m, .vArr (done.reverse ++ mv :: rest)))
           | some (.ok u) => runElems run p (i + 1) (u :: done) rest) from rfl]
    rw [hfix x (List.mem_cons_self x rest) (pathIdx p (toString i))]
    have := ih (i + 1) (x :: done) (fun y hy => hfix y (List.mem_cons_of_mem x hy))
    simpa [List.reverse_cons, List.append_assoc] using this

theorem runTuple_fix (run : CS → String → Value → RRes) (p : String) :
    ∀ (items : List CS) (xs done : List Value) (i : ℕ) (w : Value),
      (∀ c ∈ items, ∀ (pp : String) (a r : Value), idemCS c = true →
        run c pp a = some (.ok r) → ∀ (pp2 : String), run c pp2 r = some (.ok r)) →
      idemList items = true → xs.length = items.length →
      runTuple run p i items done xs = some (.ok w) →
      ∃ g, w = .vArr (done.reverse ++ g) ∧ g.length = items.length
        ∧ ∀ pr ∈ items.zip g, ∀ (pp : String), run pr.1 pp pr.2 = some (.ok pr.2) := by
  intro items
  induction items with
  | nil =>
    intro xs done i w _ _ hlen hr
    have hxs : xs = [] := List.length_eq_zero.mp hlen
    subst hxs
    refine ⟨[], ?_, rfl, by simp⟩
    rw [show w = Value.vArr (done.reverse ++ []) from (Except.ok.inj (Option.some.inj hr)).symm]
  | cons c rest ih =>
    intro xs done i w hfixE hidem hlen hr
    rw [idemList, Bool.and_eq_true] at hidem
    cases xs with
    | nil => simp at hlen
    | cons x xrest =>
      rw [show runTuple run p i (c :: rest) done (x :: xrest)
          = (match run c (pathIdx p (toString i)) x with
             | none => none
             | some (.error (m, mv)) => some (.error (m, .vArr (done.reverse ++ mv :: xrest)))
             | some (.ok u) => runTuple run p (i + 1) rest (u :: done) xrest) from rfl] at hr
      cases h1 : run c (pathIdx p (toString i)) x with
      | none => rw [h1] at hr; exact absurd hr (by simp)
      | some res =>
        rw [h1] at hr
        cases res with
        | error e2 => obtain ⟨m, mv⟩ := e2; simp at hr
        | ok u =>
          obtain ⟨g, hw, hglen, hfix⟩ := ih xrest (u :: done) (i + 1) w
            (fun c2 hc2 => hfixE c2 (List.mem_cons_of_mem _ hc2)) hidem.2
            (by simpa using hlen) hr
          refine ⟨u :: g, by rw [hw]; simp, by simpa using hglen, ?_⟩
          intro pr hpr pp
          rcases List.mem_cons.mp hpr with rfl | hm
          · exact hfixE c (List.mem_cons_self c rest) _ x u hidem.1 h1 pp
          · exact hfix pr hm pp

theorem runTuple_fixed_ok (run : CS → String → Value → RRes) (p : String) :
    ∀ (items : List CS) (g done : List Value) (i : ℕ),
      (∀ pr ∈ items.zip g, ∀ (pp : String), run pr.1 pp pr.2 = some (.ok pr.2)) →
      g.length = items.length →
      runTuple run p i items done g = some (.ok (.vArr (done.reverse ++ g))) := by
  intro items
  induction items with
  | nil =>
    intro g done i _ hlen
    have hg : g = [] := List.length_eq_zero.mp hlen
    subst hg
    rfl
  | cons c rest ih =>
    intro g done i hfix hlen
    cases g with
    | nil => simp at hlen
    | cons x grest =>
      rw [show runTuple run p i (c :: rest) done (x :: grest)
          = (match run c (pathIdx p (toString i)) x with
             | none => none
             | some (.error (m, mv)) => some (.error (m, .vArr (done.reverse ++ mv :: grest)))
             | some (.ok u) => runTuple run p (i + 1) rest (u :: done) grest) from rfl]
      rw [hfix (c, x) (by simp [List.zip]) (pathIdx p (toString i))]
      have := ih grest (x :: done) (i + 1)
        (fun pr hpr => hfix pr (by simp [List.zip]; exact Or.inr hpr))
        (by simpa using hlen)
      simpa [List.reverse_cons, List.append_assoc] using this

theorem runRecFields_fix (run : String → Value → RRes) (p : String)
    (hfix : ∀ (pp : String) (a r : Value), run pp a = some (.ok r) →
      ∀ (pp2 : String), run pp2 r = some (.ok r)) :
    ∀ (todo done : List (String × Value)) (w : Value),
      runRecFields run p done todo = some (.ok w) →
      ∃ g, w = .vObj (done.reverse ++ g)
        ∧ ∀ e ∈ g, ∀ (pp : String), run pp e.2 = some (.ok e.2) := by
  intro todo
  induction todo with
  | nil =>
    intro done w hr
    refine ⟨[], ?_, by simp⟩
    rw [show w = Value.vObj done.reverse from (Except.ok.inj (Option.some.inj hr)).symm]
    simp
  | cons e rest ih =>
    intro done w hr
    obtain ⟨k, x⟩ := e
    rw [show runRecFields run p done ((k, x) :: rest)
        = (match run (pathIdx p k) x with
           | none => none
           | some (.error (m, mv)) => some (.error (m, .vObj (done.reverse ++ (k, mv) :: rest)))
           | some (.ok u) => runRecFields run p ((k, u) :: done) rest) from rfl] at hr
    cases h1 : run (pathIdx p k) x with
    | none => rw [h1] at hr; exact absurd hr (by simp)
    | some res =>
      rw [h1] at hr
      cases res with
      | error e2 => obtain ⟨m, mv⟩ := e2; simp at hr
      | ok u =>
        obtain ⟨g, hw, hg⟩ := ih ((k, u) :: done) w hr
        refine ⟨(k, u) :: g, by rw [hw]; simp, ?_⟩
        intro e2 he2 pp
        rcases List.mem_cons.mp he2 with rfl | hm
        · exact hfix _ x u h1 pp
        · exact hg e2 hm pp

theorem runRecFields_fixed_ok (run : String → Value → RRes) (p : String) :
    ∀ (g done : List (String × Value)),
      (∀ e ∈ g, ∀ (pp : String), run pp e.2 = some (.ok e.2)) →
      runRecFields run p done g = some (.ok (.vObj (done.reverse ++ g))) := by
  intro g
  induction g with
  | nil => intro done _; simp [runRecFields, vOk]
  | cons e rest ih =>
    intro done hfix
    obtain ⟨k, x⟩ := e
    rw [show runRecFields run p done ((k, x) :: rest)
        = (match run (pathIdx p k) x with
           | none => none
           | some (.error (m, mv)) => some (.error (m, .vObj (done.reverse ++ (k, mv) :: rest)))
           | some (.ok u) => runRecFields run p ((k, u) :: done) rest) from rfl]
    rw [show run (pathIdx p k) x = some (.ok x) from
      hfix (k, x) (List.mem_cons_self _ _) (pathIdx p k)]
    have := ih ((k, x) :: done) (fun e2 he2 => hfix e2 (List.mem_cons_of_mem _ he2))
    simpa [List.reverse_cons, List.append_assoc] using this

theorem nrel_typeof_iff (v w : Value) (h : nrelV v w = true) (t : String)
    (hto : t ≠ "object") (htu : t ≠ "undefined") :
    v.typeofV = t ↔ w.typeofV = t := by
  by_cases hv : v = .vNull
  · subst hv
    rcases nrelV_null_left w h with rfl | rfl
    · exact Iff.rfl
    · constructor
      · intro hx; exact absurd hx.symm hto
      · intro hx; exact absurd hx.symm htu
  · rw [nrel_typeof v w h hv]

theorem nrel_strictEq_lit_eq (lv a b : Value) (hok : litOK lv = true)
    (h : nrelV a b = true) (hb : b ≠ .vUndef) :
    strictEq a lv = strictEq b lv := by
  cases a with
  | vUndef => exact absurd (nrelV_undef_left b h) hb
  | vNull =>
    rcases nrelV_null_left b h with rfl | rfl
    · rfl
    · exact absurd rfl hb
  | vBool x => rw [nrelV_bool_left x b h]
  | vNum q => rw [nrelV_num_left q b h]
  | vNaN => rw [nrelV_nan_left b h]
  | vInf x => rw [nrelV_inf_left x b h]
  | vStr s => rw [nrelV_str_left s b h]
  | vBig n => rw [nrelV_big_left n b h]
  | vArr xs =>
    obtain ⟨ys, rfl, -⟩ := nrelV_arr_left xs b h
    cases lv <;> simp [litOK] at hok <;> simp [strictEq, beqV]
  | vObj fs =>
    obtain ⟨gs, rfl, -⟩ := nrelV_obj_left fs b h
    cases lv <;> simp [litOK] at hok <;> simp [strictEq, beqV]

theorem runTypeofCase_idem {p p2 : String} {b : UBody} {v x : Value}
    (h : runTypeofCase p b v = some (.ok x)) :
    runTypeofCase p2 b v = some (.ok v) := by
  cases b with
  | unone => rfl
  | ufinite =>
    obtain ⟨hc, -⟩ := ite_ok_inv (show (if v.isFiniteNum = true then vOk v
      else vErr p "expected finite number" v) = some (.ok x) from h)
    show (if v.isFiniteNum = true then vOk v
      else vErr p2 "expected finite number" v) = some (.ok v)
    rw [if_pos hc]
    rfl
  | uint =>
    obtain ⟨hc, -⟩ := ite_ok_inv (show (if v.isIntNum = true then vOk v
      else vErr p "expected integer" v) = some (.ok x) from h)
    show (if v.isIntNum = true then vOk v
      else vErr p2 "expected integer" v) = some (.ok v)
    rw [if_pos hc]
    rfl

/-- The heart of the amended idempotence claim, by induction on fuel:
for idempotence-eligible code, (1) a successful output is a
normalization of the input, (2) a failing input cannot be related by
normalization to a succeeding one, and (3) re-running on the output
returns the output unchanged. -/
theorem runCS_idem_main :
    ∀ (f : ℕ) (cache : List (ℕ × CompiledFn)) (cs : CS),
      idemCS cs = true →
      ((∀ (p : String) (v r : Value),
          runCS cache f p cs v = some (.ok r) → nrelV v r = true)
       ∧ (∀ (p : String) (v w : Value) (e : String × Value) (y : Value),
            nrelV v w = true → runCS cache f p cs v = some (.error e) →
            runCS cache f p cs w = some (.ok y) → False)
       ∧ (depthCS cs < f →
          ∀ (p p2 : String) (v r : Value),
            runCS cache f p cs v = some (.ok r) →
            runCS cache f p2 cs r = some (.ok r))) := by
  intro f
  induction f with
  | zero =>
    intro cache cs _
    refine ⟨?_, ?_, ?_⟩
    · intro p v r hr; exact absurd hr (by simp [runCS])
    · intro p v w e y _ hv _; exact absurd hv (by simp [runCS])
    · intro hd; exact absurd hd (Nat.not_lt_zero _)
  | succ f ih =>
    intro cache cs hidem
    have ihOUT : ∀ (c : CS), idemCS c = true → ∀ (p : String) (v r : Value),
        runCS cache f p c v = some (.ok r) → nrelV v r = true :=
      fun c hc => (ih cache c hc).1
    have ihNOSUC : ∀ (c : CS), idemCS c = true → ∀ (p : String) (v w : Value)
        (e : String × Value) (y : Value), nrelV v w = true →
        runCS cache f p c v = some (.error e) →
        runCS cache f p c w = some (.ok y) → False :=
      fun c hc => (ih cache c hc).2.1
    have ihIDEM : ∀ (c : CS), idemCS c = true → depthCS c < f →
        ∀ (p p2 : String) (v r : Value), runCS cache f p c v = some (.ok r) →
          runCS cache f p2 c r = some (.ok r) :=
      fun c hc => (ih cache c hc).2.2
    cases cs with
    | cstring =>
      refine ⟨?_, ?_, ?_⟩
      · intro p v r hr
        obtain ⟨-, hrv⟩ := ite_ok_inv (show (if v.typeofV = "string" then vOk v
          else vErr p "expected string" v) = some (.ok r) from hr)
        rw [hrv]
        exact nrelV_refl v
      · intro p v w e y hrel hv hw
        have h1 := ite_error_inv (show (if v.typeofV = "string" then vOk v
          else vErr p "expected string" v) = some (.error e) from hv)
        have h2 := ite_ok_inv (show (if w.typeofV = "string" then vOk w
          else vErr p "expected string" w) = some (.ok y) from hw)
        exact h1.1 ((nrel_typeof_iff v w hrel "string" (by decide) (by decide)).mpr h2.1)
      · intro hd p p2 v r hr
        obtain ⟨hc, hrv⟩ := ite_ok_inv (show (if v.typeofV = "string" then vOk v
          else vErr p "expected string" v) = some (.ok r) from hr)
        show (if r.typeofV = "string" then vOk r
          else vErr p2 "expected string" r) = some (.ok r)
        rw [hrv, if_pos hc]
        rfl
    | cboolean =>
      refine ⟨?_, ?_, ?_⟩
      · intro p v r hr
        obtain ⟨-, hrv⟩ := ite_ok_inv (show (if v.typeofV = "boolean" then vOk v
          else vErr p "expected boolean" v) = some (.ok r) from hr)
        rw [hrv]
        exact nrelV_refl v
      · intro p v w e y hrel hv hw
        have h1 := ite_error_inv (show (if v.typeofV = "boolean" then vOk v
          else vErr p "expected boolean" v) = some (.error e) from hv)
        have h2 := ite_ok_inv (show (if w.typeofV = "boolean" then vOk w
          else vErr p "expected boolean" w) = some (.ok y) from hw)
        exact h1.1 ((nrel_typeof_iff v w hrel "boolean" (by decide) (by decide)).mpr h2.1)
      · intro hd p p2 v r hr
        obtain ⟨hc, hrv⟩ := ite_ok_inv (show (if v.typeofV = "boolean" then vOk v
          else vErr p "expected boolean" v) = some (.ok r) from hr)
        show (if r.typeofV = "boolean" then vOk r
          else vErr p2 "expected boolean" r) = some (.ok r)
        rw [hrv, if_pos hc]
        rfl
    | cnumber =>
      refine ⟨?_, ?_, ?_⟩
      · intro p v r hr
        obtain ⟨-, hrv⟩ := ite_ok_inv
          (show (if v.typeofV = "number" ∧ v.isFiniteNum = true then vOk v
            else vErr p "expected finite number" v) = some (.ok r) from hr)
        rw [hrv]
        exact nrelV_refl v
      · intro p v w e y hrel hv hw
        have h1 := ite_error_inv
          (show (if v.typeofV = "number" ∧ v.isFiniteNum = true then vOk v
            else vErr p "expected finite number" v) = some (.error e) from hv)
        have h2 := ite_ok_inv
          (show (if w.typeofV = "number" ∧ w.isFiniteNum = true then vOk w
            else vErr p "expected finite number" w) = some (.ok y) from hw)
        exact h1.1 ⟨(nrel_typeof_iff v w hrel "number" (by decide) (by decide)).mpr h2.1.1,
          nrel_isFinite v w hrel ▸ h2.1.2⟩
      · intro hd p p2 v r hr
        obtain ⟨hc, hrv⟩ := ite_ok_inv
          (show (if v.typeofV = "number" ∧ v.isFiniteNum = true then vOk v
            else vErr p "expected finite number" v) = some (.ok r) from hr)
        show (if r.typeofV = "number" ∧ r.isFiniteNum = true then vOk r
          else vErr p2 "expected finite number" r) = some (.ok r)
        rw [hrv, if_pos hc]
        rfl
    | cinteger =>
      refine ⟨?_, ?_, ?_⟩
      · intro p v r hr
        obtain ⟨-, hrv⟩ := ite_ok_inv
          (show (if v.typeofV = "number" ∧ v.isIntNum = true then vOk v
            else vErr p "expected integer" v) = some (.ok r) from hr)
        rw [hrv]
        exact nrelV_refl v
      · intro p v w e y hrel hv hw
        have h1 := ite_error_inv
          (show (if v.typeofV = "number" ∧ v.isIntNum = true then vOk v
            else vErr p "expected integer" v) = some (.error e) from hv)
        have h2 := ite_ok_inv
          (show (if w.typeofV = "number" ∧ w.isIntNum = true then vOk w
            else vErr p "expected integer" w) = some (.ok y) from hw)
        exact h1.1 ⟨(nrel_typeof_iff v w hrel "number" (by decide) (by decide)).mpr h2.1.1,
          nrel_isInt v w hrel ▸ h2.1.2⟩
      · intro hd p p2 v r hr
        obtain ⟨hc, hrv⟩ := ite_ok_inv
          (show (if v.typeofV = "number" ∧ v.isIntNum = true then vOk v
            else vErr p "expected integer" v) = some (.ok r) from hr)
        show (if r.typeofV = "number" ∧ r.isIntNum = true then vOk r
          else vErr p2 "expected integer" r) = some (.ok r)
        rw [hrv, if_pos hc]
        rfl
    | cbigint =>
      refine ⟨?_, ?_, ?_⟩
      · intro p v r hr
        obtain ⟨-, hrv⟩ := ite_ok_inv (show (if v.typeofV = "bigint" then vOk v
          else vErr p "expected bigint" v) = some (.ok r) from hr)
        rw [hrv]
        exact nrelV_refl v
      · intro p v w e y hrel hv hw
        have h1 := ite_error_inv (show (if v.typeofV = "bigint" then vOk v
          else vErr p "expected bigint" v) = some (.error e) from hv)
        have h2 := ite_ok_inv (show (if w.typeofV = "bigint" then vOk w
          else vErr p "expected bigint" w) = some (.ok y) from hw)
        exact h1.1 ((nrel_typeof_iff v w hrel "bigint" (by decide) (by decide)).mpr h2.1)
      · intro hd p p2 v r hr
        obtain ⟨hc, hrv⟩ := ite_ok_inv (show (if v.typeofV = "bigint" then vOk v
          else vErr p "expected bigint" v) = some (.ok r) from hr)
        show (if r.typeofV = "bigint" then vOk r
          else vErr p2 "expected bigint" r) = some (.ok r)
        rw [hrv, if_pos hc]
        rfl
    | cliteral lv =>
      have hok : litOK lv = true := hidem
      refine ⟨?_, ?_, ?_⟩
      · intro p v r hr
        obtain ⟨-, hrv⟩ := ite_ok_inv (show (if strictEq v lv = true then vOk v
          else vErr p ("expected " ++ renderV lv) v) = some (.ok r) from hr)
        rw [hrv]
        exact nrelV_refl v
      · intro p v w e y hrel hv hw
        have h1 := ite_error_inv (show (if strictEq v lv = true then vOk v
          else vErr p ("expected " ++ renderV lv) v) = some (.error e) from hv)
        have h2 := ite_ok_inv (show (if strictEq w lv = true then vOk w
          else vErr p ("expected " ++ renderV lv) w) = some (.ok y) from hw)
        have hne : strictEq v lv = false := Bool.eq_false_iff.mpr h1.1
        exact absurd h2.1 (by rw [nrel_strictEq_lit lv v w hok hrel hne]; simp)
      · intro hd p p2 v r hr
        obtain ⟨hc, hrv⟩ := ite_ok_inv (show (if strictEq v lv = true then vOk v
          else vErr p ("expected " ++ renderV lv) v) = some (.ok r) from hr)
        show (if strictEq r lv = true then vOk r
          else vErr p2 ("expected " ++ renderV lv) r) = some (.ok r)
        rw [hrv, if_pos hc]
        rfl
    | coneOf vs =>
      have hok : oneOfOK vs = true := hidem
      refine ⟨?_, ?_, ?_⟩
      · intro p v r hr
        obtain ⟨-, hrv⟩ := ite_ok_inv
          (show (if (vs.any (fun x => strictEq v x)) = true then vOk v
            else vErr p ("expected one of: " ++ String.intercalate ", " (vs.map renderV)) v)
            = some (.ok r) from hr)
        rw [hrv]
        exact nrelV_refl v
      · intro p v w e y hrel hv hw
        have h1 := ite_error_inv
          (show (if (vs.any (fun x => strictEq v x)) = true then vOk v
            else vErr p ("expected one of: " ++ String.intercalate ", " (vs.map renderV)) v)
            = some (.error e) from hv)
        have h2 := ite_ok_inv
          (show (if (vs.any (fun x => strictEq w x)) = true then vOk w
            else vErr p ("expected one of: " ++ String.intercalate ", " (vs.map renderV)) w)
            = some (.ok y) from hw)
        exact h1.1 (by rw [← nrel_oneOf_any vs v w hok hrel]; exact h2.1)
      · intro hd p p2 v r hr
        obtain ⟨hc, hrv⟩ := ite_ok_inv
          (show (if (vs.any (fun x => strictEq v x)) = true then vOk v
            else vErr p ("expected one of: " ++ String.intercalate ", " (vs.map renderV)) v)
            = some (.ok r) from hr)
        show (if (vs.any (fun x => strictEq r x)) = true then vOk r
          else vErr p2 ("expected one of: " ++ String.intercalate ", " (vs.map renderV)) r)
          = some (.ok r)
        rw [hrv, if_pos hc]
        rfl
    | cmaybe inner =>
      have hin : idemCS inner = true := hidem
      refine ⟨?_, ?_, ?_⟩
      · intro p v r hr
        have hr2 : (if v.notNullish = true then runCS cache f p inner v
            else vOk .vUndef) = some (.ok r) := hr
        by_cases hn : v.notNullish = true
        · rw [if_pos hn] at hr2
          exact ihOUT inner hin p v r hr2
        · rw [if_neg hn] at hr2
          have hru : r = .vUndef := (Except.ok.inj (Option.some.inj hr2)).symm
          subst hru
          cases v <;> simp [Value.notNullish] at hn <;> simp [nrelV]
      · intro p v w e y hrel hv hw
        have hv2 : (if v.notNullish = true then runCS cache f p inner v
            else vOk .vUndef) = some (.error e) := hv
        have hw2 : (if w.notNullish = true then runCS cache f p inner w
            else vOk .vUndef) = some (.ok y) := hw
        by_cases hn : v.notNullish = true
        · rw [if_pos hn] at hv2
          rw [if_pos (by rw [nrel_notNullish v w hrel]; exact hn)] at hw2
          exact ihNOSUC inner hin p v w e y hrel hv2 hw2
        · rw [if_neg hn] at hv2
          simp [vOk] at hv2
      · intro hd p p2 v r hr
        have hdi : depthCS inner < f := by
          have := hd; simp [depthCS] at this; omega
        have hr2 : (if v.notNullish = true then runCS cache f p inner v
            else vOk .vUndef) = some (.ok r) := hr
        by_cases hn : v.notNullish = true
        · rw [if_pos hn] at hr2
          have hnr : nrelV v r = true := ihOUT inner hin p v r hr2
          have hrn : r.notNullish = true := by
            rw [← nrel_notNullish v r hnr] at hn
            exact hn
          show (if r.notNullish = true then runCS cache f p2 inner r
            else vOk .vUndef) = some (.ok r)
          rw [if_pos hrn]
          exact ihIDEM inner hin hdi p p2 v r hr2
        · rw [if_neg hn] at hr2
          have hru : r = .vUndef := (Except.ok.inj (Option.some.inj hr2)).symm
          subst hru
          show (if Value.notNullish .vUndef = true then runCS cache f p2 inner .vUndef
            else vOk .vUndef) = some (.ok .vUndef)
          rw [if_neg (by simp [Value.notNullish])]
          rfl
    | carray item =>
      have hin : idemCS item = true := hidem
      refine ⟨?_, ?_, ?_⟩
      · intro p v r hr
        cases v
        case vArr xs =>
          obtain ⟨g, hw, hg⟩ := runElems_out _ p
            (fun pp a x h => ihOUT item hin pp a x h) xs 0 [] r hr
          rw [hw]
          simpa [nrelV] using hg
        all_goals simp [runCS, vErr] at hr
      · intro p v w e y hrel hv hw
        cases w
        case vArr ys =>
          cases v
          case vArr xs =>
            simp only [nrelV] at hrel
            exact runElems_nosuc _ p
              (fun pp a b e2 y0 h he ho => ihNOSUC item hin pp a b e2 y0 h he ho)
              xs ys 0 [] [] e y hrel hv hw
          all_goals simp [nrelV] at hrel
        all_goals simp [runCS, vErr] at hw
      · intro hd p p2 v r hr
        have hdi : depthCS item < f := by
          have := hd; simp [depthCS] at this; omega
        cases v
        case vArr xs =>
          obtain ⟨g, hw, hfix⟩ := runElems_fix _ p
            (fun pp a x h pp2 => ihIDEM item hin hdi pp pp2 a x h) xs 0 [] r hr
          rw [List.reverse_nil, List.nil_append] at hw
          subst hw
          have := runElems_fixed_ok (fun pp x => runCS cache f pp item x) p2 g 0 [] hfix
          simpa using this
        all_goals simp [runCS, vErr] at hr
    | cobject fields =>
      have hobj : (nodupKeysB fields && idemFields fields) = true := hidem
      rw [Bool.and_eq_true] at hobj
      refine ⟨?_, ?_, ?_⟩
      · intro p v r hr
        cases v
        case vObj fs =>
          exact runFields_out _ p (fun c pp a x hc h => ihOUT c hc pp a x h)
            fields fs r hobj.2 hr
        all_goals simp [runCS, vErr] at hr
      · intro p v w e y hrel hv hw
        cases w
        case vObj gs =>
          cases v
          case vObj fs =>
            simp only [nrelV] at hrel
            exact runFields_nosuc _ p fields fs gs e y
              (fun ec hec pp a b e2 y0 hc h he ho =>
                ihNOSUC ec.2.2 hc pp a b e2 y0 h he ho)
              hobj.2 hobj.1 (fun k _ => nrelF_lookup fs gs hrel k) hv hw
          all_goals simp [nrelV] at hrel
        all_goals simp [runCS, vErr] at hw
      · intro hd p p2 v r hr
        cases v
        case vObj fs =>
          obtain ⟨gs, hgs, -⟩ := runFields_preserves_others
            (fun c pp x => runCS cache f pp c x) p fields fs r hr
          subst hgs
          exact runFields_idem _ p p2 fields fs gs
            (fun ec hec pp pp2 a r2 hc h => ihIDEM ec.2.2 hc (by
              have h1 := depthFields_le hec
              have h2 := hd
              simp [depthCS] at h2
              omega) pp pp2 a r2 h)
            hobj.2 hobj.1 hr
        all_goals simp [runCS, vErr] at hr
    | ctuple items =>
      have hlist : idemList items = true := hidem
      refine ⟨?_, ?_, ?_⟩
      · intro p v r hr
        cases v
        case vArr xs =>
          have hr2 : (if xs.length = items.length then
              runTuple (fun c pp x => runCS cache f pp c x) p 0 items [] xs
              else vErr p ("expected tuple of length " ++ toString items.length)
                (.vArr xs)) = some (.ok r) := hr
          by_cases hx : xs.length = items.length
          · rw [if_pos hx] at hr2
            obtain ⟨g, hw, hg⟩ := runTuple_out _ p
              (fun c pp a x hc h => ihOUT c hc pp a x h) items xs [] 0 r hlist hr2
            rw [hw]
            simpa [nrelV] using hg
          · rw [if_neg hx] at hr2
            simp [vErr] at hr2
        all_goals simp [runCS, vErr] at hr
      · intro p v w e y hrel hv hw
        cases w
        case vArr ys =>
          cases v
          case vArr xs =>
            simp only [nrelV] at hrel
            have hv2 : (if xs.length = items.length then
                runTuple (fun c pp x => runCS cache f pp c x) p 0 items [] xs
                else vErr p ("expected tuple of length " ++ toString items.length)
                  (.vArr xs)) = some (.error e) := hv
            have hw2 : (if ys.length = items.length then
                runTuple (fun c pp x => runCS cache f pp c x) p 0 items [] ys
                else vErr p ("expected tuple of length " ++ toString items.length)
                  (.vArr ys)) = some (.ok y) := hw
            by_cases hly : ys.length = items.length
            · have hlx : xs.length = items.length := by
                rw [nrelL_length xs ys hrel]
                exact hly
              rw [if_pos hlx] at hv2
              rw [if_pos hly] at hw2
              exact runTuple_nosuc _ p items
                (fun c hc pp a b e2 y0 hic h he ho =>
                  ihNOSUC c hic pp a b e2 y0 h he ho)
                hlist xs ys 0 [] [] e y hrel hv2 hw2
            · rw [if_neg hly] at hw2
              simp [vErr] at hw2
          all_goals simp [nrelV] at hrel
        all_goals simp [runCS, vErr] at hw
      · intro hd p p2 v r hr
        cases v
        case vArr xs =>
          have hr2 : (if xs.length = items.length then
              runTuple (fun c pp x => runCS cache f pp c x) p 0 items [] xs
              else vErr p ("expected tuple of length " ++ toString items.length)
                (.vArr xs)) = some (.ok r) := hr
          by_cases hx : xs.length = items.length
          · rw [if_pos hx] at hr2
            obtain ⟨g, hw, hglen, hfix⟩ := runTuple_fix _ p items xs [] 0 r
              (fun c hc pp a r2 hic h pp2 => ihIDEM c hic (by
                have h1 := depthList_le hc
                have h2 := hd
                simp [depthCS] at h2
                omega) pp pp2 a r2 h)
              hlist hx hr2
            rw [List.reverse_nil, List.nil_append] at hw
            subst hw
            show (if g.length = items.length then
              runTuple (fun c pp x => runCS cache f pp c x) p2 0 items [] g
              else vErr p2 ("expected tuple of length " ++ toString items.length)
                (.vArr g)) = some (.ok (.vArr g))
            rw [if_pos hglen]
            have := runTuple_fixed_ok (fun c pp x => runCS cache f pp c x) p2
              items g [] 0 hfix hglen
            simpa using this
          · rw [if_neg hx] at hr2
            simp [vErr] at hr2
        all_goals simp [runCS, vErr] at hr
    | crecord value =>
      have hin : idemCS value = true := hidem
      refine ⟨?_, ?_, ?_⟩
      · intro p v r hr
        cases v
        case vObj fs =>
          obtain ⟨g, hw, hg⟩ := runRecFields_out _ p
            (fun pp a x h => ihOUT value hin pp a x h) fs [] r hr
          rw [hw]
          simpa [nrelV] using hg
        all_goals simp [runCS, vErr] at hr
      · intro p v w e y hrel hv hw
        cases w
        case vObj gs =>
          cases v
          case vObj fs =>
            simp only [nrelV] at hrel
            exact runRecFields_nosuc _ p
              (fun pp a b e2 y0 h he ho => ihNOSUC value hin pp a b e2 y0 h he ho)
              fs gs [] [] e y hrel hv hw
          all_goals simp [nrelV] at hrel
        all_goals simp [runCS, vErr] at hw
      · intro hd p p2 v r hr
        have hdi : depthCS value < f := by
          have := hd; simp [depthCS] at this; omega
        cases v
        case vObj fs =>
          obtain ⟨g, hw, hfix⟩ := runRecFields_fix _ p
            (fun pp a x h pp2 => ihIDEM value hin hdi pp pp2 a x h) fs [] r hr
          rw [List.reverse_nil, List.nil_append] at hw
          subst hw
          have := runRecFields_fixed_ok (fun pp x => runCS cache f pp value x) p2 g [] hfix
          simpa using this
        all_goals simp [runCS, vErr] at hr
    | ctypeofU cases2 =>
      have hall : (cases2.all (fun c =>
          c.1 == "string" || c.1 == "boolean" || c.1 == "number" || c.1 == "bigint"))
          = true := hidem
      have htags : ∀ c ∈ cases2, c.1 = "string" ∨ c.1 = "boolean"
          ∨ c.1 = "number" ∨ c.1 = "bigint" := by
        rw [List.all_eq_true] at hall
        intro c hc
        have := hall c hc
        simp only [Bool.or_eq_true, beq_iff_eq] at this
        tauto
      refine ⟨?_, ?_, ?_⟩
      · intro p v r hr
        have hr2 : (match cases2.find? (fun c => c.1 == v.typeofV) with
            | some c => runTypeofCase p c.2 v
            | none => vErr p "union failed" v) = some (.ok r) := hr
        cases hf : cases2.find? (fun c => c.1 == v.typeofV) with
        | none => rw [hf] at hr2; simp [vErr] at hr2
        | some c =>
          rw [hf] at hr2
          rw [runTypeofCase_ok hr2]
          exact nrelV_refl v
      · intro p v w e y hrel hv hw
        have hv2 : (match cases2.find? (fun c => c.1 == v.typeofV) with
            | some c => runTypeofCase p c.2 v
            | none => vErr p "union failed" v) = some (.error e) := hv
        have hw2 : (match cases2.find? (fun c => c.1 == w.typeofV) with
            | some c => runTypeofCase p c.2 w
            | none => vErr p "union failed" w) = some (.ok y) := hw
        cases hfw : cases2.find? (fun c => c.1 == w.typeofV) with
        | none => rw [hfw] at hw2; simp [vErr] at hw2
        | some cw =>
          rw [hfw] at hw2
          have hcwmem : cw ∈ cases2 := List.mem_of_find?_eq_some hfw
          have hcwt := List.find?_some hfw
          have hcw1 : cw.1 = w.typeofV := eq_of_beq hcwt
          have hnobj : cw.1 ≠ "object" := by
            rcases htags cw hcwmem with ht | ht | ht | ht <;> rw [ht] <;> decide
          have hnund : cw.1 ≠ "undefined" := by
            rcases htags cw hcwmem with ht | ht | ht | ht <;> rw [ht] <;> decide
          have hvt : v.typeofV = cw.1 :=
            (nrel_typeof_iff v w hrel cw.1 hnobj hnund).mpr hcw1.symm
          have hty : v.typeofV = w.typeofV := by rw [hvt, hcw1]
          have hfv : cases2.find? (fun c => c.1 == v.typeofV) = some cw := by
            rw [show (fun c : String × UBody => c.1 == v.typeofV)
                = (fun c => c.1 == w.typeofV) from by funext c; rw [hty]]
            exact hfw
          rw [hfv] at hv2
          have hv3 : runTypeofCase p cw.2 v = some (.error e) := hv2
          have hw3 : runTypeofCase p cw.2 w = some (.ok y) := hw2
          cases hb : cw.2 with
          | unone => rw [hb] at hv3; simp [runTypeofCase, vOk] at hv3
          | ufinite =>
            rw [hb] at hv3 hw3
            have h1 := ite_error_inv (show (if v.isFiniteNum = true then vOk v
              else vErr p "expected finite number" v) = some (.error e) from hv3)
            have h2 := ite_ok_inv (show (if w.isFiniteNum = true then vOk w
              else vErr p "expected finite number" w) = some (.ok y) from hw3)
            exact h1.1 (nrel_isFinite v w hrel ▸ h2.1)
          | uint =>
            rw [hb] at hv3 hw3
            have h1 := ite_error_inv (show (if v.isIntNum = true then vOk v
              else vErr p "expected integer" v) = some (.error e) from hv3)
            have h2 := ite_ok_inv (show (if w.isIntNum = true then vOk w
              else vErr p "expected integer" w) = some (.ok y) from hw3)
            exact h1.1 (nrel_isInt v w hrel ▸ h2.1)
      · intro hd p p2 v r hr
        have hr2 : (match cases2.find? (fun c => c.1 == v.typeofV) with
            | some c => runTypeofCase p c.2 v
            | none => vErr p "union failed" v) = some (.ok r) := hr
        cases hf : cases2.find? (fun c => c.1 == v.typeofV) with
        | none => rw [hf] at hr2; simp [vErr] at hr2
        | some c =>
          rw [hf] at hr2
          have hrv : r = v := runTypeofCase_ok hr2
          subst hrv
          show (match cases2.find? (fun c => c.1 == r.typeofV) with
              | some c => runTypeofCase p2 c.2 r
              | none => vErr p2 "union failed" r) = some (.ok r)
          rw [hf]
          exact runTypeofCase_idem hr2
    | cudisc key cases2 =>
      have hidemCs : idemCases key cases2 = true := hidem
      refine ⟨?_, ?_, ?_⟩
      · intro p v r hr
        cases v
        case vObj fs =>
          have hr2 : (match cases2.find? (fun c => strictEq (getKey fs key) c.1) with
              | some c => runFields (fun cc pp x => runCS cache f pp cc x) p c.2 fs
              | none => vErr p "union failed" (.vObj fs)) = some (.ok r) := hr
          cases hf : cases2.find? (fun c => strictEq (getKey fs key) c.1) with
          | none => rw [hf] at hr2; simp [vErr] at hr2
          | some c =>
            rw [hf] at hr2
            obtain ⟨-, -, -, hidemC⟩ :=
              idemCases_mem hidemCs (List.mem_of_find?_eq_some hf)
            exact runFields_out _ p (fun c2 pp a x hc2 h => ihOUT c2 hc2 pp a x h)
              c.2 fs r hidemC hr2
        all_goals simp [runCS, vErr] at hr
      · intro p v w e y hrel hv hw
        cases w
        case vObj gs =>
          cases v
          case vObj fs =>
            simp only [nrelV] at hrel
            have hv2 : (match cases2.find? (fun c => strictEq (getKey fs key) c.1) with
                | some c => runFields (fun cc pp x => runCS cache f pp cc x) p c.2 fs
                | none => vErr p "union failed" (.vObj fs)) = some (.error e) := hv
            have hw2 : (match cases2.find? (fun c => strictEq (getKey gs key) c.1) with
                | some c => runFields (fun cc pp x => runCS cache f pp cc x) p c.2 gs
                | none => vErr p "union failed" (.vObj gs)) = some (.ok y) := hw
            cases hfw : cases2.find? (fun c => strictEq (getKey gs key) c.1) with
            | none => rw [hfw] at hw2; simp [vErr] at hw2
            | some cw =>
              rw [hfw] at hw2
              have hcwmem : cw ∈ cases2 := List.mem_of_find?_eq_some hfw
              obtain ⟨hlit, hkeyex, hnodupC, hidemC⟩ := idemCases_mem hidemCs hcwmem
              have hmatch0 := List.find?_some hfw
              have hmatch : strictEq (getKey gs key) cw.1 = true := hmatch0
              have hbne : getKey gs key ≠ .vUndef := by
                intro hu
                rw [hu] at hmatch
                have h3 := strictEq_eq_of_true _ _ hmatch
                rw [← h3] at hlit
                simp [litOK] at hlit
              have hab : nrelV (getKey fs key) (getKey gs key) = true :=
                nrelF_getKey fs gs hrel key
              have hpred : ∀ c ∈ cases2,
                  (fun c => strictEq (getKey fs key) c.1) c
                  = (fun c => strictEq (getKey gs key) c.1) c := by
                intro c hc
                obtain ⟨hlit2, -, -, -⟩ := idemCases_mem hidemCs hc
                exact nrel_strictEq_lit_eq c.1 _ _ hlit2 hab hbne
              have hfv : cases2.find? (fun c => strictEq (getKey fs key) c.1)
                  = some cw := by
                rw [find?_congr cases2 _ _ hpred]
                exact hfw
              rw [hfv] at hv2
              exact runFields_nosuc _ p cw.2 fs gs e y
                (fun ec hec pp a b e2 y0 hc h he ho =>
                  ihNOSUC ec.2.2 hc pp a b e2 y0 h he ho)
                hidemC hnodupC (fun k _ => nrelF_lookup fs gs hrel k) hv2 hw2
          all_goals simp [nrelV] at hrel
        all_goals simp [runCS, vErr] at hw
      · intro hd p p2 v r hr
        cases v
        case vObj fs =>
          have hr2 : (match cases2.find? (fun c => strictEq (getKey fs key) c.1) with
              | some c => runFields (fun cc pp x => runCS cache f pp cc x) p c.2 fs
              | none => vErr p "union failed" (.vObj fs)) = some (.ok r) := hr
          cases hf : cases2.find? (fun c => strictEq (getKey fs key) c.1) with
          | none => rw [hf] at hr2; simp [vErr] at hr2
          | some cw =>
            rw [hf] at hr2
            have hcwmem : cw ∈ cases2 := List.mem_of_find?_eq_some hf
            obtain ⟨hlit, hkeyex, hnodupC, hidemC⟩ := idemCases_mem hidemCs hcwmem
            obtain ⟨gs, hgs, hpres⟩ := runFields_preserves_others
              (fun cc pp x => runCS cache f pp cc x) p cw.2 fs r hr2
            subst hgs
            have hknotin : key ∉ cw.2.map (fun e => e.1) := by
              intro hmem
              obtain ⟨g2, hg2, hg2k⟩ := List.mem_map.mp hmem
              rw [List.any_eq_false] at hkeyex
              exact hkeyex g2 hg2 (by rw [hg2k]; exact beq_self_eq_true key)
            have hgk : getKey gs key = getKey fs key :=
              getKey_eq_of_lookup (hpres key hknotin)
            have hfg : cases2.find? (fun c => strictEq (getKey gs key) c.1)
                = some cw := by
              rw [show (fun c : Value × List (String × Bool × CS) =>
                  strictEq (getKey gs key) c.1)
                  = (fun c => strictEq (getKey fs key) c.1) from by funext c; rw [hgk]]
              exact hf
            show (match cases2.find? (fun c => strictEq (getKey gs key) c.1) with
                | some c => runFields (fun cc pp x => runCS cache f pp cc x) p2 c.2 gs
                | none => vErr p2 "union failed" (.vObj gs)) = some (.ok (.vObj gs))
            rw [hfg]
            exact runFields_idem _ p p2 cw.2 fs gs
              (fun ec hec pp pp2 a r2 hc h => ihIDEM ec.2.2 hc (by
                have h1 := depthFields_le hec
                have h2 := depthCases_le hcwmem
                have h3 := hd
                simp [depthCS] at h3
                omega) pp pp2 a r2 h)
              hidemC hnodupC hr2
        all_goals simp [runCS, vErr] at hr
    | cufb variants =>
      have hlist : idemList variants = true := hidem
      refine ⟨?_, ?_, ?_⟩
      · intro p v r hr
        obtain ⟨c, hcmem, hc⟩ := fbGo_ok_mem
          (fun c x => runCS cache f "" c x) v variants none r hr
        exact ihOUT c (idemList_mem hlist hcmem) "" v r hc
      · intro p v w e y hrel hv hw
        obtain ⟨c, hcmem, hc⟩ := fbGo_ok_mem
          (fun c x => runCS cache f "" c x) w variants none y hw
        obtain ⟨e2, he2⟩ := fbGo_error_all
          (fun c x => runCS cache f "" c x) v variants none e hv c hcmem
        exact ihNOSUC c (idemList_mem hlist hcmem) "" v w e2 y hrel he2 hc
      · intro hd p p2 v r hr
        have hdl : depthList variants < f := by
          have := hd; simp [depthCS] at this; omega
        obtain ⟨pre, c, post, hvs, hpre, hc⟩ := fbGo_ok_split
          (fun c x => runCS cache f "" c x) v variants none r hr
        have hcmem : c ∈ variants := by rw [hvs]; simp
        have hidc : idemCS c = true := idemList_mem hlist hcmem
        have hnrel : nrelV v r = true := ihOUT c hidc "" v r hc
        have hpre2 : ∀ x ∈ pre, ∃ e2,
            runCS cache f "" x r = some (.error e2) := by
          intro x hx
          have hxmem : x ∈ variants := by rw [hvs]; simp [hx]
          obtain ⟨e0, he0⟩ := hpre x hx
          have hxid : idemCS x = true := idemList_mem hlist hxmem
          have hdep : depthCS x < f := lt_of_le_of_lt (depthList_le hxmem) hdl
          cases h2 : runCS cache f "" x r with
          | none => exact absurd h2 (runCS_complete f cache "" x r hxid hdep)
          | some res =>
            cases res with
            | error e2 => exact ⟨e2, rfl⟩
            | ok y0 => exact (ihNOSUC x hxid "" v r e0 y0 hnrel he0 h2).elim
        have hcr : runCS cache f "" c r = some (.ok r) :=
          ihIDEM c hidc (lt_of_le_of_lt (depthList_le hcmem) hdl) "" "" v r hc
        rw [hvs]
        exact fbGo_first_success (fun c x => runCS cache f "" c x) r
          pre c post none r hpre2 hcr
    | ctransform fn inner => exact absurd hidem (by simp [idemCS])
    | crefine fn m inner => exact absurd hidem (by simp [idemCS])
    | cpre fn inner => exact absurd hidem (by simp [idemCS])
    | ccalltramp d => exact absurd hidem (by simp [idemCS])
    | ccallfn body => exact absurd hidem (by simp [idemCS])

/-! ### Descriptors that compile to idempotence-eligible code -/

/-- Key duplication freedom of a descriptor shape (an object literal in
the source language cannot carry two own properties with the same
key). -/
def nodupKeysS : List (String × Schema) → Bool
  | [] => true
  | e :: rest => !(rest.any (fun g => g.1 == e.1)) && nodupKeysS rest

mutual

/-- Descriptors built without `transform`, `preprocess`, `refine` and
`lazy`, with the payload constraints the combinator types impose:
literal values are primitives, `oneOf` values strings or numbers, and
object shapes duplicate-free. -/
def idemSchema : Schema → Bool
  | .string => true
  | .boolean => true
  | .number => true
  | .integer => true
  | .bigint => true
  | .literal v => litOK v
  | .oneOf vs => oneOfOK vs
  | .maybe inner => idemSchema inner
  | .array item => idemSchema item
  | .object shape => nodupKeysS shape && idemShape shape
  | .tuple items => idemSList items
  | .record value => idemSchema value
  | .union variants => idemSList variants
  | _ => false

def idemShape : List (String × Schema) → Bool
  | [] => true
  | e :: rest => idemSchema e.2 && idemShape rest

def idemSList : List Schema → Bool
  | [] => true
  | s :: rest => idemSchema s && idemSList rest

end

theorem idemShape_mem : ∀ (s : List (String × Schema)), idemShape s = true →
    ∀ e ∈ s, idemSchema e.2 = true := by
  intro s
  induction s with
  | nil => intro _ e he; cases he
  | cons x rest ih =>
    intro h e he
    rw [idemShape, Bool.and_eq_true] at h
    rcases List.mem_cons.mp he with rfl | hm
    · exact h.1
    · exact ih h.2 e hm

theorem idemShape_of_mem : ∀ (s : List (String × Schema)),
    (∀ e ∈ s, idemSchema e.2 = true) → idemShape s = true := by
  intro s
  induction s with
  | nil => intro _; rfl
  | cons x rest ih =>
    intro h
    rw [idemShape, Bool.and_eq_true]
    exact ⟨h x (List.mem_cons_self _ _), ih (fun e he => h e (List.mem_cons_of_mem _ he))⟩

theorem idemSList_mem : ∀ (s : List Schema), idemSList s = true →
    ∀ v ∈ s, idemSchema v = true := by
  intro s
  induction s with
  | nil => intro _ v hv; cases hv
  | cons x rest ih =>
    intro h v hv
    rw [idemSList, Bool.and_eq_true] at h
    rcases List.mem_cons.mp hv with rfl | hm
    · exact h.1
    · exact ih h.2 v hm

theorem any_key_eqB : ∀ (l : List (String × Bool × CS)) (k : String),
    (l.any (fun g => g.1 == k)) = ((l.map (fun e => e.1)).any (fun g => g == k)) := by
  intro l k
  induction l with
  | nil => rfl
  | cons e rest ih => rw [List.any_cons, List.map_cons, List.any_cons, ih]

theorem any_key_eqS : ∀ (l : List (String × Schema)) (k : String),
    (l.any (fun g => g.1 == k)) = ((l.map (fun e => e.1)).any (fun g => g == k)) := by
  intro l k
  induction l with
  | nil => rfl
  | cons e rest ih => rw [List.any_cons, List.map_cons, List.any_cons, ih]

theorem emitShape_keys (em : Schema → Option CS) :
    ∀ (shape : List (String × Schema)) (fl : List (String × Bool × CS)),
      emitShape em shape = some fl →
      fl.map (fun e => e.1) = shape.map (fun e => e.1) := by
  intro shape
  induction shape with
  | nil =>
    intro fl he
    simp only [emitShape, Option.some.injEq] at he
    rw [← he]
    rfl
  | cons e rest ih =>
    intro fl he
    rw [emitShape] at he
    cases h1 : em e.2 with
    | none => rw [h1] at he; exact absurd he (by simp)
    | some c =>
      cases h2 : emitShape em rest with
      | none => rw [h1, h2] at he; exact absurd he (by simp)
      | some cs =>
        rw [h1, h2] at he
        simp only [Option.some.injEq] at he
        rw [← he]
        simp only [List.map_cons]
        rw [ih cs h2]

theorem nodupKeysB_of_keys : ∀ (fl : List (String × Bool × CS))
    (s : List (String × Schema)),
    fl.map (fun e => e.1) = s.map (fun e => e.1) → nodupKeysS s = true →
    nodupKeysB fl = true := by
  intro fl
  induction fl with
  | nil => intro s _ _; rfl
  | cons e fl ih =>
    intro s hk hs
    cases s with
    | nil => simp at hk
    | cons g s =>
      simp only [List.map_cons, List.cons.injEq] at hk
      rw [nodupKeysS, Bool.and_eq_true] at hs
      rw [nodupKeysB, Bool.and_eq_true]
      refine ⟨?_, ih s hk.2 hs.2⟩
      rw [Bool.not_eq_true', any_key_eqB, hk.2, hk.1, ← any_key_eqS]
      have h1 := hs.1
      rw [Bool.not_eq_true'] at h1
      exact h1

theorem nodupKeysS_filter (p : String × Schema → Bool) :
    ∀ (s : List (String × Schema)), nodupKeysS s = true →
      nodupKeysS (s.filter p) = true := by
  intro s
  induction s with
  | nil => intro _; rfl
  | cons e rest ih =>
    intro hs
    rw [nodupKeysS, Bool.and_eq_true] at hs
    rw [List.filter_cons]
    by_cases hp : p e = true
    · rw [if_pos hp, nodupKeysS, Bool.and_eq_true]
      refine ⟨?_, ih hs.2⟩
      rw [Bool.not_eq_true', List.any_eq_false]
      intro x hx
      have h1 := hs.1
      rw [Bool.not_eq_true', List.any_eq_false] at h1
      exact h1 x (List.mem_of_mem_filter hx)
    · rw [if_neg hp]
      exact ih hs.2

theorem idemShape_filter (p : String × Schema → Bool)
    (s : List (String × Schema)) (hs : idemShape s = true) :
    idemShape (s.filter p) = true :=
  idemShape_of_mem _ (fun e he => idemShape_mem s hs e (List.mem_of_mem_filter he))

theorem filter_key_out (s : List (String × Schema)) (k : String) :
    ((s.filter (fun e => ¬ e.1 == k)).any (fun e => e.1 == k)) = false := by
  rw [List.any_eq_false]
  intro x hx
  have h1 := List.of_mem_filter hx
  simp only [decide_eq_true_eq] at h1
  exact h1

theorem shapeLookup_mem (s : List (String × Schema)) (k : String) (fd : Schema)
    (h : shapeLookup s k = some fd) : ∃ e ∈ s, e.2 = fd := by
  unfold shapeLookup at h
  cases hf : s.find? (fun e => e.1 == k) with
  | none => rw [hf] at h; simp at h
  | some e =>
    rw [hf] at h
    exact ⟨e, List.mem_of_find?_eq_some hf, Option.some.inj h⟩

theorem typeofTagOf_mem (v : Schema) (t : String) (h : typeofTagOf v = some t) :
    t = "string" ∨ t = "boolean" ∨ t = "number" ∨ t = "bigint" := by
  cases v with
  | string => exact Or.inl (Option.some.inj h).symm
  | boolean => exact Or.inr (Or.inl (Option.some.inj h).symm)
  | number => exact Or.inr (Or.inr (Or.inl (Option.some.inj h).symm))
  | integer => exact Or.inr (Or.inr (Or.inl (Option.some.inj h).symm))
  | bigint => exact Or.inr (Or.inr (Or.inr (Option.some.inj h).symm))
  | literal v2 => simp [typeofTagOf] at h
  | oneOf vs => simp [typeofTagOf] at h
  | maybe inner => simp [typeofTagOf] at h
  | array item => simp [typeofTagOf] at h
  | object shape => simp [typeofTagOf] at h
  | tuple items => simp [typeofTagOf] at h
  | record value => simp [typeofTagOf] at h
  | union variants => simp [typeofTagOf] at h
  | transform inner fn => simp [typeofTagOf] at h
  | refine inner fn m => simp [typeofTagOf] at h
  | preprocess inner fn => simp [typeofTagOf] at h
  | lazy t2 => simp [typeofTagOf] at h

theorem typeofPlanGo_tags : ∀ (vs : List Schema) (acc cases2 : List (String × UBody)),
    typeofPlanGo vs acc = some cases2 →
    (∀ c ∈ acc, c.1 = "string" ∨ c.1 = "boolean" ∨ c.1 = "number" ∨ c.1 = "bigint") →
    ∀ c ∈ cases2, c.1 = "string" ∨ c.1 = "boolean" ∨ c.1 = "number" ∨ c.1 = "bigint" := by
  intro vs
  induction vs with
  | nil =>
    intro acc cases2 h hacc c hc
    have h2 : acc.reverse = cases2 := Option.some.inj h
    rw [← h2] at hc
    exact hacc c (List.mem_reverse.mp hc)
  | cons v vs ih =>
    intro acc cases2 h hacc c hc
    rw [show typeofPlanGo (v :: vs) acc
        = (match typeofTagOf v with
           | none => none
           | some t =>
             if acc.any (fun c => c.1 == t) then none
             else typeofPlanGo vs ((t, ubodyOf v) :: acc)) from rfl] at h
    cases h1 : typeofTagOf v with
    | none => rw [h1] at h; exact absurd h (by simp)
    | some t =>
      rw [h1] at h
      have h3 : (if (acc.any (fun c => c.1 == t)) = true then none
          else typeofPlanGo vs ((t, ubodyOf v) :: acc)) = some cases2 := h
      by_cases h2 : (acc.any (fun c => c.1 == t)) = true
      · rw [if_pos h2] at h3; exact absurd h3 (by simp)
      · rw [if_neg h2] at h3
        refine ih ((t, ubodyOf v) :: acc) cases2 h3 ?_ c hc
        intro c2 hc2
        rcases List.mem_cons.mp hc2 with rfl | hm
        · exact typeofTagOf_mem v t h1
        · exact hacc c2 hm

theorem discTryKey_cases : ∀ (vs : List Schema) (k : String) (seen : List Value)
    (cases2 : List (Value × List (String × Schema))),
    discTryKey k vs seen = some cases2 →
    (∀ v ∈ vs, idemSchema v = true) →
    ∀ c ∈ cases2, litOK c.1 = true ∧ nodupKeysS c.2 = true ∧ idemShape c.2 = true
      ∧ (c.2.any (fun e => e.1 == k)) = false := by
  intro vs
  induction vs with
  | nil =>
    intro k seen cases2 h _ c hc
    have h2 : ([] : List (Value × List (String × Schema))) = cases2 := Option.some.inj h
    rw [← h2] at hc
    cases hc
  | cons v vs ih =>
    intro k seen cases2 h hidem c hc
    rw [show discTryKey k (v :: vs) seen
        = (match shapeOf v with
           | none => none
           | some shape =>
             match shapeLookup shape k with
             | none => none
             | some field =>
               match litOf field with
               | none => none
               | some val =>
                 if seen.contains val then none
                 else
                   match discTryKey k vs (val :: seen) with
                   | none => none
                   | some rest =>
                     some ((val, shape.filter (fun e => ¬ e.1 == k)) :: rest)) from rfl] at h
    cases h1 : shapeOf v with
    | none => rw [h1] at h; exact absurd h (by simp)
    | some shape =>
      rw [h1] at h
      have hA : (match shapeLookup shape k with
         | none => none
         | some field =>
           match litOf field with
           | none => none
           | some val =>
             if seen.contains val then none
             else
               match discTryKey k vs (val :: seen) with
               | none => none
               | some rest =>
                 some ((val, shape.filter (fun e => ¬ e.1 == k)) :: rest))
          = some cases2 := h
      cases h2 : shapeLookup shape k with
      | none => rw [h2] at hA; exact absurd hA (by simp)
      | some field =>
        rw [h2] at hA
        have hB : (match litOf field with
           | none => none
           | some val =>
             if seen.contains val then none
             else
               match discTryKey k vs (val :: seen) with
               | none => none
               | some rest =>
                 some ((val, shape.filter (fun e => ¬ e.1 == k)) :: rest))
            = some cases2 := hA
        cases h3 : litOf field with
        | none => rw [h3] at hB; exact absurd hB (by simp)
        | some val =>
          rw [h3] at hB
          have hC : (if seen.contains val then none
             else
               match discTryKey k vs (val :: seen) with
               | none => none
               | some rest =>
                 some ((val, shape.filter (fun e => ¬ e.1 == k)) :: rest))
              = some cases2 := hB
          by_cases h4 : seen.contains val = true
          · rw [if_pos h4] at hC; exact absurd hC (by simp)
          · rw [if_neg h4] at hC
            cases h5 : discTryKey k vs (val :: seen) with
            | none => rw [h5] at hC; exact absurd hC (by simp)
            | some rest =>
              rw [h5] at hC
              rw [← Option.some.inj hC] at hc
              rcases List.mem_cons.mp hc with rfl | hm
              · have hv : v = .object shape := by
                  cases v <;> simp [shapeOf] at h1
                  rw [h1]
                have hobj : (nodupKeysS shape && idemShape shape) = true := by
                  have := hidem v (List.mem_cons_self _ _)
                  rw [hv] at this
                  exact this
                rw [Bool.and_eq_true] at hobj
                have hfield : idemSchema field = true := by
                  obtain ⟨e, he, hef⟩ := shapeLookup_mem shape k field h2
                  rw [← hef]
                  exact idemShape_mem shape hobj.2 e he
                have hlit : litOK val = true := by
                  cases field <;> simp [litOf] at h3
                  case literal v2 =>
                    rw [← h3]
                    exact hfield
                exact ⟨hlit, nodupKeysS_filter _ shape hobj.1,
                  idemShape_filter _ shape hobj.2, filter_key_out shape k⟩
              · exact ih k (val :: seen) rest h5
                  (fun v2 hv2 => hidem v2 (List.mem_cons_of_mem _ hv2)) c hm

theorem discFindKey_spec : ∀ (ks : List String) (variants : List Schema)
    (key : String) (cases2 : List (Value × List (String × Schema))),
    discFindKey variants ks = some (key, cases2) →
    discTryKey key variants [] = some cases2 := by
  intro ks
  induction ks with
  | nil => intro variants key cases2 h; simp [discFindKey] at h
  | cons k ks ih =>
    intro variants key cases2 h
    rw [show discFindKey variants (k :: ks)
        = (match discTryKey k variants [] with
           | some cases => some (k, cases)
           | none => discFindKey variants ks) from rfl] at h
    cases h1 : discTryKey k variants [] with
    | none => rw [h1] at h; exact ih variants key cases2 h
    | some cs =>
      rw [h1] at h
      have h2 := Option.some.inj h
      rw [show key = k from (congrArg Prod.fst h2).symm,
        show cases2 = cs from (congrArg Prod.snd h2).symm]
      exact h1

theorem discPlan_spec (variants : List Schema) (key : String)
    (cases2 : List (Value × List (String × Schema)))
    (h : discPlan variants = some (key, cases2)) :
    discTryKey key variants [] = some cases2 := by
  unfold discPlan at h
  by_cases hall : (variants.all (fun v => (shapeOf v).isSome)) = true
  · rw [if_pos hall] at h
    cases variants with
    | nil => simp at h
    | cons v0 rest =>
      have h0 : (match shapeOf v0 with
         | none => none
         | some s0 => discFindKey (v0 :: rest) (s0.map (fun e => e.1)))
          = some (key, cases2) := h
      cases h1 : shapeOf v0 with
      | none => rw [h1] at h0; simp at h0
      | some s0 =>
        rw [h1] at h0
        exact discFindKey_spec (s0.map (fun e => e.1)) (v0 :: rest) key cases2 h0
  · rw [if_neg hall] at h
    simp at h

theorem emitShape_idem (em : Schema → Option CS)
    (hem : ∀ sch c, idemSchema sch = true → em sch = some c → idemCS c = true) :
    ∀ (shape : List (String × Schema)) (fl : List (String × Bool × CS)),
      idemShape shape = true → emitShape em shape = some fl →
      idemFields fl = true := by
  intro shape
  induction shape with
  | nil =>
    intro fl _ he
    simp only [emitShape, Option.some.injEq] at he
    rw [← he]
    rfl
  | cons e rest ih =>
    intro fl hco he
    rw [idemShape, Bool.and_eq_true] at hco
    rw [emitShape] at he
    cases h1 : em e.2 with
    | none => rw [h1] at he; exact absurd he (by simp)
    | some c =>
      cases h2 : emitShape em rest with
      | none => rw [h1, h2] at he; exact absurd he (by simp)
      | some cs =>
        rw [h1, h2] at he
        simp only [Option.some.injEq] at he
        rw [← he, idemFields, Bool.and_eq_true]
        exact ⟨hem e.2 c hco.1 h1, ih cs hco.2 h2⟩

theorem emitList_idem (em : Schema → Option CS)
    (hem : ∀ sch c, idemSchema sch = true → em sch = some c → idemCS c = true) :
    ∀ (items : List Schema) (cl : List CS),
      idemSList items = true → emitList em items = some cl →
      idemList cl = true := by
  intro items
  induction items with
  | nil =>
    intro cl _ he
    simp only [emitList, Option.some.injEq] at he
    rw [← he]
    rfl
  | cons s rest ih =>
    intro cl hco he
    rw [idemSList, Bool.and_eq_true] at hco
    rw [emitList] at he
    cases h1 : em s with
    | none => rw [h1] at he; exact absurd he (by simp)
    | some c =>
      cases h2 : emitList em rest with
      | none => rw [h1, h2] at he; exact absurd he (by simp)
      | some cs =>
        rw [h1, h2] at he
        simp only [Option.some.injEq] at he
        rw [← he, idemList, Bool.and_eq_true]
        exact ⟨hem s c hco.1 h1, ih cs hco.2 h2⟩

theorem emitCases_idem (em : Schema → Option CS)
    (hem : ∀ sch c, idemSchema sch = true → em sch = some c → idemCS c = true)
    (k : String) :
    ∀ (cases2 : List (Value × List (String × Schema)))
      (cl : List (Value × List (String × Bool × CS))),
      (∀ c ∈ cases2, litOK c.1 = true ∧ nodupKeysS c.2 = true ∧ idemShape c.2 = true
        ∧ (c.2.any (fun e => e.1 == k)) = false) →
      emitCases em cases2 = some cl →
      idemCases k cl = true := by
  intro cases2
  induction cases2 with
  | nil =>
    intro cl _ he
    simp only [emitCases, Option.some.injEq] at he
    rw [← he]
    rfl
  | cons c rest ih =>
    intro cl hprops he
    rw [emitCases] at he
    cases h1 : emitShape em c.2 with
    | none => rw [h1] at he; exact absurd he (by simp)
    | some fl =>
      cases h2 : emitCases em rest with
      | none => rw [h1, h2] at he; exact absurd he (by simp)
      | some cs =>
        rw [h1, h2] at he
        simp only [Option.some.injEq] at he
        obtain ⟨hlit, hnodup, hshape, hkey⟩ := hprops c (List.mem_cons_self _ _)
        rw [← he]
        rw [show idemCases k ((c.1, fl) :: cs)
            = (litOK c.1 && !(fl.any (fun e => e.1 == k)) && nodupKeysB fl
               && idemFields fl && idemCases k cs) from rfl]
        simp only [Bool.and_eq_true]
        refine ⟨⟨⟨⟨hlit, ?_⟩, ?_⟩, ?_⟩, ?_⟩
        · rw [Bool.not_eq_true', any_key_eqB, emitShape_keys em c.2 fl h1, ← any_key_eqS]
          exact hkey
        · exact nodupKeysB_of_keys fl c.2 (emitShape_keys em c.2 fl h1) hnodup
        · exact emitShape_idem em hem c.2 fl hshape h1
        · exact ih cs (fun c2 hc2 => hprops c2 (List.mem_cons_of_mem _ hc2)) h2

/-- Emission maps transform-, preprocess-, refine- and lazy-free
descriptors to idempotence-eligible code. -/
theorem emitC_idem :
    ∀ (f : ℕ) (h : Heap) (S : List ℕ) (sch : Schema) (cs : CS),
      idemSchema sch = true → emitC h f S sch = some cs → idemCS cs = true := by
  intro f
  induction f with
  | zero => intro h S sch cs _ he; exact absurd he (by simp [emitC])
  | succ f ih =>
    intro h S sch cs hco he
    cases sch with
    | string => rw [← Option.some.inj he]; rfl
    | boolean => rw [← Option.some.inj he]; rfl
    | number => rw [← Option.some.inj he]; rfl
    | integer => rw [← Option.some.inj he]; rfl
    | bigint => rw [← Option.some.inj he]; rfl
    | literal v =>
      rw [← Option.some.inj he]
      exact hco
    | oneOf vs =>
      rw [← Option.some.inj he]
      exact hco
    | maybe inner =>
      rw [show emitC h (f + 1) S (.maybe inner) = (emitC h f S inner).map .cmaybe from rfl] at he
      cases h1 : emitC h f S inner with
      | none => rw [h1] at he; exact absurd he (by simp)
      | some c =>
        rw [h1] at he
        simp only [Option.map_some', Option.some.injEq] at he
        rw [← he]
        simpa [idemCS] using ih h S inner c (by simpa [idemSchema] using hco) h1
    | array item =>
      rw [show emitC h (f + 1) S (.array item) = (emitC h f S item).map .carray from rfl] at he
      cases h1 : emitC h f S item with
      | none => rw [h1] at he; exact absurd he (by simp)
      | some c =>
        rw [h1] at he
        simp only [Option.map_some', Option.some.injEq] at he
        rw [← he]
        simpa [idemCS] using ih h S item c (by simpa [idemSchema] using hco) h1
    | object shape =>
      rw [show emitC h (f + 1) S (.object shape)
          = (emitShape (fun s => emitC h f S s) shape).map .cobject from rfl] at he
      cases h1 : emitShape (fun s => emitC h f S s) shape with
      | none => rw [h1] at he; exact absurd he (by simp)
      | some fl =>
        rw [h1] at he
        simp only [Option.map_some', Option.some.injEq] at he
        rw [← he]
        have hco2 : (nodupKeysS shape && idemShape shape) = true := hco
        rw [Bool.and_eq_true] at hco2
        show (nodupKeysB fl && idemFields fl) = true
        rw [Bool.and_eq_true]
        exact ⟨nodupKeysB_of_keys fl shape
            (emitShape_keys (fun s => emitC h f S s) shape fl h1) hco2.1,
          emitShape_idem _ (fun s c hs hc => ih h S s c hs hc) shape fl hco2.2 h1⟩
    | tuple items =>
      rw [show emitC h (f + 1) S (.tuple items)
          = (emitList (fun s => emitC h f S s) items).map .ctuple from rfl] at he
      cases h1 : emitList (fun s => emitC h f S s) items with
      | none => rw [h1] at he; exact absurd he (by simp)
      | some cl =>
        rw [h1] at he
        simp only [Option.map_some', Option.some.injEq] at he
        rw [← he]
        simpa [idemCS] using
          emitList_idem _ (fun s c hs hc => ih h S s c hs hc) items cl
            (by simpa [idemSchema] using hco) h1
    | record value =>
      rw [show emitC h (f + 1) S (.record value)
          = (emitC h f S value).map .crecord from rfl] at he
      cases h1 : emitC h f S value with
      | none => rw [h1] at he; exact absurd he (by simp)
      | some c =>
        rw [h1] at he
        simp only [Option.map_some', Option.some.injEq] at he
        rw [← he]
        simpa [idemCS] using ih h S value c (by simpa [idemSchema] using hco) h1
    | union variants =>
      have hvar : idemSList variants = true := hco
      rw [show emitC h (f + 1) S (.union variants)
          = (match typeofPlan variants with
             | some cases => some (.ctypeofU cases)
             | none =>
               match discPlan variants with
               | some (key, cases) =>
                 (emitCases (fun s => emitC h f S s) cases).map (.cudisc key)
               | none => (emitList (fun s => emitC h f S s) variants).map .cufb) from rfl] at he
      cases hplan : typeofPlan variants with
      | some tcases =>
        rw [hplan] at he
        rw [← Option.some.inj he]
        have htags := typeofPlanGo_tags variants [] tcases hplan
          (by intro c hc; cases hc)
        show (tcases.all (fun c =>
          c.1 == "string" || c.1 == "boolean" || c.1 == "number" || c.1 == "bigint")) = true
        rw [List.all_eq_true]
        intro c hc
        rcases htags c hc with ht | ht | ht | ht <;> simp [ht]
      | none =>
        rw [hplan] at he
        have he2 : (match discPlan variants with
           | some (key, cases) =>
             Option.map (CS.cudisc key) (emitCases (fun s => emitC h f S s) cases)
           | none => Option.map CS.cufb (emitList (fun s => emitC h f S s) variants))
            = some cs := he
        cases hdisc : discPlan variants with
        | some kc =>
          obtain ⟨key, dcases⟩ := kc
          rw [hdisc] at he2
          have he3 : Option.map (CS.cudisc key)
              (emitCases (fun s => emitC h f S s) dcases) = some cs := he2
          cases h1 : emitCases (fun s => emitC h f S s) dcases with
          | none => rw [h1] at he3; exact absurd he3 (by simp)
          | some cl =>
            rw [h1] at he3
            simp only [Option.map_some', Option.some.injEq] at he3
            rw [← he3]
            show idemCases key cl = true
            refine emitCases_idem _ (fun s c hs hc => ih h S s c hs hc) key dcases cl ?_ h1
            exact discTryKey_cases variants key [] dcases
              (discPlan_spec variants key dcases hdisc)
              (fun v hv => idemSList_mem variants hvar v hv)
        | none =>
          rw [hdisc] at he2
          have he3 : Option.map CS.cufb
              (emitList (fun s => emitC h f S s) variants) = some cs := he2
          cases h1 : emitList (fun s => emitC h f S s) variants with
          | none => rw [h1] at he3; exact absurd he3 (by simp)
          | some cl =>
            rw [h1] at he3
            simp only [Option.map_some', Option.some.injEq] at he3
            rw [← he3]
            simpa [idemCS] using
              emitList_idem _ (fun s c hs hc => ih h S s c hs hc) variants cl hvar h1
    | transform inner fn => exact absurd hco (by simp [idemSchema])
    | refine inner fn m => exact absurd hco (by simp [idemSchema])
    | preprocess inner fn => exact absurd hco (by simp [idemSchema])
    | lazy t => exact absurd hco (by simp [idemSchema])

/-- C2 (amended): for every descriptor free of `transform`,
`preprocess`, `refine` and `lazy` (with the payload constraints the
combinator types impose), the compiled validator is idempotent on its
own output: whenever validation of `v` succeeds with result `r`,
validating `r` again succeeds with exactly the same result `r`. -/
theorem c2_idempotent_amended (h : Heap) (f : ℕ) (S : List ℕ) (sch : Schema)
    (cs : CS) (hi : idemSchema sch = true) (he : emitC h f S sch = some cs)
    (cache : List (ℕ × CompiledFn)) (g : ℕ) (p : String) (v r : Value)
    (hg : depthCS cs < g) (hr : runCS cache g p cs v = some (.ok r)) :
    runCS cache g p cs r = some (.ok r) :=
  (runCS_idem_main g cache cs (emitC_idem f h S sch cs hi he)).2.2 hg p p v r hr

theorem c2_witness :
    runCS [] 3 "" (.cobject [("name", true, .cmaybe .cstring)])
      (.vObj [("name", .vUndef)])
    = some (.ok (.vObj [("name", .vUndef)])) :=
  c2_idempotent_amended [] 5 [] (.object [("name", .maybe .string)])
    (.cobject [("name", true, .cmaybe .cstring)]) rfl rfl [] 3 ""
    (.vObj [("name", .vNull)]) (.vObj [("name", .vUndef)])
    (by decide) rfl

end Suckless
